import Mathlib

/-!
# MultiLevel: segmented, two-level paged address translation

A shallow embedding of `memory_simulator_advanced.cpp` and a verification of its
translation path.

Modelling conventions.

* C++ `int` values are mathematical integers (`Int`); signed overflow, which is
  undefined behaviour in the source, is outside the model.
* A member function that mutates its object takes the object and returns the new one.
* A `std::runtime_error` is an `Outcome.throw`; the state reached at the point of the
  `throw` is returned next to it, because the drivers catch the error and go on.
* Behaviour that the source leaves undefined, or that ends the process with an
  exception no driver catches, is `none` in an `Option`.
* The process-wide `rand()` generator is a stream `rnd : Nat → Nat` of its successive
  results together with the number of calls made so far (`rand_pos`).
* The TLB key string `"seg:dir:page"` is an injective rendering of the three integers
  and is represented by the triple itself.
-/

namespace MultiLevel

/-! ## Data model -/

/-- Mirror of `enum Protection`. -/
inductive Protection where
  | READ_ONLY
  | READ_WRITE
deriving DecidableEq, Repr

/-- Mirror of `struct Page`. -/
structure Page where
  frame_number : Int
  present : Bool
  protection : Protection
  last_access : Int
deriving DecidableEq, Repr

/-- Mirror of `struct Segment`. -/
structure Segment where
  base_address : Int
  limit : Int
  protection : Protection
  fault_count : Int
deriving DecidableEq, Repr

/-- The `std::runtime_error`s of the source, one constructor per message. -/
inductive Fault where
  /-- "Segmentation Fault: Invalid segment". -/
  | segmentationFault
  /-- "Protection Violation: Cannot write to read-only segment". -/
  | segmentProtection
  /-- "Protection Violation: Cannot write to read-only page". -/
  | pageProtection
  /-- "Page Fault: Page p exceeds limit l". -/
  | pageLimit
  /-- "Offset Fault: Offset o exceeds page size". -/
  | offsetFault
  /-- "Page Fault: Invalid page number". -/
  | invalidPage
  /-- "Memory Full (LRU Error)". -/
  | memoryFullLRU
  /-- "Memory Full (FIFO Error)". -/
  | memoryFullFIFO
  /-- "Cannot remove invalid segment". -/
  | invalidSegment
deriving DecidableEq, Repr

/-- Result of a call that either returns a value or throws a `std::runtime_error`. -/
inductive Outcome (α : Type) where
  | ok (v : α)
  | throw (e : Fault)
deriving DecidableEq, Repr

/-! ## Associative containers (`std::map`, `std::unordered_map`) -/

/-- Lookup, as in `m.find(k)`. -/
def mapFind {κ β : Type} [DecidableEq κ] (k : κ) : List (κ × β) → Option β
  | [] => none
  | (k1, v) :: rest => if k1 = k then some v else mapFind k rest

/-- Assignment `m[k] = v`: overwrite the binding of `k`, or add one. -/
def mapInsert {κ β : Type} [DecidableEq κ] (k : κ) (v : β) : List (κ × β) → List (κ × β)
  | [] => [(k, v)]
  | (k1, v1) :: rest => if k1 = k then (k, v) :: rest else (k1, v1) :: mapInsert k v rest

/-- Removal `m.erase(k)`. -/
def mapErase {κ β : Type} [DecidableEq κ] (k : κ) : List (κ × β) → List (κ × β)
  | [] => []
  | (k1, v1) :: rest => if k1 = k then mapErase k rest else (k1, v1) :: mapErase k rest

/-! ## PhysicalMemory -/

/-- Mirror of `class PhysicalMemory`. -/
structure PhysicalMemory where
  num_frames : Int
  free_frames : List Bool
  fifo_queue : List Int
  lru_list : List Int
  frame_to_page : List (Int × Int)
  use_lru : Bool
deriving DecidableEq, Repr

/-- Constructor `PhysicalMemory(frames, lru)`. A negative `frames` makes
`free_frames.resize` throw `std::length_error`, which nothing catches. -/
def PhysicalMemory.create (frames : Int) (lru : Bool) : Option PhysicalMemory :=
  if frames < 0 then none
  else some
    { num_frames := frames, free_frames := List.replicate frames.toNat true,
      fifo_queue := [], lru_list := [], frame_to_page := [], use_lru := lru }

/-- First index holding `true`, counting from `i`. -/
def firstFreeFrom : List Bool → Nat → Option Nat
  | [], _ => none
  | b :: bs, i => if b then some i else firstFreeFrom bs (i + 1)

/-- The scan `for (i = 0; i < num_frames; ++i) if (free_frames[i])` of `allocateFrame`. -/
def PhysicalMemory.firstFree (pm : PhysicalMemory) : Option Nat :=
  firstFreeFrom (pm.free_frames.take pm.num_frames.toNat) 0

/-- Mirror of `PhysicalMemory::allocateFrame`. -/
def PhysicalMemory.allocateFrame (pm : PhysicalMemory) (pageNum : Int) (_time : Int) :
    Outcome Int × PhysicalMemory :=
  match pm.firstFree with
  | some i =>
    (Outcome.ok (i : Int),
      { pm with
        free_frames := pm.free_frames.set i false
        lru_list := if pm.use_lru then pm.lru_list ++ [(i : Int)] else pm.lru_list
        fifo_queue := if pm.use_lru then pm.fifo_queue else pm.fifo_queue ++ [(i : Int)]
        frame_to_page := mapInsert (i : Int) pageNum pm.frame_to_page })
  | none =>
    if pm.use_lru then
      match pm.lru_list with
      | [] => (Outcome.throw Fault.memoryFullLRU, pm)
      | frame :: rest =>
        (Outcome.ok frame,
          { pm with
            lru_list := rest ++ [frame]
            frame_to_page := mapInsert frame pageNum pm.frame_to_page })
    else
      match pm.fifo_queue with
      | [] => (Outcome.throw Fault.memoryFullFIFO, pm)
      | frame :: rest =>
        (Outcome.ok frame,
          { pm with
            fifo_queue := rest ++ [frame]
            frame_to_page := mapInsert frame pageNum pm.frame_to_page })

/-- Mirror of `PhysicalMemory::freeFrame`. -/
def PhysicalMemory.freeFrame (pm : PhysicalMemory) (frame : Int) : PhysicalMemory :=
  if 0 ≤ frame ∧ frame < pm.num_frames then
    { pm with
      free_frames := pm.free_frames.set frame.toNat true
      frame_to_page := mapErase frame pm.frame_to_page
      lru_list := if pm.use_lru then pm.lru_list.filter (fun x => decide (x ≠ frame))
        else pm.lru_list
      fifo_queue := if pm.use_lru then pm.fifo_queue
        else pm.fifo_queue.filter (fun x => decide (x ≠ frame)) }
  else pm

/-- The integer numerator of `PhysicalMemory::utilization`: the count of `false`
entries of `free_frames`. -/
def PhysicalMemory.used (pm : PhysicalMemory) : Nat :=
  pm.free_frames.count false

/-- The eviction structure the policy in force uses. -/
def PhysicalMemory.activeOrder (pm : PhysicalMemory) : List Int :=
  if pm.use_lru then pm.lru_list else pm.fifo_queue

/-! ## PageTable -/

/-- Mirror of `class PageTable`. -/
structure PageTable where
  pages : List Page
  page_size : Int
  directory_index : Int
deriving DecidableEq, Repr

/-- One iteration of the constructor loop of `PageTable`, started after `pos` calls of
`rand()`: returns the page and the number of calls made afterwards. -/
def initPage (rnd : Nat → Nat) (pos : Nat) : Page × Nat :=
  if rnd pos % 10 < 3 then
    ({ frame_number := ((rnd (pos + 1) % 100 : Nat) : Int), present := true,
       protection := if rnd (pos + 2) % 2 ≠ 0 then Protection.READ_WRITE
         else Protection.READ_ONLY,
       last_access := 0 }, pos + 3)
  else
    ({ frame_number := -1, present := false,
       protection := if rnd (pos + 1) % 2 ≠ 0 then Protection.READ_WRITE
         else Protection.READ_ONLY,
       last_access := 0 }, pos + 2)

/-- The constructor loop of `PageTable` over `n` pages. -/
def initPages (rnd : Nat → Nat) : Nat → Nat → List Page × Nat
  | 0, pos => ([], pos)
  | n + 1, pos =>
    let r := initPage rnd pos
    let rs := initPages rnd n r.2
    (r.1 :: rs.1, rs.2)

/-- Constructor `PageTable(numPages, pageSize, dirIdx)`. A negative `numPages` makes
`pages.resize` throw `std::length_error`, which nothing catches. -/
def PageTable.create (rnd : Nat → Nat) (numPages pageSize dirIdx : Int) (pos : Nat) :
    Option (PageTable × Nat) :=
  if numPages < 0 then none
  else
    let r := initPages rnd numPages.toNat pos
    some ({ pages := r.1, page_size := pageSize, directory_index := dirIdx }, r.2)

/-- The promotion at the end of `PageTable::getFrameNumber`: under LRU, a frame found in
`lru_list` has its first occurrence erased and is pushed at the back. -/
def PhysicalMemory.touch (pm : PhysicalMemory) (frame : Int) : PhysicalMemory :=
  if pm.use_lru then
    if frame ∈ pm.lru_list then { pm with lru_list := pm.lru_list.erase frame ++ [frame] }
    else pm
  else pm

/-- Mirror of `PageTable::getFrameNumber`. -/
def PageTable.getFrameNumber (pt : PageTable) (pageNum time : Int) (accessType : Protection)
    (physMem : PhysicalMemory) : Outcome Int × PageTable × PhysicalMemory :=
  if pageNum < 0 ∨ pageNum ≥ (pt.pages.length : Int) then
    (Outcome.throw Fault.invalidPage, pt, physMem)
  else
    match pt.pages[pageNum.toNat]? with
    | none => (Outcome.throw Fault.invalidPage, pt, physMem)
    | some pg =>
      if pg.present = false then
        match physMem.allocateFrame pageNum time with
        | (Outcome.throw e, pm1) => (Outcome.throw e, pt, pm1)
        | (Outcome.ok frame, pm1) =>
          let pg1 : Page :=
            { pg with frame_number := frame, present := true, protection := accessType }
          (Outcome.ok frame, { pt with pages := pt.pages.set pageNum.toNat pg1 }, pm1)
      else if accessType = Protection.READ_WRITE ∧ pg.protection = Protection.READ_ONLY then
        (Outcome.throw Fault.pageProtection, pt, physMem)
      else
        let pg1 : Page := { pg with last_access := time }
        (Outcome.ok pg.frame_number, { pt with pages := pt.pages.set pageNum.toNat pg1 },
          physMem.touch pg.frame_number)

/-! ## DirectoryTable -/

/-- Mirror of `class DirectoryTable`; the owned `PageTable*` are held by value. -/
structure DirectoryTable where
  pageTables : List PageTable
  max_pages_per_table : Int
deriving DecidableEq, Repr

/-- The loop of `getPageTable`, run `k` times: each round appends
`new PageTable(max_pages_per_table, pageSize, pageTables.size())`. -/
def growTables (rnd : Nat → Nat) (maxPages pageSize : Int) :
    Nat → List PageTable → Nat → Option (List PageTable × Nat)
  | 0, pts, pos => some (pts, pos)
  | k + 1, pts, pos =>
    match PageTable.create rnd maxPages pageSize (pts.length : Int) pos with
    | none => none
    | some (pt, pos1) => growTables rnd maxPages pageSize k (pts ++ [pt]) pos1

/-- Mirror of `DirectoryTable::getPageTable`. For a negative `dirNum` the comparison
`dirNum >= pageTables.size()` is made in `size_t` and never fails, so the loop allocates
until the process dies. -/
def DirectoryTable.getPageTable (rnd : Nat → Nat) (dt : DirectoryTable) (dirNum pageSize : Int)
    (pos : Nat) : Option (DirectoryTable × PageTable × Nat) :=
  if dirNum < 0 then none
  else
    match growTables rnd dt.max_pages_per_table pageSize
        (dirNum.toNat + 1 - dt.pageTables.length) dt.pageTables pos with
    | none => none
    | some (pts, pos1) =>
      match pts[dirNum.toNat]? with
      | none => none
      | some pt => some ({ dt with pageTables := pts }, pt, pos1)

/-! ## TLB -/

/-- The key `"seg:dir:page"` of the TLB. -/
abbrev TLBKey := Int × Int × Int

/-- Mirror of `class TLB`. -/
structure TLB where
  cache : List (TLBKey × Int)
  lruOrder : List TLBKey
  maxSize : Int
  hits : Int
  total : Int
deriving DecidableEq, Repr

/-- Constructor `TLB(size)`. -/
def TLB.create (size : Int) : TLB :=
  { cache := [], lruOrder := [], maxSize := size, hits := 0, total := 0 }

/-- Mirror of `TLB::get`; the result `-1` stands for a miss. -/
def TLB.get (t : TLB) (segNum dirNum pageNum : Int) : Int × TLB :=
  match mapFind (segNum, dirNum, pageNum) t.cache with
  | some frame =>
    (frame,
      { t with
        total := t.total + 1
        hits := t.hits + 1
        lruOrder := t.lruOrder.filter (fun k => decide (k ≠ (segNum, dirNum, pageNum)))
          ++ [(segNum, dirNum, pageNum)] })
  | none => (-1, { t with total := t.total + 1 })

/-- The test `cache.size() >= maxSize`, made in `size_t`: a negative `maxSize` converts
to a value no container size reaches. -/
def TLB.full (t : TLB) : Bool :=
  decide (0 ≤ t.maxSize ∧ t.maxSize ≤ (t.cache.length : Int))

/-- Mirror of `TLB::put`. Taking `lruOrder.front()` of an empty list is undefined. -/
def TLB.put (t : TLB) (segNum dirNum pageNum frame : Int) : Option TLB :=
  if t.full then
    match t.lruOrder with
    | [] => none
    | front :: rest =>
      some { t with
        cache := mapInsert (segNum, dirNum, pageNum) frame (mapErase front t.cache)
        lruOrder := rest ++ [(segNum, dirNum, pageNum)] }
  else
    some { t with
      cache := mapInsert (segNum, dirNum, pageNum) frame t.cache
      lruOrder := t.lruOrder ++ [(segNum, dirNum, pageNum)] }

/-! ## SegmentTable -/

/-- Mirror of `class SegmentTable`; `rand_pos` is the number of `rand()` calls the
process has made. -/
structure SegmentTable where
  segments : List Segment
  directoryTables : List (Int × DirectoryTable)
  tlb : TLB
  physMem : PhysicalMemory
  time : Int
  total_latency : Int
  translation_count : Int
  rand_pos : Nat
deriving DecidableEq, Repr

/-- Constructor `SegmentTable(tlbSize, numFrames, use_lru)`. -/
def SegmentTable.create (tlbSize numFrames : Int) (use_lru : Bool) : Option SegmentTable :=
  match PhysicalMemory.create numFrames use_lru with
  | none => none
  | some pm =>
    some { segments := [], directoryTables := [], tlb := TLB.create tlbSize, physMem := pm,
           time := 0, total_latency := 0, translation_count := 0, rand_pos := 0 }

/-- Bounds-checked `segments[i]`. -/
def segmentAt (segs : List Segment) (i : Int) : Option Segment :=
  if i < 0 then none else segs[i.toNat]?

/-- The statement `segments[i].fault_count++`. -/
def bumpFault (segs : List Segment) (i : Int) : List Segment :=
  match segmentAt segs i with
  | none => segs
  | some s => segs.set i.toNat { s with fault_count := s.fault_count + 1 }

/-- Mirror of `SegmentTable::addSegment`. With a negative `id` the test
`id >= segments.size()` is made in `size_t` and succeeds, and the resize and the store
that follow are out of bounds. -/
def SegmentTable.addSegment (st : SegmentTable) (id base limit : Int) (prot : Protection) :
    Option SegmentTable :=
  if id < 0 then none
  else
    let segs :=
      if id ≥ (st.segments.length : Int) then
        st.segments ++ List.replicate (id.toNat + 1 - st.segments.length)
          (Segment.mk 0 0 Protection.READ_ONLY 0)
      else st.segments
    some { st with
      segments := segs.set id.toNat (Segment.mk base limit prot 0)
      directoryTables := mapInsert id (DirectoryTable.mk [] limit) st.directoryTables }

/-- The inner loop of `removeSegment`: free the frame of each present page. -/
def freePages (pages : List Page) (pm : PhysicalMemory) : PhysicalMemory :=
  pages.foldl (fun m pg => if pg.present then m.freeFrame pg.frame_number else m) pm

/-- The outer loop of `removeSegment` over the page tables of the directory. -/
def freeTables (pts : List PageTable) (pm : PhysicalMemory) : PhysicalMemory :=
  pts.foldl (fun m pt => freePages pt.pages m) pm

/-- Mirror of `SegmentTable::removeSegment`. -/
def SegmentTable.removeSegment (st : SegmentTable) (id : Int) : Outcome Unit × SegmentTable :=
  if id < 0 ∨ id ≥ (st.segments.length : Int) then (Outcome.throw Fault.invalidSegment, st)
  else
    match mapFind id st.directoryTables with
    | none => (Outcome.throw Fault.invalidSegment, st)
    | some dt =>
      (Outcome.ok (),
        { st with
          physMem := freeTables dt.pageTables st.physMem
          directoryTables := mapErase id st.directoryTables
          segments := st.segments.set id.toNat (Segment.mk 0 0 Protection.READ_WRITE 0) })

/-- The first four statements of `translateAddress`: latency `1 + rand() % 10`, the
counters and the clock. -/
def SegmentTable.tick (rnd : Nat → Nat) (st : SegmentTable) : SegmentTable :=
  { st with
    total_latency := st.total_latency + (1 + ((rnd st.rand_pos % 10 : Nat) : Int))
    translation_count := st.translation_count + 1
    time := st.time + 1
    rand_pos := st.rand_pos + 1 }

/-- Write a page table back at index `dirNum` of the directory of segment `segNum`. -/
def storePageTable (dts : List (Int × DirectoryTable)) (segNum : Int) (dt : DirectoryTable)
    (dirNum : Int) (pt : PageTable) : List (Int × DirectoryTable) :=
  mapInsert segNum (DirectoryTable.mk (dt.pageTables.set dirNum.toNat pt) dt.max_pages_per_table)
    dts

/-- Mirror of `SegmentTable::translateAddress`. A live segment without a directory makes
`directoryTables[segNum]` a null pointer that is then dereferenced. -/
def SegmentTable.translateAddress (rnd : Nat → Nat) (st : SegmentTable)
    (segNum dirNum pageNum offset : Int) (accessType : Protection) :
    Option (Outcome Int × SegmentTable) :=
  let st1 := st.tick rnd
  match segmentAt st1.segments segNum with
  | none => some (Outcome.throw Fault.segmentationFault, st1)
  | some segment =>
    if segment.limit = 0 then
      some (Outcome.throw Fault.segmentationFault,
        { st1 with segments := bumpFault st1.segments segNum })
    else if accessType = Protection.READ_WRITE ∧ segment.protection = Protection.READ_ONLY then
      some (Outcome.throw Fault.segmentProtection,
        { st1 with segments := bumpFault st1.segments segNum })
    else
      let probe := st1.tlb.get segNum dirNum pageNum
      match mapFind segNum st1.directoryTables with
      | none => none
      | some dirTable =>
        match dirTable.getPageTable rnd dirNum 1000 st1.rand_pos with
        | none => none
        | some (dirTable1, pageTable, pos1) =>
          let st2 : SegmentTable :=
            { st1 with
              tlb := probe.2
              directoryTables := mapInsert segNum dirTable1 st1.directoryTables
              rand_pos := pos1 }
          if probe.1 ≠ -1 then
            if offset ≥ pageTable.page_size then
              some (Outcome.throw Fault.offsetFault,
                { st2 with segments := bumpFault st2.segments segNum })
            else
              some (Outcome.ok (segment.base_address + probe.1 * pageTable.page_size + offset),
                st2)
          else if pageNum ≥ segment.limit then
            some (Outcome.throw Fault.pageLimit,
              { st2 with segments := bumpFault st2.segments segNum })
          else if offset ≥ pageTable.page_size then
            some (Outcome.throw Fault.offsetFault,
              { st2 with segments := bumpFault st2.segments segNum })
          else
            match pageTable.getFrameNumber pageNum st2.time accessType st2.physMem with
            | (Outcome.throw e, pt1, pm1) =>
              some (Outcome.throw e,
                { st2 with
                  physMem := pm1
                  directoryTables :=
                    storePageTable st1.directoryTables segNum dirTable1 dirNum pt1 })
            | (Outcome.ok frame, pt1, pm1) =>
              match st2.tlb.put segNum dirNum pageNum frame with
              | none => none
              | some tlb2 =>
                some (Outcome.ok (segment.base_address + frame * pt1.page_size + offset),
                  { st2 with
                    physMem := pm1
                    tlb := tlb2
                    directoryTables :=
                      storePageTable st1.directoryTables segNum dirTable1 dirNum pt1 })

/-! ## Drivers -/

/-- A command of the interactive loop or of a batch file. -/
inductive Op where
  | add (id base limit : Int) (prot : Protection)
  | remove (id : Int)
  | translate (segNum dirNum pageNum offset : Int) (accessType : Protection)
deriving DecidableEq, Repr

/-- One command; a caught error leaves the driver running on the state reached. -/
def step (rnd : Nat → Nat) (st : SegmentTable) : Op → Option SegmentTable
  | Op.add id base limit prot => st.addSegment id base limit prot
  | Op.remove id => some (st.removeSegment id).2
  | Op.translate s d p off a =>
    match st.translateAddress rnd s d p off a with
    | none => none
    | some r => some r.2

/-- A sequence of commands. -/
def run (rnd : Nat → Nat) : List Op → SegmentTable → Option SegmentTable
  | [], st => some st
  | op :: ops, st =>
    match step rnd st op with
    | none => none
    | some st1 => run rnd ops st1

/-- States a driver can reach from a constructed `SegmentTable`. -/
def Reachable (rnd : Nat → Nat) (st : SegmentTable) : Prop :=
  ∃ (tlbSize numFrames : Int) (use_lru : Bool) (st0 : SegmentTable) (ops : List Op),
    SegmentTable.create tlbSize numFrames use_lru = some st0 ∧ run rnd ops st0 = some st

/-! ## Scenario data -/

/-- A `rand()` stream under which no page starts resident (`5 % 10 < 3` fails) and every
page starts `READ_WRITE`. -/
def rndAbsent : Nat → Nat := fun _ => 5

/-- A `rand()` stream under which every page starts resident on mock frame `0`. -/
def rndResident : Nat → Nat := fun _ => 0

/-- The table built by `SegmentTable(4, 10, true)`, the defaults of `main`. -/
def table0 : SegmentTable :=
  { segments := [], directoryTables := [], tlb := TLB.create 4,
    physMem :=
      { num_frames := 10, free_frames := List.replicate 10 true, fifo_queue := [],
        lru_list := [], frame_to_page := [], use_lru := true },
    time := 0, total_latency := 0, translation_count := 0, rand_pos := 0 }

/-- State `table0` after `add 0 0 10 RW` and `add 1 20000 5 RO`. -/
def table1 : SegmentTable :=
  { table0 with
    segments := [Segment.mk 0 10 Protection.READ_WRITE 0,
      Segment.mk 20000 5 Protection.READ_ONLY 0]
    directoryTables := [(0, DirectoryTable.mk [] 10), (1, DirectoryTable.mk [] 5)] }

/-- The commands that leave a stale TLB entry behind: segment 0 is created with ten
pages, page 5 is translated, the segment is removed and created again with three pages. -/
def staleOps : List Op :=
  [Op.add 0 0 10 Protection.READ_WRITE, Op.translate 0 0 5 0 Protection.READ_ONLY,
    Op.remove 0, Op.add 0 0 3 Protection.READ_WRITE]

/-- State `table0` after `staleOps` under `rndAbsent`: the TLB still maps `(0, 0, 5)`. -/
def tableStale : SegmentTable :=
  { segments := [Segment.mk 0 3 Protection.READ_WRITE 0],
    directoryTables := [(0, DirectoryTable.mk [] 3)],
    tlb := { cache := [((0, 0, 5), 0)], lruOrder := [(0, 0, 5)], maxSize := 4, hits := 0,
             total := 1 },
    physMem :=
      { num_frames := 10, free_frames := List.replicate 10 true, fifo_queue := [],
        lru_list := [], frame_to_page := [], use_lru := true },
    time := 1, total_latency := 6, translation_count := 1, rand_pos := 21 }

/-- The page at index `p` of page table `d` of a directory, if there is one. -/
def dirPage (dt : DirectoryTable) (d p : Int) : Option Page :=
  if d < 0 ∨ p < 0 then none
  else
    match dt.pageTables[d.toNat]? with
    | none => none
    | some pt => pt.pages[p.toNat]?

/-- The page at index `p` of page table `d` of the directory of segment `s`, if there is
one. -/
def pageAt (st : SegmentTable) (s d p : Int) : Option Page :=
  match mapFind s st.directoryTables with
  | none => none
  | some dt => dirPage dt d p

/-- State `table0` after `add 0 0 2 RW` and the failed read `translate(0, 0, 5, 0, Read)`
under `rndResident`: the page table the call creates holds two pre-resident pages. -/
def tableMock : SegmentTable :=
  match run rndResident
      [Op.add 0 0 2 Protection.READ_WRITE, Op.translate 0 0 5 0 Protection.READ_ONLY]
      table0 with
  | some st => st
  | none => table0

/-- No page of any page table starts resident: no `rand() % 10` is below 3. -/
def NoPreResident (rnd : Nat → Nat) : Prop :=
  ∀ n, 3 ≤ rnd n % 10

/-- Along the command sequence run from `st`, every translation starts with a free frame
in the pool, so that no allocation evicts. -/
def neverFull (rnd : Nat → Nat) : List Op → SegmentTable → Bool
  | [], _ => true
  | op :: ops, st =>
    (match op with
      | Op.translate _ _ _ _ _ => st.physMem.firstFree.isSome
      | _ => true) &&
    (match step rnd st op with
      | none => true
      | some st1 => neverFull rnd ops st1)

/-- Frame ownership: every present page sits on a frame of the pool that is marked
occupied, and two present pages on the same frame are the same page. -/
def FramesOwned (st : SegmentTable) : Prop :=
  (∀ s d p pg, pageAt st s d p = some pg → pg.present = true →
    0 ≤ pg.frame_number ∧ pg.frame_number < st.physMem.num_frames ∧
      st.physMem.free_frames[pg.frame_number.toNat]? = some false) ∧
  (∀ s d p s1 d1 p1 pg pg1, pageAt st s d p = some pg → pageAt st s1 d1 p1 = some pg1 →
    pg.present = true → pg1.present = true → pg.frame_number = pg1.frame_number →
    s = s1 ∧ d = d1 ∧ p = p1)

/-- Every present page of `st1` is a present page of `st` at the same place and on the
same frame. -/
def PagesKept (st st1 : SegmentTable) : Prop :=
  ∀ s d p pg1, pageAt st1 s d p = some pg1 → pg1.present = true →
    ∃ pg, pageAt st s d p = some pg ∧ pg.present = true ∧
      pg.frame_number = pg1.frame_number

/-- Every present page of `st1` is a present page of `st` at the same place and on the
same frame, except the page at `(s, d, p)`, which may sit on frame `f`. -/
def PagesKeptBut (st st1 : SegmentTable) (s d p : Int) (f : Nat) : Prop :=
  ∀ s1 d1 p1 pg1, pageAt st1 s1 d1 p1 = some pg1 → pg1.present = true →
    (s1 = s ∧ d1 = d ∧ p1 = p ∧ pg1.frame_number = (f : Int)) ∨
    ∃ pg, pageAt st s1 d1 p1 = some pg ∧ pg.present = true ∧
      pg.frame_number = pg1.frame_number

/-- A frame is released: marked free and absent from the eviction structure in use. -/
def Released (pm : PhysicalMemory) (f : Int) : Prop :=
  pm.free_frames[f.toNat]? = some true ∧ f ∉ pm.activeOrder

/-- State `table0` after `add 0 base 10 RW`, the setting of the specification's
example. -/
def tableBase (base : Int) : SegmentTable :=
  { table0 with
    segments := [Segment.mk base 10 Protection.READ_WRITE 0]
    directoryTables := [(0, DirectoryTable.mk [] 10)] }

/-- State reached by `SegmentTable(0, 10, true)` followed by `add 0 0 10 RW`: a TLB of
capacity 0. -/
def tableCap0 : SegmentTable :=
  { table0 with
    tlb := TLB.create 0
    segments := [Segment.mk 0 10 Protection.READ_WRITE 0]
    directoryTables := [(0, DirectoryTable.mk [] 10)] }

/-- State `table1` after the successful read `translate(0, 0, 5, 10, Read)` under
`rndAbsent`. -/
def table2 : SegmentTable :=
  match table1.translateAddress rndAbsent 0 0 5 10 Protection.READ_ONLY with
  | some r => r.2
  | none => table1

/-- The ids with a directory according to the history: `addSegment(id, ...)` enters `id`,
a successful `removeSegment(id)` takes it out, a failed one and a translation change
nothing. The command is the one run on state `st`. -/
def stepIds (st : SegmentTable) (ids : List Int) : Op → List Int
  | Op.add id _ _ _ => id :: ids
  | Op.remove id =>
    if (st.removeSegment id).1 = Outcome.ok () then ids.filter (fun x => decide (x ≠ id))
    else ids
  | Op.translate _ _ _ _ _ => ids

/-- Function `run`, with the ids added and not successfully removed since. -/
def runIds (rnd : Nat → Nat) : List Op → SegmentTable → List Int →
    Option (SegmentTable × List Int)
  | [], st, ids => some (st, ids)
  | op :: ops, st, ids =>
    match step rnd st op with
    | none => none
    | some st1 => runIds rnd ops st1 (stepIds st ids op)

/-- State `table2` after the repeated read `translate(0, 0, 5, 10, Read)`. -/
def table3 : SegmentTable :=
  match table2.translateAddress rndAbsent 0 0 5 10 Protection.READ_ONLY with
  | some r => r.2
  | none => table2

/-- State `table0` after `add 0 0 10 RW` and the read `translate(0, 0, 5, 0, Read)` under
`rndAbsent`: the first two commands of `staleOps`. -/
def tableCached : SegmentTable :=
  match run rndAbsent (staleOps.take 2) table0 with
  | some st => st
  | none => table0

/-- A frame pool of two frames, all free, as `PhysicalMemory(2, lru)` builds it. -/
def pool2 (lru : Bool) : PhysicalMemory :=
  { num_frames := 2, free_frames := [true, true], fifo_queue := [], lru_list := [],
    frame_to_page := [], use_lru := lru }

/-- A page table of three pages, none present. -/
def blankTable : PageTable :=
  { pages := List.replicate 3 (Page.mk (-1) false Protection.READ_WRITE 0),
    page_size := 1000, directory_index := 0 }

/-- Eviction scenario, step 1: page 0 (A) of `blankTable` is resolved on `pool2`. -/
def scenarioA (lru : Bool) : Outcome Int × PageTable × PhysicalMemory :=
  blankTable.getFrameNumber 0 1 Protection.READ_ONLY (pool2 lru)

/-- Eviction scenario, step 2: page 1 (B) is resolved. -/
def scenarioB (lru : Bool) : Outcome Int × PageTable × PhysicalMemory :=
  (scenarioA lru).2.1.getFrameNumber 1 2 Protection.READ_ONLY (scenarioA lru).2.2

/-- Eviction scenario, step 3: page 0 (A) is resolved again. -/
def scenarioTouch (lru : Bool) : Outcome Int × PageTable × PhysicalMemory :=
  (scenarioB lru).2.1.getFrameNumber 0 3 Protection.READ_ONLY (scenarioB lru).2.2

/-- Eviction scenario, step 4: page 2 (C) is resolved. -/
def scenarioC (lru : Bool) : Outcome Int × PageTable × PhysicalMemory :=
  (scenarioTouch lru).2.1.getFrameNumber 2 4 Protection.READ_ONLY (scenarioTouch lru).2.2

/-- A call on a `PhysicalMemory`: `allocateFrame`, `freeFrame`, or a
`PageTable::getFrameNumber` on some page table. -/
inductive PoolOp where
  | allocate (pageNum time : Int)
  | free (frame : Int)
  | resolve (pt : PageTable) (pageNum time : Int) (accessType : Protection)

/-- The frame pool after one call (whatever the call returns or throws). -/
def PhysicalMemory.applyOp (pm : PhysicalMemory) : PoolOp → PhysicalMemory
  | PoolOp.allocate pageNum time => (pm.allocateFrame pageNum time).2
  | PoolOp.free frame => pm.freeFrame frame
  | PoolOp.resolve pt pageNum time accessType =>
    (pt.getFrameNumber pageNum time accessType pm).2.2

/-- The frame pool after a sequence of calls. -/
def PhysicalMemory.runOps (pm : PhysicalMemory) (ops : List PoolOp) : PhysicalMemory :=
  ops.foldl PhysicalMemory.applyOp pm

/-- Frame `f` is marked occupied: `free_frames[f]` exists and is `false`. -/
def PhysicalMemory.occupied (pm : PhysicalMemory) (f : Int) : Prop :=
  0 ≤ f ∧ pm.free_frames[f.toNat]? = some false

/-- The eviction structure in use lists exactly the occupied frames, each once. -/
def OrderWF (pm : PhysicalMemory) : Prop :=
  pm.activeOrder.Nodup ∧ ∀ f, f ∈ pm.activeOrder ↔ pm.occupied f

/-- State `table0` after `add 0 0 2 RW`. -/
def tableTwo : SegmentTable :=
  { table0 with
    segments := [Segment.mk 0 2 Protection.READ_WRITE 0]
    directoryTables := [(0, DirectoryTable.mk [] 2)] }

/-- The outcomes that `translateAddress` throws itself, each after
`segment.fault_count++`: the errors of its own four checks. -/
def countsFault : Outcome Int → Bool
  | Outcome.throw Fault.segmentationFault => true
  | Outcome.throw Fault.segmentProtection => true
  | Outcome.throw Fault.pageLimit => true
  | Outcome.throw Fault.offsetFault => true
  | _ => false

/-- A call on a `TLB`: a lookup or an insert. -/
inductive TLBOp where
  | get (segNum dirNum pageNum : Int)
  | put (segNum dirNum pageNum frame : Int)
deriving DecidableEq, Repr

/-- The TLB after one call. -/
def TLB.applyOp (t : TLB) : TLBOp → Option TLB
  | TLBOp.get s d p => some (t.get s d p).2
  | TLBOp.put s d p frame => t.put s d p frame

/-- The TLB after a sequence of calls. -/
def TLB.runOps : TLB → List TLBOp → Option TLB
  | t, [] => some t
  | t, op :: ops =>
    match t.applyOp op with
    | none => none
    | some t1 => t1.runOps ops

/-- Whether every insert of the sequence, run from `t`, is for a key that is not cached
at that moment (the way `translateAddress` inserts, after a miss). -/
def TLB.putsFresh : TLB → List TLBOp → Bool
  | _, [] => true
  | t, op :: ops =>
    (match op with
      | TLBOp.get _ _ _ => true
      | TLBOp.put s d p _ => (mapFind (s, d, p) t.cache).isNone) &&
    (match t.applyOp op with
      | none => true
      | some t1 => t1.putsFresh ops)

/-- Inserts that overflow a TLB of capacity 2: key `(0, 0, 1)` is inserted twice, then
three more keys. -/
def overflowOps : List TLBOp :=
  [TLBOp.put 0 0 1 7, TLBOp.put 0 0 1 7, TLBOp.put 0 0 2 8, TLBOp.put 0 0 3 9,
    TLBOp.put 0 0 4 6]

/-- Calls on a TLB in which every insert is for a key that is not cached: two inserts, a
lookup that hits, and two more inserts. -/
def freshOps : List TLBOp :=
  [TLBOp.put 0 0 1 7, TLBOp.put 0 0 2 8, TLBOp.get 0 0 1, TLBOp.put 0 0 3 9,
    TLBOp.put 0 0 4 6]

/-- The TLB of capacity 2 after `freshOps`. -/
def tlbFresh : TLB :=
  match (TLB.create 2).runOps freshOps with
  | some t => t
  | none => TLB.create 2

/-- The cache and its recency list agree: no key twice in either, the same keys in both,
and no more entries than a capacity of at least 1 allows. -/
def TLBSync (t : TLB) : Prop :=
  (t.cache.map Prod.fst).Nodup ∧ t.lruOrder.Nodup ∧
    (∀ k, k ∈ t.lruOrder ↔ k ∈ t.cache.map Prod.fst) ∧
    (1 ≤ t.maxSize → (t.cache.length : Int) ≤ t.maxSize)

/-- State `table1` after the failed read `translate(0, 0, 10, 0, Read)` (page index equal
to the limit) under `rndAbsent`. -/
def tableFault : SegmentTable :=
  match table1.translateAddress rndAbsent 0 0 10 0 Protection.READ_ONLY with
  | some r => r.2
  | none => table1

/-- Directory `dt1` is `dt` with page tables appended, if any: the same capacity, and the
page tables of `dt` first and unchanged. -/
def DirGrown (dt dt1 : DirectoryTable) : Prop :=
  dt1.max_pages_per_table = dt.max_pages_per_table ∧
    ∃ fresh, dt1.pageTables = dt.pageTables ++ fresh

/-- What a failing `translateAddress` leaves of state `st` in state `st1`: the frame pool,
the key-to-frame mapping and the capacity of the TLB, every existing page, the set of
directories, and every existing page table of every directory. -/
def FailureKeeps (st st1 : SegmentTable) : Prop :=
  st1.physMem = st.physMem ∧ st1.tlb.cache = st.tlb.cache ∧
    st1.tlb.maxSize = st.tlb.maxSize ∧
    (∀ s d p pg, pageAt st s d p = some pg → pageAt st1 s d p = some pg) ∧
    (∀ x, mapFind x st.directoryTables = none → mapFind x st1.directoryTables = none) ∧
    (∀ x dt, mapFind x st.directoryTables = some dt →
      ∃ dt1, mapFind x st1.directoryTables = some dt1 ∧ DirGrown dt dt1)

/-! ## Intermediate states of `translateAddress` -/

/-- The statement `segment.fault_count++` of `translateAddress`, on the whole table. -/
def SegmentTable.withFault (st : SegmentTable) (s : Int) : SegmentTable :=
  { st with segments := bumpFault st.segments s }

/-- State of `translateAddress` after the TLB probe and `getPageTable`, where `dt1` is the
directory and `pos1` the `rand()` position that `getPageTable` left. -/
def SegmentTable.afterProbe (rnd : Nat → Nat) (st : SegmentTable) (s d p : Int)
    (dt1 : DirectoryTable) (pos1 : Nat) : SegmentTable :=
  { st.tick rnd with
    tlb := (st.tlb.get s d p).2
    directoryTables := mapInsert s dt1 st.directoryTables
    rand_pos := pos1 }

/-- State of `translateAddress` after `getFrameNumber` left page table `pt1` and frame
pool `pm1`. -/
def SegmentTable.afterWalk (rnd : Nat → Nat) (st : SegmentTable) (s d p : Int)
    (dt1 : DirectoryTable) (pos1 : Nat) (pt1 : PageTable) (pm1 : PhysicalMemory) :
    SegmentTable :=
  { st.afterProbe rnd s d p dt1 pos1 with
    physMem := pm1
    directoryTables := storePageTable st.directoryTables s dt1 d pt1 }

/-! ## Invariants of reachable states -/

/-- Frame-pool invariant: `free_frames` has `num_frames` entries and the eviction
structures hold no negative frame. -/
def PhysWF (pm : PhysicalMemory) : Prop :=
  0 ≤ pm.num_frames ∧ pm.free_frames.length = pm.num_frames.toNat ∧
    (∀ f ∈ pm.lru_list, (0 : Int) ≤ f) ∧ (∀ f ∈ pm.fifo_queue, (0 : Int) ≤ f)

/-- Page-table invariant: page size 1000, the capacity of its directory, and no
resident page on a negative frame. -/
def PageTableWF (maxPages : Int) (pt : PageTable) : Prop :=
  pt.page_size = 1000 ∧ (pt.pages.length : Int) = maxPages ∧
    ∀ pg ∈ pt.pages, pg.present = true → 0 ≤ pg.frame_number

/-- Directory invariant. -/
def DirWF (dt : DirectoryTable) : Prop :=
  ∀ pt ∈ dt.pageTables, PageTableWF dt.max_pages_per_table pt

/-- TLB invariant: every cached key is in `lruOrder` and no cached frame is `-1`. -/
def TLBWF (t : TLB) : Prop :=
  ∀ k v, mapFind k t.cache = some v → k ∈ t.lruOrder ∧ v ≠ -1

/-- Invariant of the whole table: the parts are well formed, every directory belongs to
an id inside the segment table, and every live record has a directory of its capacity. -/
def TableWF (st : SegmentTable) : Prop :=
  PhysWF st.physMem ∧ TLBWF st.tlb ∧
    (∀ s dt, mapFind s st.directoryTables = some dt →
      DirWF dt ∧ 0 ≤ s ∧ s < (st.segments.length : Int)) ∧
    (∀ s seg, segmentAt st.segments s = some seg → seg.limit ≠ 0 →
      ∃ dt, mapFind s st.directoryTables = some dt ∧ dt.max_pages_per_table = seg.limit)

/-! # Theorems -/

/-! ## Containers -/

theorem mapFind_mapInsert {κ β : Type} [DecidableEq κ] (k k1 : κ) (v : β)
    (m : List (κ × β)) :
    mapFind k1 (mapInsert k v m) = if k = k1 then some v else mapFind k1 m := by
  induction m with
  | nil => simp [mapInsert, mapFind]
  | cons hd tl ih =>
    obtain ⟨a, b⟩ := hd
    by_cases h : a = k
    · subst h
      by_cases h1 : a = k1 <;> simp [mapInsert, mapFind, h1]
    · by_cases h1 : a = k1
      · subst h1
        simp [mapInsert, mapFind, h, Ne.symm h]
      · simp [mapInsert, mapFind, h, h1, ih]

theorem mapFind_mapErase {κ β : Type} [DecidableEq κ] (k k1 : κ) (m : List (κ × β)) :
    mapFind k1 (mapErase k m) = if k = k1 then none else mapFind k1 m := by
  induction m with
  | nil => simp [mapErase, mapFind]
  | cons hd tl ih =>
    obtain ⟨a, b⟩ := hd
    by_cases h : a = k
    · subst h
      by_cases h1 : a = k1
      · subst h1
        simpa [mapErase, mapFind] using ih
      · simp [mapErase, mapFind, h1, ih]
    · by_cases h1 : a = k1
      · subst h1
        simp [mapErase, mapFind, h, Ne.symm h]
      · simp [mapErase, mapFind, h, h1, ih]

/-! ## The clock -/

@[simp] theorem tick_segments (rnd : Nat → Nat) (st : SegmentTable) :
    (st.tick rnd).segments = st.segments := rfl

@[simp] theorem tick_directoryTables (rnd : Nat → Nat) (st : SegmentTable) :
    (st.tick rnd).directoryTables = st.directoryTables := rfl

@[simp] theorem tick_tlb (rnd : Nat → Nat) (st : SegmentTable) :
    (st.tick rnd).tlb = st.tlb := rfl

@[simp] theorem tick_physMem (rnd : Nat → Nat) (st : SegmentTable) :
    (st.tick rnd).physMem = st.physMem := rfl

theorem segmentAt_eq_none {segs : List Segment} {i : Int}
    (h : i < 0 ∨ (segs.length : Int) ≤ i) : segmentAt segs i = none := by
  unfold segmentAt
  split
  · rfl
  · rename_i hi
    rcases h with h | h
    · exact absurd h hi
    · apply List.getElem?_eq_none
      omega

/-! ## Frame pool -/

theorem firstFreeFrom_some {l : List Bool} {i j : Nat} (h : firstFreeFrom l i = some j) :
    i ≤ j ∧ l[j - i]? = some true ∧ ∀ k, k < j - i → l[k]? = some false := by
  induction l generalizing i with
  | nil => simp [firstFreeFrom] at h
  | cons b bs ih =>
    unfold firstFreeFrom at h
    cases b with
    | true =>
      simp only [if_true, Option.some.injEq] at h
      subst h
      simp
    | false =>
      simp only [Bool.false_eq_true, if_false] at h
      obtain ⟨h1, h2, h3⟩ := ih h
      have hj : j - i = (j - (i + 1)) + 1 := by omega
      refine ⟨by omega, ?_, ?_⟩
      · rw [hj]
        simpa using h2
      · intro k hk
        cases k with
        | zero => simp
        | succ k =>
          have := h3 k (by omega)
          simpa using this

theorem firstFree_some {pm : PhysicalMemory} {f : Nat} (h : pm.firstFree = some f) :
    f < pm.num_frames.toNat ∧ pm.free_frames[f]? = some true ∧
      ∀ k, k < f → pm.free_frames[k]? = some false := by
  obtain ⟨_, h2, h3⟩ := firstFreeFrom_some h
  simp only [Nat.sub_zero] at h2 h3
  rw [List.getElem?_take] at h2
  split at h2
  · rename_i hlt
    refine ⟨hlt, h2, ?_⟩
    intro k hk
    have := h3 k hk
    rw [List.getElem?_take] at this
    split at this
    · exact this
    · exact absurd this (by simp)
  · exact absurd h2 (by simp)

theorem allocateFrame_wf {pm pm1 : PhysicalMemory} {pageNum time : Int} {r : Outcome Int}
    (hwf : PhysWF pm) (h : pm.allocateFrame pageNum time = (r, pm1)) :
    PhysWF pm1 ∧ ∀ f, r = Outcome.ok f → 0 ≤ f := by
  obtain ⟨h0, hlen, hlru, hfifo⟩ := hwf
  unfold PhysicalMemory.allocateFrame at h
  split at h
  · rename_i i hi
    simp only [Prod.mk.injEq] at h
    obtain ⟨hr, hpm⟩ := h
    subst hr hpm
    refine ⟨⟨h0, by simpa using hlen, ?_, ?_⟩, ?_⟩
    · intro f hf
      dsimp only at hf
      split at hf
      · rcases List.mem_append.mp hf with hf | hf
        · exact hlru f hf
        · simp only [List.mem_singleton] at hf
          omega
      · exact hlru f hf
    · intro f hf
      dsimp only at hf
      split at hf
      · exact hfifo f hf
      · rcases List.mem_append.mp hf with hf | hf
        · exact hfifo f hf
        · simp only [List.mem_singleton] at hf
          omega
    · intro f hf
      simp only [Outcome.ok.injEq] at hf
      omega
  · split at h
    · split at h
      · simp only [Prod.mk.injEq] at h
        obtain ⟨hr, hpm⟩ := h
        subst hr hpm
        exact ⟨⟨h0, hlen, hlru, hfifo⟩, by intro f hf; cases hf⟩
      · rename_i frame rest hl
        simp only [Prod.mk.injEq] at h
        obtain ⟨hr, hpm⟩ := h
        subst hr hpm
        have hfr : 0 ≤ frame := hlru frame (by rw [hl]; simp)
        refine ⟨⟨h0, hlen, ?_, hfifo⟩, ?_⟩
        · intro f hf
          dsimp only at hf
          rcases List.mem_append.mp hf with hf | hf
          · exact hlru f (by rw [hl]; exact List.mem_cons_of_mem _ hf)
          · simp only [List.mem_singleton] at hf
            omega
        · intro f hf
          simp only [Outcome.ok.injEq] at hf
          omega
    · split at h
      · simp only [Prod.mk.injEq] at h
        obtain ⟨hr, hpm⟩ := h
        subst hr hpm
        exact ⟨⟨h0, hlen, hlru, hfifo⟩, by intro f hf; cases hf⟩
      · rename_i frame rest hl
        simp only [Prod.mk.injEq] at h
        obtain ⟨hr, hpm⟩ := h
        subst hr hpm
        have hfr : 0 ≤ frame := hfifo frame (by rw [hl]; simp)
        refine ⟨⟨h0, hlen, hlru, ?_⟩, ?_⟩
        · intro f hf
          dsimp only at hf
          rcases List.mem_append.mp hf with hf | hf
          · exact hfifo f (by rw [hl]; exact List.mem_cons_of_mem _ hf)
          · simp only [List.mem_singleton] at hf
            omega
        · intro f hf
          simp only [Outcome.ok.injEq] at hf
          omega

theorem freeFrame_wf {pm : PhysicalMemory} (frame : Int) (hwf : PhysWF pm) :
    PhysWF (pm.freeFrame frame) := by
  obtain ⟨h0, hlen, hlru, hfifo⟩ := hwf
  unfold PhysicalMemory.freeFrame
  split
  · refine ⟨h0, by simpa using hlen, ?_, ?_⟩
    · intro f hf
      dsimp only at hf
      split at hf
      · exact hlru f (List.mem_of_mem_filter hf)
      · exact hlru f hf
    · intro f hf
      dsimp only at hf
      split at hf
      · exact hfifo f hf
      · exact hfifo f (List.mem_of_mem_filter hf)
  · exact ⟨h0, hlen, hlru, hfifo⟩

theorem touch_wf {pm : PhysicalMemory} (frame : Int) (hwf : PhysWF pm) :
    PhysWF (pm.touch frame) := by
  obtain ⟨h0, hlen, hlru, hfifo⟩ := hwf
  unfold PhysicalMemory.touch
  split
  · split
    · rename_i hmem
      refine ⟨h0, hlen, ?_, hfifo⟩
      intro f hf
      dsimp only at hf
      rcases List.mem_append.mp hf with hf | hf
      · exact hlru f (List.mem_of_mem_erase hf)
      · simp only [List.mem_singleton] at hf
        subst hf
        exact hlru f hmem
    · exact ⟨h0, hlen, hlru, hfifo⟩
  · exact ⟨h0, hlen, hlru, hfifo⟩

theorem freePages_wf (pages : List Page) {pm : PhysicalMemory} (hwf : PhysWF pm) :
    PhysWF (freePages pages pm) := by
  unfold freePages
  induction pages generalizing pm with
  | nil => exact hwf
  | cons pg rest ih =>
    simp only [List.foldl_cons]
    apply ih
    split
    · exact freeFrame_wf _ hwf
    · exact hwf

theorem freeTables_wf (pts : List PageTable) {pm : PhysicalMemory} (hwf : PhysWF pm) :
    PhysWF (freeTables pts pm) := by
  unfold freeTables
  induction pts generalizing pm with
  | nil => exact hwf
  | cons pt rest ih =>
    simp only [List.foldl_cons]
    exact ih (freePages_wf _ hwf)

/-! ## Page tables and directories -/

theorem initPage_frame (rnd : Nat → Nat) (pos : Nat) :
    (initPage rnd pos).1.present = true → 0 ≤ (initPage rnd pos).1.frame_number := by
  unfold initPage
  split
  · intro _
    exact Int.ofNat_nonneg _
  · intro h
    simp at h

theorem initPages_length (rnd : Nat → Nat) (n pos : Nat) :
    (initPages rnd n pos).1.length = n := by
  induction n generalizing pos with
  | zero => rfl
  | succ n ih => simp [initPages, ih]

theorem initPages_frames (rnd : Nat → Nat) (n pos : Nat) :
    ∀ pg ∈ (initPages rnd n pos).1, pg.present = true → 0 ≤ pg.frame_number := by
  induction n generalizing pos with
  | zero => intro pg hpg; simp [initPages] at hpg
  | succ n ih =>
    intro pg hpg
    simp only [initPages, List.mem_cons] at hpg
    rcases hpg with hpg | hpg
    · subst hpg
      exact initPage_frame rnd pos
    · exact ih _ pg hpg

theorem create_wf {rnd : Nat → Nat} {m idx : Int} {pos pos1 : Nat} {pt : PageTable}
    (h : PageTable.create rnd m 1000 idx pos = some (pt, pos1)) : PageTableWF m pt := by
  unfold PageTable.create at h
  split at h
  · exact absurd h (by simp)
  · rename_i hm
    simp only [Option.some.injEq, Prod.mk.injEq] at h
    obtain ⟨hpt, _⟩ := h
    subst hpt
    refine ⟨rfl, ?_, initPages_frames rnd _ pos⟩
    simp only [initPages_length]
    omega

theorem create_isSome (rnd : Nat → Nat) {m : Int} (size idx : Int) (pos : Nat) (hm : 0 ≤ m) :
    ∃ r, PageTable.create rnd m size idx pos = some r := by
  unfold PageTable.create
  rw [if_neg (by omega)]
  exact ⟨_, rfl⟩

theorem growTables_spec {rnd : Nat → Nat} {m : Int} {k : Nat} {pts pts1 : List PageTable}
    {pos pos1 : Nat} (h : growTables rnd m 1000 k pts pos = some (pts1, pos1)) :
    ∃ fresh, pts1 = pts ++ fresh ∧ fresh.length = k ∧ ∀ pt ∈ fresh, PageTableWF m pt := by
  induction k generalizing pts pos with
  | zero =>
    simp only [growTables, Option.some.injEq, Prod.mk.injEq] at h
    exact ⟨[], by simp [h.1], rfl, by simp⟩
  | succ k ih =>
    unfold growTables at h
    split at h
    · exact absurd h (by simp)
    · rename_i pt pos2 hc
      obtain ⟨fresh, h1, h2, h3⟩ := ih h
      refine ⟨pt :: fresh, by simp [h1], by simp [h2], ?_⟩
      intro q hq
      rcases List.mem_cons.mp hq with hq | hq
      · subst hq
        exact create_wf hc
      · exact h3 q hq

theorem growTables_isSome (rnd : Nat → Nat) {m : Int} (size : Int) (k : Nat)
    (pts : List PageTable) (pos : Nat) (hm : 0 ≤ m) :
    ∃ r, growTables rnd m size k pts pos = some r := by
  induction k generalizing pts pos with
  | zero => exact ⟨_, rfl⟩
  | succ k ih =>
    obtain ⟨r, hr⟩ := create_isSome rnd size (pts.length : Int) pos hm
    unfold growTables
    rw [hr]
    exact ih _ _

theorem getPageTable_spec {rnd : Nat → Nat} {dt dt1 : DirectoryTable} {d : Int}
    {pos pos1 : Nat} {pt : PageTable}
    (h : dt.getPageTable rnd d 1000 pos = some (dt1, pt, pos1)) :
    0 ≤ d ∧ dt1.max_pages_per_table = dt.max_pages_per_table ∧
      dt1.pageTables[d.toNat]? = some pt ∧
      ∃ fresh, dt1.pageTables = dt.pageTables ++ fresh ∧
        fresh.length = d.toNat + 1 - dt.pageTables.length ∧
        ∀ q ∈ fresh, PageTableWF dt.max_pages_per_table q := by
  unfold DirectoryTable.getPageTable at h
  split at h
  · exact absurd h (by simp)
  · rename_i hd
    split at h
    · exact absurd h (by simp)
    · rename_i pts pos2 hg
      split at h
      · exact absurd h (by simp)
      · rename_i q hq
        simp only [Option.some.injEq, Prod.mk.injEq] at h
        obtain ⟨h1, h2, _⟩ := h
        subst h1 h2
        exact ⟨by omega, rfl, hq, growTables_spec hg⟩

theorem getPageTable_wf {rnd : Nat → Nat} {dt dt1 : DirectoryTable} {d : Int}
    {pos pos1 : Nat} {pt : PageTable} (hwf : DirWF dt)
    (h : dt.getPageTable rnd d 1000 pos = some (dt1, pt, pos1)) :
    DirWF dt1 ∧ PageTableWF dt.max_pages_per_table pt := by
  obtain ⟨_, hmax, hget, fresh, hpts, _, hfresh⟩ := getPageTable_spec h
  have hdt1 : DirWF dt1 := by
    intro q hq
    rw [hmax]
    rw [hpts] at hq
    rcases List.mem_append.mp hq with hq | hq
    · exact hwf q hq
    · exact hfresh q hq
  refine ⟨hdt1, ?_⟩
  rw [← hmax]
  exact hdt1 pt (List.getElem?_mem hget)

theorem getPageTable_isSome (rnd : Nat → Nat) {dt : DirectoryTable} {d : Int} (pos : Nat)
    (hd : 0 ≤ d) (hm : 0 ≤ dt.max_pages_per_table) :
    ∃ r, dt.getPageTable rnd d 1000 pos = some r := by
  obtain ⟨⟨pts, pos1⟩, hr⟩ := growTables_isSome rnd 1000
    (d.toNat + 1 - dt.pageTables.length) dt.pageTables pos hm
  obtain ⟨fresh, h1, h2, _⟩ := growTables_spec hr
  have hlen : d.toNat < pts.length := by
    rw [h1, List.length_append, h2]
    omega
  unfold DirectoryTable.getPageTable
  rw [if_neg (by omega), hr]
  simp only
  rw [List.getElem?_eq_getElem hlen]
  exact ⟨_, rfl⟩

theorem getFrameNumber_wf {pt pt1 : PageTable} {pm pm1 : PhysicalMemory} {m p t : Int}
    {a : Protection} {r : Outcome Int} (hpt : PageTableWF m pt) (hpm : PhysWF pm)
    (h : pt.getFrameNumber p t a pm = (r, pt1, pm1)) :
    PageTableWF m pt1 ∧ PhysWF pm1 ∧ ∀ f, r = Outcome.ok f → 0 ≤ f := by
  obtain ⟨hsize, hlen, hfr⟩ := hpt
  unfold PageTable.getFrameNumber at h
  split at h
  · simp only [Prod.mk.injEq] at h
    obtain ⟨hr, h1, h2⟩ := h
    subst hr h1 h2
    exact ⟨⟨hsize, hlen, hfr⟩, hpm, by intro f hf; cases hf⟩
  · split at h
    · simp only [Prod.mk.injEq] at h
      obtain ⟨hr, h1, h2⟩ := h
      subst hr h1 h2
      exact ⟨⟨hsize, hlen, hfr⟩, hpm, by intro f hf; cases hf⟩
    · rename_i pg hpg
      split at h
      · split at h
        · rename_i e pm2 hal
          simp only [Prod.mk.injEq] at h
          obtain ⟨hr, h1, h2⟩ := h
          subst hr h1 h2
          exact ⟨⟨hsize, hlen, hfr⟩, (allocateFrame_wf hpm hal).1, by intro f hf; cases hf⟩
        · rename_i frame pm2 hal
          simp only [Prod.mk.injEq] at h
          obtain ⟨hr, h1, h2⟩ := h
          subst hr h1 h2
          obtain ⟨hw, hf0⟩ := allocateFrame_wf hpm hal
          refine ⟨⟨hsize, by simpa using hlen, ?_⟩, hw, ?_⟩
          · intro q hq hqp
            rcases List.mem_or_eq_of_mem_set hq with hq | hq
            · exact hfr q hq hqp
            · subst hq
              exact hf0 frame rfl
          · intro f hf
            exact hf0 f hf
      · rename_i hpres
        split at h
        · simp only [Prod.mk.injEq] at h
          obtain ⟨hr, h1, h2⟩ := h
          subst hr h1 h2
          exact ⟨⟨hsize, hlen, hfr⟩, hpm, by intro f hf; cases hf⟩
        · simp only [Prod.mk.injEq] at h
          obtain ⟨hr, h1, h2⟩ := h
          subst hr h1 h2
          have hpgp : pg.present = true := by
            cases hb : pg.present with
            | true => rfl
            | false => exact absurd hb hpres
          have hpgf : 0 ≤ pg.frame_number := hfr pg (List.getElem?_mem hpg) hpgp
          refine ⟨⟨hsize, by simpa using hlen, ?_⟩, touch_wf _ hpm, ?_⟩
          · intro q hq hqp
            rcases List.mem_or_eq_of_mem_set hq with hq | hq
            · exact hfr q hq hqp
            · subst hq
              exact hpgf
          · intro f hf
            simp only [Outcome.ok.injEq] at hf
            omega

/-! ## TLB -/

theorem get_wf {t : TLB} (s d p : Int) (hwf : TLBWF t) : TLBWF (t.get s d p).2 := by
  unfold TLB.get
  split
  · rename_i frame hfind
    intro k v hkv
    obtain ⟨h1, h2⟩ := hwf k v hkv
    refine ⟨?_, h2⟩
    dsimp only
    by_cases hk : k = (s, d, p)
    · subst hk
      simp
    · apply List.mem_append_left
      exact List.mem_filter.mpr ⟨h1, by simpa using hk⟩
  · exact hwf

theorem put_wf {t t1 : TLB} {s d p frame : Int} (hwf : TLBWF t) (hf : frame ≠ -1)
    (h : t.put s d p frame = some t1) : TLBWF t1 := by
  unfold TLB.put at h
  split at h
  · split at h
    · exact absurd h (by simp)
    · rename_i front rest hl
      simp only [Option.some.injEq] at h
      subst h
      intro k v hkv
      dsimp only at hkv ⊢
      rw [mapFind_mapInsert] at hkv
      split at hkv
      · rename_i hk
        subst hk
        simp only [Option.some.injEq] at hkv
        subst hkv
        exact ⟨by simp, hf⟩
      · rw [mapFind_mapErase] at hkv
        split at hkv
        · exact absurd hkv (by simp)
        · rename_i hne
          obtain ⟨h1, h2⟩ := hwf k v hkv
          refine ⟨?_, h2⟩
          rw [hl] at h1
          rcases List.mem_cons.mp h1 with h1 | h1
          · exact absurd h1.symm hne
          · exact List.mem_append_left _ h1
  · simp only [Option.some.injEq] at h
    subst h
    intro k v hkv
    dsimp only at hkv ⊢
    rw [mapFind_mapInsert] at hkv
    split at hkv
    · rename_i hk
      subst hk
      simp only [Option.some.injEq] at hkv
      subst hkv
      exact ⟨by simp, hf⟩
    · obtain ⟨h1, h2⟩ := hwf k v hkv
      exact ⟨List.mem_append_left _ h1, h2⟩

/-! ## Segment records -/

theorem segmentAt_some {segs : List Segment} {i : Int} {seg : Segment}
    (h : segmentAt segs i = some seg) :
    0 ≤ i ∧ i < (segs.length : Int) ∧ segs[i.toNat]? = some seg := by
  unfold segmentAt at h
  split at h
  · exact absurd h (by simp)
  · rename_i hi
    have hlt : i.toNat < segs.length := by
      by_contra hge
      rw [List.getElem?_eq_none (by omega)] at h
      exact absurd h (by simp)
    exact ⟨by omega, by omega, h⟩

theorem segmentAt_of_getElem? {segs : List Segment} {i : Int} (hi : 0 ≤ i) :
    segmentAt segs i = segs[i.toNat]? := by
  unfold segmentAt
  rw [if_neg (by omega)]

theorem bumpFault_length (segs : List Segment) (i : Int) :
    (bumpFault segs i).length = segs.length := by
  unfold bumpFault
  split <;> simp

theorem segmentAt_bumpFault {segs : List Segment} {i s : Int} {seg1 : Segment}
    (h : segmentAt (bumpFault segs i) s = some seg1) :
    ∃ seg, segmentAt segs s = some seg ∧ seg1.base_address = seg.base_address ∧
      seg1.limit = seg.limit ∧ seg1.protection = seg.protection ∧
      seg1.fault_count = if s = i then seg.fault_count + 1 else seg.fault_count := by
  unfold bumpFault at h
  split at h
  · rename_i hnone
    refine ⟨seg1, h, rfl, rfl, rfl, ?_⟩
    split
    · rename_i hsi
      subst hsi
      rw [h] at hnone
      exact absurd hnone (by simp)
    · rfl
  · rename_i sg hsg
    obtain ⟨hi0, hilt, higet⟩ := segmentAt_some hsg
    obtain ⟨hs0, _, hsget⟩ := segmentAt_some h
    by_cases hsi : s = i
    · subst hsi
      rw [List.getElem?_set_self (by omega)] at hsget
      simp only [Option.some.injEq] at hsget
      subst hsget
      exact ⟨sg, hsg, rfl, rfl, rfl, by simp⟩
    · rw [List.getElem?_set_ne (by omega)] at hsget
      refine ⟨seg1, ?_, rfl, rfl, rfl, by simp [hsi]⟩
      rw [segmentAt_of_getElem? hs0]
      exact hsget

/-! ## Preservation of the invariants -/

theorem create_tableWF {tlbSize numFrames : Int} {use_lru : Bool} {st : SegmentTable}
    (h : SegmentTable.create tlbSize numFrames use_lru = some st) : TableWF st := by
  unfold SegmentTable.create PhysicalMemory.create at h
  split at h
  · exact absurd h (by simp)
  · rename_i pm hpm
    split at hpm
    · exact absurd hpm (by simp)
    · rename_i hn
      simp only [Option.some.injEq] at hpm h
      subst hpm h
      refine ⟨⟨by dsimp only; omega, by simp, by simp, by simp⟩, ?_, ?_, ?_⟩
      · intro k v hkv
        simp [TLB.create, mapFind] at hkv
      · intro s dt hs
        simp [mapFind] at hs
      · intro s seg hs
        simp [segmentAt] at hs

theorem tableWF_update {st : SegmentTable} {segs : List Segment}
    {dts : List (Int × DirectoryTable)} {t : TLB} {pm : PhysicalMemory}
    {tm lat cnt : Int} {pos : Nat} {i s : Int}
    (hwf : TableWF st)
    (hsegs : segs = st.segments ∨ segs = bumpFault st.segments i)
    (hpm : PhysWF pm) (ht : TLBWF t)
    (hdts : dts = st.directoryTables ∨
      ∃ dt dt1, mapFind s st.directoryTables = some dt ∧
        dts = mapInsert s dt1 st.directoryTables ∧ DirWF dt1 ∧
        dt1.max_pages_per_table = dt.max_pages_per_table) :
    TableWF
      { segments := segs, directoryTables := dts, tlb := t, physMem := pm, time := tm,
        total_latency := lat, translation_count := cnt, rand_pos := pos } := by
  obtain ⟨_, _, hdir, hlive⟩ := hwf
  have hlen : segs.length = st.segments.length := by
    rcases hsegs with h | h
    · rw [h]
    · rw [h, bumpFault_length]
  have hlim : ∀ x seg1, segmentAt segs x = some seg1 →
      ∃ seg, segmentAt st.segments x = some seg ∧ seg1.limit = seg.limit := by
    intro x seg1 hx
    rcases hsegs with h | h
    · subst h
      exact ⟨seg1, hx, rfl⟩
    · subst h
      obtain ⟨seg, h1, _, h2, _⟩ := segmentAt_bumpFault hx
      exact ⟨seg, h1, h2⟩
  refine ⟨hpm, ht, ?_, ?_⟩
  · intro x dt hx
    dsimp only at hx ⊢
    rw [hlen]
    rcases hdts with h | ⟨dt0, dt1, h0, h1, h2, _⟩
    · subst h
      exact hdir x dt hx
    · subst h1
      rw [mapFind_mapInsert] at hx
      split at hx
      · rename_i hsx
        subst hsx
        simp only [Option.some.injEq] at hx
        subst hx
        exact ⟨h2, (hdir s dt0 h0).2⟩
      · exact hdir x dt hx
  · intro x seg1 hx hne
    dsimp only at hx ⊢
    obtain ⟨seg, hseg, hl⟩ := hlim x seg1 hx
    obtain ⟨dt, hdt, hmax⟩ := hlive x seg hseg (by rw [← hl]; exact hne)
    rcases hdts with h | ⟨dt0, dt1, h0, h1, _, h3⟩
    · subst h
      exact ⟨dt, hdt, by rw [hmax, hl]⟩
    · subst h1
      rw [mapFind_mapInsert]
      split
      · rename_i hsx
        subst hsx
        rw [h0] at hdt
        simp only [Option.some.injEq] at hdt
        subst hdt
        exact ⟨dt1, rfl, by rw [h3, hmax, hl]⟩
      · exact ⟨dt, hdt, by rw [hmax, hl]⟩

theorem storePageTable_wf {dt : DirectoryTable} {pt : PageTable} (d : Int)
    (hdt : DirWF dt) (hpt : PageTableWF dt.max_pages_per_table pt) :
    DirWF (DirectoryTable.mk (dt.pageTables.set d.toNat pt) dt.max_pages_per_table) := by
  intro q hq
  rcases List.mem_or_eq_of_mem_set hq with hq | hq
  · exact hdt q hq
  · subst hq
    exact hpt

theorem translateAddress_wf {rnd : Nat → Nat} {st st1 : SegmentTable} {s d p off : Int}
    {a : Protection} {r : Outcome Int} (hwf : TableWF st)
    (h : st.translateAddress rnd s d p off a = some (r, st1)) : TableWF st1 := by
  have hphys := hwf.1
  have htlb := hwf.2.1
  unfold SegmentTable.translateAddress at h
  simp only [tick_segments, tick_directoryTables, tick_tlb, tick_physMem] at h
  split at h
  · simp only [Option.some.injEq, Prod.mk.injEq] at h
    rw [← h.2]
    exact tableWF_update (i := s) (s := s) hwf (Or.inl rfl) hphys htlb (Or.inl rfl)
  · split at h
    · simp only [Option.some.injEq, Prod.mk.injEq] at h
      rw [← h.2]
      exact tableWF_update (s := s) hwf (Or.inr rfl) hphys htlb (Or.inl rfl)
    · split at h
      · simp only [Option.some.injEq, Prod.mk.injEq] at h
        rw [← h.2]
        exact tableWF_update (s := s) hwf (Or.inr rfl) hphys htlb (Or.inl rfl)
      · split at h
        · exact absurd h (by simp)
        · rename_i dirTable hdt
          split at h
          · exact absurd h (by simp)
          · rename_i dirTable1 pageTable pos1 hg
            have hdir := (hwf.2.2.1 s dirTable hdt).1
            obtain ⟨hdir1, hpt⟩ := getPageTable_wf hdir hg
            have hmax := (getPageTable_spec hg).2.1
            have hprobe := get_wf s d p htlb
            have hins : ∃ dt dt1, mapFind s st.directoryTables = some dt ∧
                mapInsert s dirTable1 st.directoryTables
                  = mapInsert s dt1 st.directoryTables ∧ DirWF dt1 ∧
                dt1.max_pages_per_table = dt.max_pages_per_table :=
              ⟨dirTable, dirTable1, hdt, rfl, hdir1, hmax⟩
            split at h
            · split at h
              · simp only [Option.some.injEq, Prod.mk.injEq] at h
                rw [← h.2]
                exact tableWF_update hwf (Or.inr rfl) hphys hprobe (Or.inr hins)
              · simp only [Option.some.injEq, Prod.mk.injEq] at h
                rw [← h.2]
                exact tableWF_update (i := s) hwf (Or.inl rfl) hphys hprobe (Or.inr hins)
            · split at h
              · simp only [Option.some.injEq, Prod.mk.injEq] at h
                rw [← h.2]
                exact tableWF_update hwf (Or.inr rfl) hphys hprobe (Or.inr hins)
              · split at h
                · simp only [Option.some.injEq, Prod.mk.injEq] at h
                  rw [← h.2]
                  exact tableWF_update hwf (Or.inr rfl) hphys hprobe (Or.inr hins)
                · split at h
                  · rename_i e pt1 pm1 hgf
                    obtain ⟨hpt1, hpm1, _⟩ := getFrameNumber_wf hpt hphys hgf
                    rw [← hmax] at hpt1
                    simp only [Option.some.injEq, Prod.mk.injEq] at h
                    rw [← h.2]
                    exact tableWF_update (i := s) hwf (Or.inl rfl) hpm1 hprobe
                      (Or.inr ⟨dirTable, _, hdt, rfl, storePageTable_wf d hdir1 hpt1, hmax⟩)
                  · rename_i frame pt1 pm1 hgf
                    obtain ⟨hpt1, hpm1, hfr⟩ := getFrameNumber_wf hpt hphys hgf
                    rw [← hmax] at hpt1
                    split at h
                    · exact absurd h (by simp)
                    · rename_i tlb2 hput
                      have hne : frame ≠ -1 := by
                        have := hfr frame rfl
                        omega
                      simp only [Option.some.injEq, Prod.mk.injEq] at h
                      rw [← h.2]
                      exact tableWF_update (i := s) hwf (Or.inl rfl) hpm1
                        (put_wf hprobe hne hput)
                        (Or.inr ⟨dirTable, _, hdt, rfl, storePageTable_wf d hdir1 hpt1, hmax⟩)

theorem addSegment_spec {st st1 : SegmentTable} {id base limit : Int} {prot : Protection}
    (h : st.addSegment id base limit prot = some st1) :
    0 ≤ id ∧ st1.physMem = st.physMem ∧ st1.tlb = st.tlb ∧
      st1.directoryTables = mapInsert id (DirectoryTable.mk [] limit) st.directoryTables ∧
      st.segments.length ≤ st1.segments.length ∧
      segmentAt st1.segments id = some (Segment.mk base limit prot 0) ∧
      (∀ x, x ≠ id → ∀ seg, segmentAt st1.segments x = some seg →
        segmentAt st.segments x = some seg ∨ seg.limit = 0) ∧
      (∀ x, x ≠ id → x < (st.segments.length : Int) →
        segmentAt st1.segments x = segmentAt st.segments x) := by
  unfold SegmentTable.addSegment at h
  split at h
  · exact absurd h (by simp)
  · rename_i hid
    simp only [Option.some.injEq] at h
    subst h
    dsimp only
    refine ⟨by omega, rfl, rfl, rfl, ?_, ?_, ?_, ?_⟩
    · rw [List.length_set]
      split
      · simp
      · exact le_refl _
    · rw [segmentAt_of_getElem? (by omega)]
      apply List.getElem?_set_self
      split
      · rw [List.length_append, List.length_replicate]
        omega
      · omega
    · intro x hx seg hseg
      obtain ⟨hx0, _, hget⟩ := segmentAt_some hseg
      rw [List.getElem?_set_ne (by omega)] at hget
      split at hget
      · by_cases hlt : x.toNat < st.segments.length
        · rw [List.getElem?_append_left hlt] at hget
          left
          rw [segmentAt_of_getElem? hx0]
          exact hget
        · right
          rw [List.getElem?_append_right (by omega)] at hget
          have hmem := List.getElem?_mem hget
          rw [List.eq_of_mem_replicate hmem]
      · left
        rw [segmentAt_of_getElem? hx0]
        exact hget
    · intro x hx hlt
      by_cases hx0 : 0 ≤ x
      · rw [segmentAt_of_getElem? hx0, segmentAt_of_getElem? hx0,
          List.getElem?_set_ne (by omega)]
        split
        · rw [List.getElem?_append_left (by omega)]
        · rfl
      · rw [segmentAt_eq_none (Or.inl (by omega)), segmentAt_eq_none (Or.inl (by omega))]

theorem addSegment_wf {st st1 : SegmentTable} {id base limit : Int} {prot : Protection}
    (hwf : TableWF st) (h : st.addSegment id base limit prot = some st1) : TableWF st1 := by
  obtain ⟨hid, hpm, htlb, hdts, hlen, hnew, hold, _⟩ := addSegment_spec h
  obtain ⟨h1, h2, h3, h4⟩ := hwf
  refine ⟨by rw [hpm]; exact h1, by rw [htlb]; exact h2, ?_, ?_⟩
  · intro x dt hx
    rw [hdts, mapFind_mapInsert] at hx
    split at hx
    · rename_i hix
      subst hix
      simp only [Option.some.injEq] at hx
      subst hx
      refine ⟨?_, hid, (segmentAt_some hnew).2.1⟩
      intro q hq
      simp at hq
    · obtain ⟨ha, hb, hc⟩ := h3 x dt hx
      exact ⟨ha, hb, by omega⟩
  · intro x seg hx hne
    rw [hdts, mapFind_mapInsert]
    split
    · rename_i hix
      subst hix
      rw [hnew] at hx
      simp only [Option.some.injEq] at hx
      subst hx
      exact ⟨_, rfl, rfl⟩
    · rename_i hix
      rcases hold x (Ne.symm hix) seg hx with hx1 | hx1
      · exact h4 x seg hx1 hne
      · exact absurd hx1 hne

theorem removeSegment_ok_iff (st : SegmentTable) (id : Int) :
    (st.removeSegment id).1 = Outcome.ok () ↔
      0 ≤ id ∧ id < (st.segments.length : Int) ∧
        ∃ dt, mapFind id st.directoryTables = some dt := by
  unfold SegmentTable.removeSegment
  split
  · rename_i hr
    constructor
    · intro h
      cases h
    · rintro ⟨h1, h2, _⟩
      omega
  · rename_i hr
    split
    · rename_i hnone
      constructor
      · intro h
        cases h
      · rintro ⟨_, _, dt, hdt⟩
        rw [hdt] at hnone
        cases hnone
    · rename_i dt hdt
      constructor
      · intro _
        exact ⟨by omega, by omega, dt, hdt⟩
      · intro _
        rfl

theorem removeSegment_throw (st : SegmentTable) (id : Int)
    (h : (st.removeSegment id).1 ≠ Outcome.ok ()) :
    st.removeSegment id = (Outcome.throw Fault.invalidSegment, st) := by
  unfold SegmentTable.removeSegment at h ⊢
  by_cases hr : id < 0 ∨ id ≥ (st.segments.length : Int)
  · rw [if_pos hr]
  · rw [if_neg hr] at h ⊢
    cases hdt : mapFind id st.directoryTables with
    | none => rfl
    | some dt =>
      simp only [hdt] at h
      exact absurd rfl h

theorem removeSegment_ok {st : SegmentTable} {id : Int} {dt : DirectoryTable}
    (h0 : 0 ≤ id) (h1 : id < (st.segments.length : Int))
    (hdt : mapFind id st.directoryTables = some dt) :
    st.removeSegment id =
      (Outcome.ok (),
        { st with
          physMem := freeTables dt.pageTables st.physMem
          directoryTables := mapErase id st.directoryTables
          segments := st.segments.set id.toNat (Segment.mk 0 0 Protection.READ_WRITE 0) }) := by
  unfold SegmentTable.removeSegment
  rw [if_neg (by omega)]
  simp only [hdt]

theorem removeSegment_wf {st : SegmentTable} (id : Int) (hwf : TableWF st) :
    TableWF (st.removeSegment id).2 := by
  by_cases hok : (st.removeSegment id).1 = Outcome.ok ()
  · obtain ⟨h0, h1, dt, hdt⟩ := (removeSegment_ok_iff st id).mp hok
    rw [removeSegment_ok h0 h1 hdt]
    obtain ⟨hp, ht, hdir, hlive⟩ := hwf
    refine ⟨freeTables_wf _ hp, ht, ?_, ?_⟩
    · intro x dx hx
      dsimp only at hx ⊢
      rw [mapFind_mapErase] at hx
      split at hx
      · exact absurd hx (by simp)
      · rw [List.length_set]
        exact hdir x dx hx
    · intro x seg hx hne
      dsimp only at hx ⊢
      obtain ⟨hx0, _, hget⟩ := segmentAt_some hx
      by_cases hxi : x = id
      · subst hxi
        rw [List.getElem?_set_self (by omega)] at hget
        simp only [Option.some.injEq] at hget
        subst hget
        exact absurd rfl hne
      · rw [List.getElem?_set_ne (by omega)] at hget
        rw [mapFind_mapErase, if_neg (Ne.symm hxi)]
        apply hlive x seg _ hne
        rw [segmentAt_of_getElem? hx0]
        exact hget
  · rw [removeSegment_throw st id hok]
    exact hwf

theorem step_wf {rnd : Nat → Nat} {st st1 : SegmentTable} {op : Op} (hwf : TableWF st)
    (h : step rnd st op = some st1) : TableWF st1 := by
  cases op with
  | add id base limit prot => exact addSegment_wf hwf h
  | remove id =>
    simp only [step, Option.some.injEq] at h
    subst h
    exact removeSegment_wf id hwf
  | translate s d p off a =>
    simp only [step] at h
    split at h
    · exact absurd h (by simp)
    · rename_i r hr
      simp only [Option.some.injEq] at h
      subst h
      exact translateAddress_wf hwf hr

theorem run_wf {rnd : Nat → Nat} {ops : List Op} {st st1 : SegmentTable} (hwf : TableWF st)
    (h : run rnd ops st = some st1) : TableWF st1 := by
  induction ops generalizing st with
  | nil =>
    simp only [run, Option.some.injEq] at h
    subst h
    exact hwf
  | cons op ops ih =>
    simp only [run] at h
    split at h
    · exact absurd h (by simp)
    · rename_i st2 hst2
      exact ih (step_wf hwf hst2) h

theorem reachable_wf {rnd : Nat → Nat} {st : SegmentTable} (h : Reachable rnd st) :
    TableWF st := by
  obtain ⟨_, _, _, st0, ops, h0, hrun⟩ := h
  exact run_wf (create_tableWF h0) hrun

/-! ## Segment-level checks -/

/-- C1. Whatever the state, a translation aimed at a segment id outside the segment table
(negative, or at least the number of records) or at a record whose `limit` is `0` throws
the Segmentation Fault error, for every directory, page, offset and access kind. -/
theorem translateAddress_segmentation_fault (rnd : Nat → Nat) (st : SegmentTable)
    (s d p off : Int) (a : Protection)
    (h : s < 0 ∨ (st.segments.length : Int) ≤ s ∨
      (segmentAt st.segments s).map Segment.limit = some 0) :
    (st.translateAddress rnd s d p off a).map Prod.fst
      = some (Outcome.throw Fault.segmentationFault) := by
  cases hs : segmentAt st.segments s with
  | none => simp only [SegmentTable.translateAddress, tick_segments, hs, Option.map_some']
  | some seg =>
    have hlim : seg.limit = 0 := by
      rcases h with h | h | h
      · rw [segmentAt_eq_none (Or.inl h)] at hs
        exact absurd hs (by simp)
      · rw [segmentAt_eq_none (Or.inr h)] at hs
        exact absurd hs (by simp)
      · rw [hs] at h
        simpa using h
    simp only [SegmentTable.translateAddress, tick_segments, hs, hlim, if_true,
      Option.map_some']

/-- Witness of C1 on the default table: segment `-1` is outside the table. -/
theorem translateAddress_segmentation_fault_witness :
    (table0.translateAddress rndAbsent (-1) 0 0 0 Protection.READ_ONLY).map Prod.fst
      = some (Outcome.throw Fault.segmentationFault) :=
  translateAddress_segmentation_fault rndAbsent table0 (-1) 0 0 0 Protection.READ_ONLY
    (Or.inl (by decide))

/-- C2. Whatever the state (TLB and page tables included), a `READ_WRITE` translation
aimed at a live segment (`limit ≠ 0`) declared `READ_ONLY` throws the segment-level
Protection Violation error, for every directory, page and offset. -/
theorem translateAddress_segment_protection (rnd : Nat → Nat) (st : SegmentTable)
    (s d p off : Int) (seg : Segment)
    (hseg : segmentAt st.segments s = some seg) (hlive : seg.limit ≠ 0)
    (hro : seg.protection = Protection.READ_ONLY) :
    (st.translateAddress rnd s d p off Protection.READ_WRITE).map Prod.fst
      = some (Outcome.throw Fault.segmentProtection) := by
  simp only [SegmentTable.translateAddress, tick_segments, hseg, hlive, hro, if_false,
    and_self, if_true, Option.map_some']

/-- Witness of C2: segment `1` of `table1` is live and read-only. -/
theorem translateAddress_segment_protection_witness :
    (table1.translateAddress rndAbsent 1 0 0 0 Protection.READ_WRITE).map Prod.fst
      = some (Outcome.throw Fault.segmentProtection) :=
  translateAddress_segment_protection rndAbsent table1 1 0 0 0
    (Segment.mk 20000 5 Protection.READ_ONLY 0) (by decide) (by decide) rfl

/-! ## Checks behind the TLB probe -/

theorem reachable_table1 : Reachable rndAbsent table1 :=
  ⟨4, 10, true, table0,
    [Op.add 0 0 10 Protection.READ_WRITE, Op.add 1 20000 5 Protection.READ_ONLY], rfl, rfl⟩

theorem reachable_tableStale : Reachable rndAbsent tableStale :=
  ⟨4, 10, true, table0, staleOps, rfl, by decide⟩

/-- C3, counterexample. In the reachable state `tableStale` segment 0 is live with limit 3,
yet the read of page 5 (directory 0, offset 0) returns address 0 through the stale TLB
entry instead of throwing the page-limit Page Fault. -/
theorem translateAddress_page_limit_counterexample :
    Reachable rndAbsent tableStale ∧
      segmentAt tableStale.segments 0 = some (Segment.mk 0 3 Protection.READ_WRITE 0) ∧
      (tableStale.translateAddress rndAbsent 0 0 5 0 Protection.READ_ONLY).map Prod.fst
        = some (Outcome.ok 0) :=
  ⟨reachable_tableStale, by decide, by decide⟩

/-- C3, amended. In every reachable state, for a live segment `s` with limit `L > 0`,
a directory `d ≥ 0` and a page index `p ≥ L` for which the TLB holds no entry
`(s, d, p)`, the read `translateAddress(s, d, p, off, READ_ONLY)` throws the Page Fault
(page exceeds limit) error, whatever the offset. -/
theorem translateAddress_page_limit (rnd : Nat → Nat) (st : SegmentTable)
    (s d p off : Int) (seg : Segment) (hreach : Reachable rnd st)
    (hseg : segmentAt st.segments s = some seg) (hlim : 0 < seg.limit) (hd : 0 ≤ d)
    (hp : seg.limit ≤ p) (hmiss : mapFind (s, d, p) st.tlb.cache = none) :
    (st.translateAddress rnd s d p off Protection.READ_ONLY).map Prod.fst
      = some (Outcome.throw Fault.pageLimit) := by
  have hwf := reachable_wf hreach
  obtain ⟨dt, hdt, hmax⟩ := hwf.2.2.2 s seg hseg (by omega)
  obtain ⟨⟨dt1, pt, pos1⟩, hg⟩ :=
    getPageTable_isSome rnd (st.tick rnd).rand_pos hd (by rw [hmax]; omega)
  have hprobe : (st.tlb.get s d p).1 = -1 := by
    unfold TLB.get
    rw [hmiss]
  unfold SegmentTable.translateAddress
  simp only [tick_segments, tick_directoryTables, tick_tlb, hseg, hdt]
  rw [if_neg (by omega), if_neg (by simp), hg]
  simp only [hprobe, ne_eq, not_true_eq_false, if_false]
  rw [if_pos (by omega)]
  rfl

/-- Witness of C3 (amended), the boundary case of the specification: on `table1`, whose
segment 0 has limit 10 and whose TLB is empty, `translate(0, 0, 10, 0, Read)` throws the
Page Fault. -/
theorem translateAddress_page_limit_witness :
    (table1.translateAddress rndAbsent 0 0 10 0 Protection.READ_ONLY).map Prod.fst
      = some (Outcome.throw Fault.pageLimit) :=
  translateAddress_page_limit rndAbsent table1 0 0 10 0
    (Segment.mk 0 10 Protection.READ_WRITE 0) reachable_table1 (by decide) (by decide)
    (by decide) (by decide) (by decide)

/-- C4. In every reachable state, for a live segment `s`, a directory `d ≥ 0`, a page `p`
with `0 ≤ p < limit(s)` and an access kind the segment's protection permits, a
translation with `off ≥ 1000` (the page size) throws the Offset Fault error, whether the
TLB probe hits or misses. -/
theorem translateAddress_offset_fault (rnd : Nat → Nat) (st : SegmentTable)
    (s d p off : Int) (a : Protection) (seg : Segment) (hreach : Reachable rnd st)
    (hseg : segmentAt st.segments s = some seg) (hd : 0 ≤ d) (hp0 : 0 ≤ p)
    (hp : p < seg.limit)
    (hacc : ¬(a = Protection.READ_WRITE ∧ seg.protection = Protection.READ_ONLY))
    (hoff : 1000 ≤ off) :
    (st.translateAddress rnd s d p off a).map Prod.fst
      = some (Outcome.throw Fault.offsetFault) := by
  have hwf := reachable_wf hreach
  obtain ⟨dt, hdt, hmax⟩ := hwf.2.2.2 s seg hseg (by omega)
  obtain ⟨⟨dt1, pt, pos1⟩, hg⟩ :=
    getPageTable_isSome rnd (st.tick rnd).rand_pos hd (by rw [hmax]; omega)
  have hsize : pt.page_size = 1000 := (getPageTable_wf (hwf.2.2.1 s dt hdt).1 hg).2.1
  unfold SegmentTable.translateAddress
  simp only [tick_segments, tick_directoryTables, tick_tlb, hseg, hdt]
  rw [if_neg (by omega), if_neg hacc, hg]
  simp only [hsize]
  by_cases hprobe : (st.tlb.get s d p).1 ≠ -1
  · rw [if_pos hprobe, if_pos (by omega)]
    rfl
  · rw [if_neg hprobe, if_neg (by omega), if_pos (by omega)]
    rfl

/-- Witness of C4, the boundary case of the specification: on `table1`,
`translate(0, 0, 0, 1000, Read)` throws the Offset Fault. -/
theorem translateAddress_offset_fault_witness :
    (table1.translateAddress rndAbsent 0 0 0 1000 Protection.READ_ONLY).map Prod.fst
      = some (Outcome.throw Fault.offsetFault) :=
  translateAddress_offset_fault rndAbsent table1 0 0 0 1000 Protection.READ_ONLY
    (Segment.mk 0 10 Protection.READ_WRITE 0) reachable_table1 (by decide) (by decide)
    (by decide) (by decide) (by decide) (by decide)

/-! ## Allocation on a free frame -/

theorem allocateFrame_free {pm : PhysicalMemory} {f : Nat} (pageNum time : Int)
    (hfree : pm.firstFree = some f) :
    (pm.allocateFrame pageNum time).1 = Outcome.ok (f : Int) ∧
      (pm.allocateFrame pageNum time).2.free_frames = pm.free_frames.set f false := by
  constructor <;> simp only [PhysicalMemory.allocateFrame, hfree]

theorem getFrameNumber_absent {pt : PageTable} {pm : PhysicalMemory} {p : Int} {pg : Page}
    {f : Nat} (time : Int) (a : Protection) (hp0 : 0 ≤ p)
    (hpg : pt.pages[p.toNat]? = some pg) (habs : pg.present = false)
    (hfree : pm.firstFree = some f) :
    pt.getFrameNumber p time a pm =
      (Outcome.ok (f : Int),
        { pt with pages := pt.pages.set p.toNat (Page.mk f true a pg.last_access) },
        (pm.allocateFrame p time).2) := by
  have hlt : p.toNat < pt.pages.length := by
    by_contra hge
    rw [List.getElem?_eq_none (by omega)] at hpg
    exact absurd hpg (by simp)
  obtain ⟨h1, _⟩ := allocateFrame_free p time hfree
  unfold PageTable.getFrameNumber
  rw [if_neg (by omega)]
  simp only [hpg, habs, if_true]
  cases hal : pm.allocateFrame p time with
  | mk r pm1 =>
    rw [hal] at h1
    simp only at h1
    subst h1
    rfl

theorem put_isSome {t : TLB} (s d p frame : Int) (hwf : TLBWF t) (hcap : t.maxSize ≠ 0) :
    ∃ t1, t.put s d p frame = some t1 := by
  unfold TLB.put
  split
  · rename_i hfull
    cases hl : t.lruOrder with
    | nil =>
      exfalso
      unfold TLB.full at hfull
      simp only [decide_eq_true_eq] at hfull
      cases hc : t.cache with
      | nil =>
        rw [hc] at hfull
        simp only [List.length_nil, Nat.cast_zero] at hfull
        omega
      | cons kv rest =>
        obtain ⟨k, v⟩ := kv
        have := (hwf k v (by rw [hc]; simp [mapFind])).1
        rw [hl] at this
        simp at this
    | cons front rest => exact ⟨_, rfl⟩
  · exact ⟨_, rfl⟩

/-- Supporting result for C5. In a reachable state whose TLB capacity is not 0, a
translation that passes the segment, protection, page-limit and offset checks, misses
the TLB and finds page `(s, d, p)` not present while frame `f` is the lowest-numbered
free frame returns `base_address(s) + f * 1000 + off`; afterwards the page is present
and bound to `f`, and `f` is marked occupied. -/
theorem translateAddress_allocates (rnd : Nat → Nat) (st : SegmentTable)
    (s d p off : Int) (a : Protection) (seg : Segment) (dt dt1 : DirectoryTable)
    (pt : PageTable) (pos1 : Nat) (pg : Page) (f : Nat)
    (hreach : Reachable rnd st) (hcap : st.tlb.maxSize ≠ 0)
    (hseg : segmentAt st.segments s = some seg) (hlive : seg.limit ≠ 0)
    (hacc : ¬(a = Protection.READ_WRITE ∧ seg.protection = Protection.READ_ONLY))
    (hmiss : mapFind (s, d, p) st.tlb.cache = none)
    (hdt : mapFind s st.directoryTables = some dt)
    (hg : dt.getPageTable rnd d 1000 (st.rand_pos + 1) = some (dt1, pt, pos1))
    (hp : p < seg.limit) (hoff : off < 1000) (hp0 : 0 ≤ p)
    (hpg : pt.pages[p.toNat]? = some pg) (habs : pg.present = false)
    (hfree : st.physMem.firstFree = some f) :
    ∃ st1, st.translateAddress rnd s d p off a
        = some (Outcome.ok (seg.base_address + f * 1000 + off), st1) ∧
      pageAt st1 s d p = some (Page.mk f true a pg.last_access) ∧
      st1.physMem.free_frames[f]? = some false ∧
      st.physMem.free_frames[f]? = some true ∧
      ∀ k, k < f → st.physMem.free_frames[k]? = some false := by
  have hwf := reachable_wf hreach
  have hg1 : dt.getPageTable rnd d 1000 (st.tick rnd).rand_pos = some (dt1, pt, pos1) := hg
  obtain ⟨hd0, _, hget, _⟩ := getPageTable_spec hg
  have hsize : pt.page_size = 1000 := (getPageTable_wf (hwf.2.2.1 s dt hdt).1 hg).2.1
  have hprobe : st.tlb.get s d p = (-1, { st.tlb with total := st.tlb.total + 1 }) := by
    unfold TLB.get
    rw [hmiss]
  have hprobeWF : TLBWF { st.tlb with total := st.tlb.total + 1 } := by
    have := get_wf s d p hwf.2.1
    rw [hprobe] at this
    exact this
  obtain ⟨tlb2, hput⟩ := put_isSome s d p (f : Int) hprobeWF hcap
  obtain ⟨hflt, hftrue, hfbelow⟩ := firstFree_some hfree
  have hdlt : d.toNat < dt1.pageTables.length := by
    by_contra hge
    rw [List.getElem?_eq_none (by omega)] at hget
    exact absurd hget (by simp)
  have hplt : p.toNat < pt.pages.length := by
    by_contra hge
    rw [List.getElem?_eq_none (by omega)] at hpg
    exact absurd hpg (by simp)
  have hflen : f < st.physMem.free_frames.length := by
    rw [hwf.1.2.1]
    exact hflt
  have htr : ∃ st1, st.translateAddress rnd s d p off a
        = some (Outcome.ok (seg.base_address + f * 1000 + off), st1) ∧
      st1.directoryTables = storePageTable st.directoryTables s dt1 d
        { pt with pages := pt.pages.set p.toNat (Page.mk f true a pg.last_access) } ∧
      st1.physMem = (st.physMem.allocateFrame p (st.tick rnd).time).2 := by
    unfold SegmentTable.translateAddress
    simp only [tick_segments, tick_directoryTables, tick_tlb, tick_physMem, hseg, hdt]
    rw [if_neg hlive, if_neg hacc, hg1]
    simp only [hprobe, ne_eq, not_true_eq_false, if_false, hsize]
    rw [if_neg (by omega), if_neg (by omega),
      getFrameNumber_absent _ a hp0 hpg habs hfree]
    simp only [hput, hsize]
    exact ⟨_, rfl, rfl, rfl⟩
  obtain ⟨st1, h1, h2, h3⟩ := htr
  refine ⟨st1, h1, ?_, ?_, hftrue, hfbelow⟩
  · unfold pageAt
    rw [h2]
    unfold storePageTable
    rw [mapFind_mapInsert, if_pos rfl]
    simp only [dirPage]
    rw [if_neg (by omega), List.getElem?_set_self hdlt]
    simp only
    rw [List.getElem?_set_self hplt]
  · rw [h3, (allocateFrame_free p _ hfree).2, List.getElem?_set_self hflen]

/-- Supporting result for C5, the example of the specification on the default
configuration (TLB capacity 4, ten frames): after `add_segment(0, base, 10, ReadWrite)`
with no page pre-resident, `translate(0, 0, 5, 10, Read)` returns `base + 0 * 1000 + 10`. -/
theorem translateAddress_example (base : Int) :
    Reachable rndAbsent (tableBase base) ∧
      ∃ st1, (tableBase base).translateAddress rndAbsent 0 0 5 10 Protection.READ_ONLY
        = some (Outcome.ok (base + 0 * 1000 + 10), st1) :=
  ⟨⟨4, 10, true, table0, [Op.add 0 base 10 Protection.READ_WRITE], rfl, rfl⟩, _, rfl⟩

/-- C5, the failing input. With a TLB of capacity 0 the call of the specification's
example (`add_segment(0, 0, 10, ReadWrite)`, then `translate(0, 0, 5, 10, Read)`, no page
pre-resident) passes every check, misses the TLB, finds page 5 not present and frame 0
free, and then reaches `lruOrder.front()` on an empty list in `TLB::put`: the call has no
defined result instead of returning `0 + 0 * 1000 + 10`. -/
theorem translateAddress_capacity_zero :
    Reachable rndAbsent tableCap0 ∧
      segmentAt tableCap0.segments 0 = some (Segment.mk 0 10 Protection.READ_WRITE 0) ∧
      mapFind ((0, 0, 5) : TLBKey) tableCap0.tlb.cache = none ∧
      tableCap0.physMem.firstFree = some 0 ∧
      (tableCap0.tlb.get 0 0 5).2.put 0 0 5 0 = none ∧
      tableCap0.translateAddress rndAbsent 0 0 5 10 Protection.READ_ONLY = none :=
  ⟨⟨0, 10, true, { table0 with tlb := TLB.create 0 },
      [Op.add 0 0 10 Protection.READ_WRITE], rfl, rfl⟩,
    by decide, by decide, by decide, by decide, by decide⟩

/-! ## Repeating a translation -/

theorem put_find {t t1 : TLB} {s d p frame : Int} (h : t.put s d p frame = some t1) :
    mapFind (s, d, p) t1.cache = some frame ∧ t1.hits = t.hits ∧ t1.maxSize = t.maxSize := by
  unfold TLB.put at h
  split at h
  · split at h
    · exact absurd h (by simp)
    · simp only [Option.some.injEq] at h
      subst h
      exact ⟨by simp [mapFind_mapInsert], rfl, rfl⟩
  · simp only [Option.some.injEq] at h
    subst h
    exact ⟨by simp [mapFind_mapInsert], rfl, rfl⟩

theorem get_hit {t : TLB} {s d p f : Int} (h : mapFind (s, d, p) t.cache = some f) :
    (t.get s d p).1 = f ∧ (t.get s d p).2.hits = t.hits + 1 ∧
      (t.get s d p).2.cache = t.cache := by
  unfold TLB.get
  rw [h]
  exact ⟨rfl, rfl, rfl⟩

theorem get_cache (t : TLB) (s d p : Int) : (t.get s d p).2.cache = t.cache := by
  unfold TLB.get
  split <;> rfl

theorem get_fst_ne {t : TLB} {s d p : Int} (h : (t.get s d p).1 ≠ -1) :
    mapFind (s, d, p) t.cache = some (t.get s d p).1 := by
  cases hfind : mapFind (s, d, p) t.cache with
  | none =>
    unfold TLB.get at h
    rw [hfind] at h
    exact absurd rfl h
  | some f => rw [(get_hit hfind).1]

theorem getFrameNumber_page_size (pt : PageTable) (p t : Int) (a : Protection)
    (pm : PhysicalMemory) : (pt.getFrameNumber p t a pm).2.1.page_size = pt.page_size := by
  unfold PageTable.getFrameNumber
  split
  · rfl
  · split
    · rfl
    · split
      · split <;> rfl
      · split <;> rfl

theorem growTables_zero (rnd : Nat → Nat) (m size : Int) (pts : List PageTable) (pos : Nat) :
    growTables rnd m size 0 pts pos = some (pts, pos) := rfl

theorem getPageTable_existing (rnd : Nat → Nat) {dt : DirectoryTable} {d : Int}
    {pt : PageTable} (size : Int) (pos : Nat) (hd : 0 ≤ d)
    (hpt : dt.pageTables[d.toNat]? = some pt) :
    dt.getPageTable rnd d size pos = some (dt, pt, pos) := by
  have hlt : d.toNat < dt.pageTables.length := by
    by_contra hge
    rw [List.getElem?_eq_none (by omega)] at hpt
    exact absurd hpt (by simp)
  have hk : d.toNat + 1 - dt.pageTables.length = 0 := by omega
  unfold DirectoryTable.getPageTable
  rw [if_neg (by omega), hk, growTables_zero]
  simp only [hpt]

/-- The hit branch of `translateAddress`: with a cached frame other than `-1`, an existing
page table and an offset below its page size, the call returns
`base_address + frame * page_size + offset` and changes only the clock, the latency
totals, the TLB counters and recency order. -/
theorem translateAddress_hit (rnd : Nat → Nat) (st : SegmentTable) (s d p off : Int)
    (a : Protection) (seg : Segment) (dt : DirectoryTable) (pt : PageTable) (f : Int)
    (hseg : segmentAt st.segments s = some seg) (hlive : seg.limit ≠ 0)
    (hacc : ¬(a = Protection.READ_WRITE ∧ seg.protection = Protection.READ_ONLY))
    (hfind : mapFind (s, d, p) st.tlb.cache = some f) (hf : f ≠ -1)
    (hdt : mapFind s st.directoryTables = some dt) (hd : 0 ≤ d)
    (hpt : dt.pageTables[d.toNat]? = some pt) (hoff : off < pt.page_size) :
    st.translateAddress rnd s d p off a =
      some (Outcome.ok (seg.base_address + f * pt.page_size + off),
        { st.tick rnd with
          tlb := (st.tlb.get s d p).2
          directoryTables := mapInsert s dt st.directoryTables }) := by
  have hprobe : (st.tlb.get s d p).1 = f := (get_hit hfind).1
  unfold SegmentTable.translateAddress
  simp only [tick_segments, tick_directoryTables, tick_tlb, hseg, hdt]
  rw [if_neg hlive, if_neg hacc, getPageTable_existing rnd 1000 _ hd hpt]
  simp only [hprobe]
  rw [if_pos hf, if_neg (by omega)]

/-- C6. In every reachable state of a table whose TLB capacity is at least 1, if
`translateAddress(s, d, p, off, access)` returns `x`, the same call repeated at once also
returns `x`; it is served by a TLB hit (the probe finds a frame other than `-1`, and the
frame pool is left as it was) and the TLB hit counter grows by exactly one. -/
theorem translateAddress_repeat (rnd : Nat → Nat) (st st1 : SegmentTable)
    (s d p off x : Int) (a : Protection) (hreach : Reachable rnd st)
    (_hcap : 1 ≤ st.tlb.maxSize)
    (h : st.translateAddress rnd s d p off a = some (Outcome.ok x, st1)) :
    ∃ st2, st1.translateAddress rnd s d p off a = some (Outcome.ok x, st2) ∧
      (st1.tlb.get s d p).1 ≠ -1 ∧ st2.tlb.hits = st1.tlb.hits + 1 ∧
      st2.physMem = st1.physMem := by
  have hwf := reachable_wf hreach
  unfold SegmentTable.translateAddress at h
  simp only [tick_segments, tick_directoryTables, tick_tlb, tick_physMem] at h
  split at h
  · simp at h
  · rename_i seg hseg
    split at h
    · simp at h
    · rename_i hlive
      split at h
      · simp at h
      · rename_i hacc
        split at h
        · exact absurd h (by simp)
        · rename_i dirTable hdt
          split at h
          · exact absurd h (by simp)
          · rename_i dirTable1 pageTable pos1 hg
            obtain ⟨hd0, hmax, hget, _⟩ := getPageTable_spec hg
            obtain ⟨hdir1, hptwf⟩ := getPageTable_wf (hwf.2.2.1 s dirTable hdt).1 hg
            split at h
            · rename_i hprobe
              split at h
              · simp at h
              · rename_i hoff
                simp only [Option.some.injEq, Prod.mk.injEq, Outcome.ok.injEq] at h
                obtain ⟨hx, hst1⟩ := h
                have hfind := get_fst_ne hprobe
                have hfind1 : mapFind (s, d, p) st1.tlb.cache = some (st.tlb.get s d p).1 := by
                  rw [← hst1]
                  simp only [get_cache]
                  exact hfind
                have hcall := translateAddress_hit rnd st1 s d p off a seg dirTable1
                  pageTable (st.tlb.get s d p).1 (by rw [← hst1]; exact hseg) hlive hacc
                  hfind1 hprobe (by rw [← hst1]; simp [mapFind_mapInsert]) hd0 hget
                  (by omega)
                rw [hx] at hcall
                exact ⟨_, hcall, by rw [(get_hit hfind1).1]; exact hprobe,
                  (get_hit hfind1).2.1, rfl⟩
            · split at h
              · simp at h
              · split at h
                · simp at h
                · rename_i hoff
                  split at h
                  · simp at h
                  · rename_i frame pt1 pm1 hgf
                    split at h
                    · exact absurd h (by simp)
                    · rename_i tlb2 hput
                      simp only [Option.some.injEq, Prod.mk.injEq, Outcome.ok.injEq] at h
                      obtain ⟨hx, hst1⟩ := h
                      obtain ⟨_, _, hfr⟩ := getFrameNumber_wf hptwf hwf.1 hgf
                      have hne : frame ≠ -1 := by
                        have := hfr frame rfl
                        omega
                      have hsz : pt1.page_size = pageTable.page_size := by
                        have := getFrameNumber_page_size pageTable p (st.tick rnd).time a
                          st.physMem
                        rw [hgf] at this
                        exact this
                      have hfind1 : mapFind (s, d, p) st1.tlb.cache = some frame := by
                        rw [← hst1]
                        exact (put_find hput).1
                      have hdlt : d.toNat < dirTable1.pageTables.length := by
                        by_contra hge
                        rw [List.getElem?_eq_none (by omega)] at hget
                        exact absurd hget (by simp)
                      have hcall := translateAddress_hit rnd st1 s d p off a seg
                        (DirectoryTable.mk (dirTable1.pageTables.set d.toNat pt1)
                          dirTable1.max_pages_per_table)
                        pt1 frame (by rw [← hst1]; exact hseg) hlive hacc hfind1 hne
                        (by rw [← hst1]; simp [storePageTable, mapFind_mapInsert]) hd0
                        (by simp [List.getElem?_set_self hdlt]) (by omega)
                      rw [hx] at hcall
                      exact ⟨_, hcall, by rw [(get_hit hfind1).1]; exact hne,
                        (get_hit hfind1).2.1, rfl⟩

/-- Witness of C6 on `table1`: the read of page 5 of segment 0 returns 10 twice. -/
theorem translateAddress_repeat_witness :
    ∃ st2, table2.translateAddress rndAbsent 0 0 5 10 Protection.READ_ONLY
        = some (Outcome.ok 10, st2) ∧
      (table2.tlb.get 0 0 5).1 ≠ -1 ∧ st2.tlb.hits = table2.tlb.hits + 1 ∧
      st2.physMem = table2.physMem :=
  translateAddress_repeat rndAbsent table1 table2 0 0 5 10 10 Protection.READ_ONLY
    reachable_table1 (by decide) (by decide)

/-! ## Removing a segment -/

theorem translateAddress_keys {rnd : Nat → Nat} {st st1 : SegmentTable} {s d p off : Int}
    {a : Protection} {r : Outcome Int}
    (h : st.translateAddress rnd s d p off a = some (r, st1)) (x : Int) :
    (mapFind x st1.directoryTables).isSome = (mapFind x st.directoryTables).isSome := by
  unfold SegmentTable.translateAddress at h
  simp only [tick_segments, tick_directoryTables, tick_tlb, tick_physMem] at h
  have hins : ∀ (dt dt1 : DirectoryTable), mapFind s st.directoryTables = some dt →
      (mapFind x (mapInsert s dt1 st.directoryTables)).isSome
        = (mapFind x st.directoryTables).isSome := by
    intro dt dt1 hdt
    rw [mapFind_mapInsert]
    split
    · rename_i hsx
      subst hsx
      rw [hdt]
      rfl
    · rfl
  split at h
  · simp only [Option.some.injEq, Prod.mk.injEq] at h
    rw [← h.2]
    rfl
  · split at h
    · simp only [Option.some.injEq, Prod.mk.injEq] at h
      rw [← h.2]
    · split at h
      · simp only [Option.some.injEq, Prod.mk.injEq] at h
        rw [← h.2]
      · split at h
        · exact absurd h (by simp)
        · rename_i dirTable hdt
          split at h
          · exact absurd h (by simp)
          · split at h
            · split at h
              · simp only [Option.some.injEq, Prod.mk.injEq] at h
                rw [← h.2]
                exact hins _ _ hdt
              · simp only [Option.some.injEq, Prod.mk.injEq] at h
                rw [← h.2]
                exact hins _ _ hdt
            · split at h
              · simp only [Option.some.injEq, Prod.mk.injEq] at h
                rw [← h.2]
                exact hins _ _ hdt
              · split at h
                · simp only [Option.some.injEq, Prod.mk.injEq] at h
                  rw [← h.2]
                  exact hins _ _ hdt
                · split at h
                  · simp only [Option.some.injEq, Prod.mk.injEq] at h
                    rw [← h.2]
                    exact hins _ _ hdt
                  · split at h
                    · exact absurd h (by simp)
                    · simp only [Option.some.injEq, Prod.mk.injEq] at h
                      rw [← h.2]
                      exact hins _ _ hdt

theorem stepIds_keys {rnd : Nat → Nat} {st st1 : SegmentTable} {ids : List Int} {op : Op}
    (hinv : ∀ x, x ∈ ids ↔ (mapFind x st.directoryTables).isSome = true)
    (h : step rnd st op = some st1) :
    ∀ x, x ∈ stepIds st ids op ↔ (mapFind x st1.directoryTables).isSome = true := by
  intro x
  cases op with
  | add id base limit prot =>
    obtain ⟨_, _, _, hdts, _⟩ := addSegment_spec h
    rw [hdts, mapFind_mapInsert]
    simp only [stepIds, List.mem_cons]
    by_cases hx : id = x
    · simp [hx]
    · rw [if_neg hx, ← hinv x]
      constructor
      · rintro (h1 | h1)
        · exact absurd h1.symm hx
        · exact h1
      · intro h1
        exact Or.inr h1
  | remove id =>
    simp only [step, Option.some.injEq] at h
    subst h
    simp only [stepIds]
    by_cases hok : (st.removeSegment id).1 = Outcome.ok ()
    · rw [if_pos hok]
      obtain ⟨h0, h1, dt, hdt⟩ := (removeSegment_ok_iff st id).mp hok
      rw [removeSegment_ok h0 h1 hdt]
      simp only [mapFind_mapErase, List.mem_filter, decide_eq_true_eq]
      by_cases hx : id = x
      · simp [hx]
      · rw [if_neg hx, ← hinv x]
        constructor
        · intro h2
          exact h2.1
        · intro h2
          exact ⟨h2, Ne.symm hx⟩
    · rw [if_neg hok, removeSegment_throw st id hok]
      exact hinv x
  | translate s d p off a =>
    simp only [step] at h
    split at h
    · exact absurd h (by simp)
    · rename_i r hr
      simp only [Option.some.injEq] at h
      subst h
      simp only [stepIds]
      rw [translateAddress_keys hr x]
      exact hinv x

theorem runIds_inv {rnd : Nat → Nat} {ops : List Op} {st st1 : SegmentTable}
    {ids ids1 : List Int} (hwf : TableWF st)
    (hinv : ∀ x, x ∈ ids ↔ (mapFind x st.directoryTables).isSome = true)
    (h : runIds rnd ops st ids = some (st1, ids1)) :
    TableWF st1 ∧ ∀ x, x ∈ ids1 ↔ (mapFind x st1.directoryTables).isSome = true := by
  induction ops generalizing st ids with
  | nil =>
    simp only [runIds, Option.some.injEq, Prod.mk.injEq] at h
    obtain ⟨h1, h2⟩ := h
    subst h1 h2
    exact ⟨hwf, hinv⟩
  | cons op ops ih =>
    simp only [runIds] at h
    split at h
    · exact absurd h (by simp)
    · rename_i st2 hst2
      exact ih (step_wf hwf hst2) (stepIds_keys hinv hst2) h

theorem runIds_run {rnd : Nat → Nat} {ops : List Op} {st st1 : SegmentTable}
    {ids ids1 : List Int} (h : runIds rnd ops st ids = some (st1, ids1)) :
    run rnd ops st = some st1 := by
  induction ops generalizing st ids with
  | nil =>
    simp only [runIds, Option.some.injEq, Prod.mk.injEq] at h
    simp only [run, h.1]
  | cons op ops ih =>
    simp only [runIds] at h
    cases hst : step rnd st op with
    | none =>
      rw [hst] at h
      exact absurd h (by simp)
    | some st2 =>
      rw [hst] at h
      simp only [run, hst]
      exact ih h

/-- C7. Let `st` be reached from a constructed table by a command sequence, and `ids` be
the ids added since construction and not successfully removed since. Then
`removeSegment(id)` throws the invalid-segment error exactly when `id` is negative,
beyond the segment table, or not in `ids`, and otherwise succeeds; a failing call leaves
the whole state unchanged; a successful call leaves `segments[id]` a tombstone
(`limit = 0`) with no directory, so that a second `removeSegment(id)` in a row fails. -/
theorem removeSegment_fails_iff (rnd : Nat → Nat) (tlbSize numFrames : Int) (use_lru : Bool)
    (ops : List Op) (st0 st : SegmentTable) (ids : List Int) (id : Int)
    (h0 : SegmentTable.create tlbSize numFrames use_lru = some st0)
    (hrun : runIds rnd ops st0 [] = some (st, ids)) :
    ((st.removeSegment id).1 = Outcome.throw Fault.invalidSegment ↔
        (id < 0 ∨ (st.segments.length : Int) ≤ id ∨ id ∉ ids)) ∧
      ((st.removeSegment id).1 = Outcome.throw Fault.invalidSegment ∨
        (st.removeSegment id).1 = Outcome.ok ()) ∧
      ((st.removeSegment id).1 = Outcome.throw Fault.invalidSegment →
        (st.removeSegment id).2 = st) ∧
      ((st.removeSegment id).1 = Outcome.ok () →
        segmentAt (st.removeSegment id).2.segments id
            = some (Segment.mk 0 0 Protection.READ_WRITE 0) ∧
          mapFind id (st.removeSegment id).2.directoryTables = none ∧
          ((st.removeSegment id).2.removeSegment id).1
            = Outcome.throw Fault.invalidSegment) := by
  have hcreate : st0.directoryTables = [] := by
    unfold SegmentTable.create at h0
    split at h0
    · exact absurd h0 (by simp)
    · simp only [Option.some.injEq] at h0
      rw [← h0]
  obtain ⟨hwf, hinv⟩ := runIds_inv (create_tableWF h0)
    (by intro x; rw [hcreate]; simp [mapFind]) hrun
  by_cases hok : (st.removeSegment id).1 = Outcome.ok ()
  · obtain ⟨h1, h2, dt, hdt⟩ := (removeSegment_ok_iff st id).mp hok
    have hmem : id ∈ ids := (hinv id).mpr (by rw [hdt]; rfl)
    have hpost : mapFind id (st.removeSegment id).2.directoryTables = none := by
      rw [removeSegment_ok h1 h2 hdt]
      simp [mapFind_mapErase]
    refine ⟨?_, Or.inr hok, ?_, ?_⟩
    · rw [hok]
      constructor
      · intro h
        cases h
      · rintro (h | h | h)
        · omega
        · omega
        · exact absurd hmem h
    · intro h
      rw [hok] at h
      cases h
    · intro _
      refine ⟨?_, hpost, ?_⟩
      · rw [removeSegment_ok h1 h2 hdt, segmentAt_of_getElem? h1]
        exact List.getElem?_set_self (by omega)
      · apply congrArg Prod.fst (removeSegment_throw _ id _)
        intro hok2
        obtain ⟨_, _, dt2, hdt2⟩ := (removeSegment_ok_iff _ id).mp hok2
        rw [hpost] at hdt2
        cases hdt2
  · have hthrow := removeSegment_throw st id hok
    refine ⟨?_, Or.inl (by rw [hthrow]), ?_, ?_⟩
    · constructor
      · intro _
        by_contra hcon
        simp only [not_or, not_lt, not_le, not_not] at hcon
        obtain ⟨h1, h2, h3⟩ := hcon
        have hsome := (hinv id).mp h3
        cases hdt : mapFind id st.directoryTables with
        | none =>
          rw [hdt] at hsome
          cases hsome
        | some dt => exact hok ((removeSegment_ok_iff st id).mpr ⟨h1, h2, dt, hdt⟩)
      · intro _
        rw [hthrow]
    · intro _
      rw [hthrow]
    · intro h
      exact absurd h hok

/-- Witness of C7: after `add 0`, `add 1`, `remove 0` the recorded ids are `[1]`, and
`removeSegment(0)` fails. -/
theorem removeSegment_fails_iff_witness :
    ((table1.removeSegment 0).2.removeSegment 0).1 = Outcome.throw Fault.invalidSegment ↔
      ((0 : Int) < 0 ∨ (((table1.removeSegment 0).2.segments.length : Nat) : Int) ≤ 0 ∨
        (0 : Int) ∉ [(1 : Int)]) :=
  (removeSegment_fails_iff rndAbsent 4 10 true
    [Op.add 0 0 10 Protection.READ_WRITE, Op.add 1 20000 5 Protection.READ_ONLY, Op.remove 0]
    table0 (table1.removeSegment 0).2 [1] 0 rfl (by decide)).1

/-- C8. In every reachable state in which segment `id` is live, `removeSegment(id)`
succeeds, and `addSegment(id, base, limit, prot)` after it yields the record
`{base, limit, prot, fault_count = 0}` at `id` together with a directory that contains no
page tables, and leaves the record of every other segment unchanged. -/
theorem removeSegment_addSegment (rnd : Nat → Nat) (st : SegmentTable)
    (id base limit : Int) (prot : Protection) (seg : Segment) (hreach : Reachable rnd st)
    (hseg : segmentAt st.segments id = some seg) (hlive : seg.limit ≠ 0) :
    (st.removeSegment id).1 = Outcome.ok () ∧
      ∃ st2, (st.removeSegment id).2.addSegment id base limit prot = some st2 ∧
        segmentAt st2.segments id = some (Segment.mk base limit prot 0) ∧
        mapFind id st2.directoryTables = some (DirectoryTable.mk [] limit) ∧
        st2.segments.length = st.segments.length ∧
        ∀ j, j ≠ id → segmentAt st2.segments j = segmentAt st.segments j := by
  have hwf := reachable_wf hreach
  obtain ⟨dt, hdt, _⟩ := hwf.2.2.2 id seg hseg hlive
  obtain ⟨h0, h1, _⟩ := segmentAt_some hseg
  have hok : (st.removeSegment id).1 = Outcome.ok () :=
    (removeSegment_ok_iff st id).mpr ⟨h0, h1, dt, hdt⟩
  refine ⟨hok, ?_⟩
  have hlen : (st.removeSegment id).2.segments.length = st.segments.length := by
    rw [removeSegment_ok h0 h1 hdt]
    exact List.length_set _ _ _
  have hrem : ∀ j, j ≠ id →
      segmentAt (st.removeSegment id).2.segments j = segmentAt st.segments j := by
    intro j hj
    rw [removeSegment_ok h0 h1 hdt]
    by_cases hj0 : 0 ≤ j
    · rw [segmentAt_of_getElem? hj0, segmentAt_of_getElem? hj0]
      exact List.getElem?_set_ne (by omega)
    · rw [segmentAt_eq_none (Or.inl (by omega)), segmentAt_eq_none (Or.inl (by omega))]
  cases hadd : (st.removeSegment id).2.addSegment id base limit prot with
  | none =>
    unfold SegmentTable.addSegment at hadd
    rw [if_neg (by omega)] at hadd
    exact absurd hadd (by simp)
  | some st2 =>
    obtain ⟨_, _, _, hdts, hle, hnew, _, hsame⟩ := addSegment_spec hadd
    have hlen2 : st2.segments.length = st.segments.length := by
      unfold SegmentTable.addSegment at hadd
      rw [if_neg (by omega), if_neg (by rw [hlen]; omega)] at hadd
      simp only [Option.some.injEq] at hadd
      rw [← hadd]
      simp only [List.length_set]
      exact hlen
    refine ⟨st2, rfl, hnew, ?_, hlen2, ?_⟩
    · rw [hdts]
      simp [mapFind_mapInsert]
    · intro j hj
      by_cases hjl : j < (st.segments.length : Int)
      · rw [hsame j hj (by rw [hlen]; exact hjl)]
        exact hrem j hj
      · rw [segmentAt_eq_none (Or.inr (by omega)), segmentAt_eq_none (Or.inr (by omega))]

/-- Witness of C8 on `table1`, whose segment 0 is live. -/
theorem removeSegment_addSegment_witness :
    (table1.removeSegment 0).1 = Outcome.ok () ∧
      ∃ st2, (table1.removeSegment 0).2.addSegment 0 500 7 Protection.READ_ONLY = some st2 ∧
        segmentAt st2.segments 0 = some (Segment.mk 500 7 Protection.READ_ONLY 0) ∧
        mapFind 0 st2.directoryTables = some (DirectoryTable.mk [] 7) ∧
        st2.segments.length = table1.segments.length ∧
        ∀ j, j ≠ 0 → segmentAt st2.segments j = segmentAt table1.segments j :=
  removeSegment_addSegment rndAbsent table1 0 500 7 Protection.READ_ONLY
    (Segment.mk 0 10 Protection.READ_WRITE 0) reachable_table1 (by decide) (by decide)

/-! ## Frames released by a removal -/

theorem freeFrame_used (pm : PhysicalMemory) (frame : Int) :
    (pm.freeFrame frame).used ≤ pm.used := by
  unfold PhysicalMemory.freeFrame PhysicalMemory.used
  split
  · dsimp only
    generalize frame.toNat = n
    generalize pm.free_frames = l
    induction l generalizing n with
    | nil => simp
    | cons b bs ih =>
      cases n with
      | zero =>
        cases b <;> simp [List.count_cons]
      | succ n =>
        simp only [List.set_cons_succ, List.count_cons]
        have := ih n
        omega
  · exact le_refl _

theorem freeFrame_shape (pm : PhysicalMemory) (frame : Int) :
    (pm.freeFrame frame).num_frames = pm.num_frames ∧
      (pm.freeFrame frame).use_lru = pm.use_lru ∧
      (pm.freeFrame frame).free_frames.length = pm.free_frames.length := by
  unfold PhysicalMemory.freeFrame
  split
  · exact ⟨rfl, rfl, by simp⟩
  · exact ⟨rfl, rfl, rfl⟩

theorem freeFrame_released_self {pm : PhysicalMemory} {f : Int} (h0 : 0 ≤ f)
    (h1 : f < pm.num_frames) (hlen : pm.free_frames.length = pm.num_frames.toNat) :
    Released (pm.freeFrame f) f := by
  unfold PhysicalMemory.freeFrame Released PhysicalMemory.activeOrder
  rw [if_pos ⟨h0, h1⟩]
  dsimp only
  refine ⟨List.getElem?_set_self (by omega), ?_⟩
  cases pm.use_lru <;> simp

theorem freeFrame_released_keep {pm : PhysicalMemory} {f : Int} (g : Int)
    (h : Released pm f) : Released (pm.freeFrame g) f := by
  obtain ⟨h1, h2⟩ := h
  unfold PhysicalMemory.freeFrame
  split
  · unfold Released PhysicalMemory.activeOrder at *
    dsimp only
    constructor
    · by_cases hfg : g.toNat = f.toNat
      · rw [hfg]
        apply List.getElem?_set_self
        by_contra hge
        rw [List.getElem?_eq_none (by omega)] at h1
        exact absurd h1 (by simp)
      · rw [List.getElem?_set_ne hfg]
        exact h1
    · cases hl : pm.use_lru
      · rw [hl] at h2
        simp only [Bool.false_eq_true, if_false] at h2 ⊢
        intro hmem
        exact h2 (List.mem_of_mem_filter hmem)
      · rw [hl] at h2
        simp only [if_true] at h2 ⊢
        intro hmem
        exact h2 (List.mem_of_mem_filter hmem)
  · exact ⟨h1, h2⟩

theorem freePages_shape (pages : List Page) (pm : PhysicalMemory) :
    (freePages pages pm).num_frames = pm.num_frames ∧
      (freePages pages pm).free_frames.length = pm.free_frames.length ∧
      (freePages pages pm).used ≤ pm.used := by
  unfold freePages
  induction pages generalizing pm with
  | nil => exact ⟨rfl, rfl, le_refl _⟩
  | cons pg rest ih =>
    simp only [List.foldl_cons]
    split
    · obtain ⟨a, b, c⟩ := ih (pm.freeFrame pg.frame_number)
      obtain ⟨a1, _, b1⟩ := freeFrame_shape pm pg.frame_number
      exact ⟨a.trans a1, b.trans b1, c.trans (freeFrame_used pm pg.frame_number)⟩
    · exact ih pm

theorem freePages_released_keep (pages : List Page) {pm : PhysicalMemory} {f : Int}
    (h : Released pm f) : Released (freePages pages pm) f := by
  unfold freePages
  induction pages generalizing pm with
  | nil => exact h
  | cons pg rest ih =>
    simp only [List.foldl_cons]
    split
    · exact ih (freeFrame_released_keep _ h)
    · exact ih h

theorem freePages_released {pages : List Page} {pm : PhysicalMemory} {pg : Page}
    (hmem : pg ∈ pages) (hpres : pg.present = true) (h0 : 0 ≤ pg.frame_number)
    (h1 : pg.frame_number < pm.num_frames)
    (hlen : pm.free_frames.length = pm.num_frames.toNat) :
    Released (freePages pages pm) pg.frame_number := by
  induction pages generalizing pm with
  | nil => simp at hmem
  | cons q rest ih =>
    rcases List.mem_cons.mp hmem with hq | hq
    · subst hq
      have := freePages_released_keep rest (freeFrame_released_self h0 h1 hlen)
      unfold freePages at this ⊢
      simp only [List.foldl_cons, hpres, if_true]
      exact this
    · unfold freePages
      simp only [List.foldl_cons]
      split
      · obtain ⟨a, _, b⟩ := freeFrame_shape pm q.frame_number
        exact ih hq (by rw [a]; exact h1) (by rw [b, a]; exact hlen)
      · exact ih hq h1 hlen

theorem freeTables_shape (pts : List PageTable) (pm : PhysicalMemory) :
    (freeTables pts pm).num_frames = pm.num_frames ∧
      (freeTables pts pm).free_frames.length = pm.free_frames.length ∧
      (freeTables pts pm).used ≤ pm.used := by
  unfold freeTables
  induction pts generalizing pm with
  | nil => exact ⟨rfl, rfl, le_refl _⟩
  | cons pt rest ih =>
    simp only [List.foldl_cons]
    obtain ⟨a, b, c⟩ := ih (freePages pt.pages pm)
    obtain ⟨a1, b1, c1⟩ := freePages_shape pt.pages pm
    exact ⟨a.trans a1, b.trans b1, c.trans c1⟩

theorem freeTables_released_keep (pts : List PageTable) {pm : PhysicalMemory} {f : Int}
    (h : Released pm f) : Released (freeTables pts pm) f := by
  unfold freeTables
  induction pts generalizing pm with
  | nil => exact h
  | cons pt rest ih =>
    simp only [List.foldl_cons]
    exact ih (freePages_released_keep _ h)

theorem freeTables_released {pts : List PageTable} {pm : PhysicalMemory} {pt : PageTable}
    {pg : Page} (hpt : pt ∈ pts) (hmem : pg ∈ pt.pages) (hpres : pg.present = true)
    (h0 : 0 ≤ pg.frame_number) (h1 : pg.frame_number < pm.num_frames)
    (hlen : pm.free_frames.length = pm.num_frames.toNat) :
    Released (freeTables pts pm) pg.frame_number := by
  induction pts generalizing pm with
  | nil => simp at hpt
  | cons q rest ih =>
    rcases List.mem_cons.mp hpt with hq | hq
    · subst hq
      have := freeTables_released_keep rest (freePages_released hmem hpres h0 h1 hlen)
      unfold freeTables at this ⊢
      simp only [List.foldl_cons]
      exact this
    · unfold freeTables
      simp only [List.foldl_cons]
      obtain ⟨a, b, _⟩ := freePages_shape q.pages pm
      exact ih hq (by rw [a]; exact h1) (by rw [b, a]; exact hlen)

/-- C9. In every reachable state in which segment `id` is live, `removeSegment(id)`
succeeds and does not increase the number of occupied frames (the numerator of
`utilization`); afterwards every frame in `[0, num_frames)` that was bound to a present
page of segment `id` is marked free and is absent from the eviction structure in use. -/
theorem removeSegment_frees (rnd : Nat → Nat) (st : SegmentTable) (id : Int)
    (seg : Segment) (hreach : Reachable rnd st)
    (hseg : segmentAt st.segments id = some seg) (hlive : seg.limit ≠ 0) :
    (st.removeSegment id).1 = Outcome.ok () ∧
      (st.removeSegment id).2.physMem.used ≤ st.physMem.used ∧
      ∀ d p pg, pageAt st id d p = some pg → pg.present = true →
        0 ≤ pg.frame_number → pg.frame_number < st.physMem.num_frames →
        (st.removeSegment id).2.physMem.free_frames[pg.frame_number.toNat]? = some true ∧
          pg.frame_number ∉ (st.removeSegment id).2.physMem.activeOrder := by
  have hwf := reachable_wf hreach
  obtain ⟨dt, hdt, _⟩ := hwf.2.2.2 id seg hseg hlive
  obtain ⟨h0, h1, _⟩ := segmentAt_some hseg
  have hok : (st.removeSegment id).1 = Outcome.ok () :=
    (removeSegment_ok_iff st id).mpr ⟨h0, h1, dt, hdt⟩
  refine ⟨hok, ?_, ?_⟩
  · rw [removeSegment_ok h0 h1 hdt]
    exact (freeTables_shape _ _).2.2
  · intro d p pg hpage hpres hf0 hf1
    rw [removeSegment_ok h0 h1 hdt]
    unfold pageAt at hpage
    rw [hdt] at hpage
    simp only [dirPage] at hpage
    split at hpage
    · exact absurd hpage (by simp)
    · split at hpage
      · exact absurd hpage (by simp)
      · rename_i pt hpt
        exact freeTables_released (List.getElem?_mem hpt) (List.getElem?_mem hpage) hpres
          hf0 hf1 hwf.1.2.1

theorem reachable_table2 : Reachable rndAbsent table2 :=
  ⟨4, 10, true, table0,
    [Op.add 0 0 10 Protection.READ_WRITE, Op.add 1 20000 5 Protection.READ_ONLY,
      Op.translate 0 0 5 10 Protection.READ_ONLY], rfl, by decide⟩

/-- Witness of C9 on `table2`, where page 5 of segment 0 is present on frame 0: after
`removeSegment(0)` frame 0 is free and out of `lru_list`. -/
theorem removeSegment_frees_witness :
    (table2.removeSegment 0).2.physMem.free_frames[0]? = some true ∧
      (0 : Int) ∉ (table2.removeSegment 0).2.physMem.activeOrder :=
  (removeSegment_frees rndAbsent table2 0 (Segment.mk 0 10 Protection.READ_WRITE 0)
    reachable_table2 (by decide) (by decide)).2.2 0 5
    (Page.mk 0 true Protection.READ_ONLY 0) (by decide) rfl (by decide) (by decide)

/-! ## Frame ownership -/

theorem framesOwned_kept {st st1 : SegmentTable} (hown : FramesOwned st)
    (hpm : st1.physMem.free_frames = st.physMem.free_frames)
    (hnum : st1.physMem.num_frames = st.physMem.num_frames)
    (hkept : PagesKept st st1) : FramesOwned st1 := by
  obtain ⟨h1, h2⟩ := hown
  constructor
  · intro s d p pg1 hpg1 hpres
    obtain ⟨pg, hpg, hp, hf⟩ := hkept s d p pg1 hpg1 hpres
    rw [hpm, hnum, ← hf]
    exact h1 s d p pg hpg hp
  · intro s d p s1 d1 p1 pg pg1 hpg hpg1 hp hp1 hf
    obtain ⟨q, hq, hqp, hqf⟩ := hkept s d p pg hpg hp
    obtain ⟨q1, hq1, hqp1, hqf1⟩ := hkept s1 d1 p1 pg1 hpg1 hp1
    exact h2 s d p s1 d1 p1 q q1 hq hq1 hqp hqp1 (by rw [hqf, hqf1, hf])

theorem framesOwned_alloc {st st1 : SegmentTable} {s d p : Int} {f : Nat}
    (hown : FramesOwned st) (hfree : st.physMem.firstFree = some f)
    (hpm : st1.physMem.free_frames = st.physMem.free_frames.set f false)
    (hnum : st1.physMem.num_frames = st.physMem.num_frames)
    (hkept : PagesKeptBut st st1 s d p f) : FramesOwned st1 := by
  obtain ⟨h1, h2⟩ := hown
  obtain ⟨hflt, hftrue, _⟩ := firstFree_some hfree
  have hflen : f < st.physMem.free_frames.length := by
    by_contra hge
    rw [List.getElem?_eq_none (by omega)] at hftrue
    exact absurd hftrue (by simp)
  have hold : ∀ x y z (q : Page), pageAt st x y z = some q → q.present = true →
      q.frame_number ≠ (f : Int) := by
    intro x y z q hq hqp hqf
    have := (h1 x y z q hq hqp).2.2
    rw [hqf, Int.toNat_ofNat, hftrue] at this
    exact absurd this (by simp)
  constructor
  · intro x y z pg1 hpg1 hpres
    rw [hpm, hnum]
    rcases hkept x y z pg1 hpg1 hpres with ⟨_, _, _, hf⟩ | ⟨pg, hpg, hp, hf⟩
    · rw [hf, Int.toNat_ofNat]
      exact ⟨Int.ofNat_nonneg f, by omega, List.getElem?_set_self hflen⟩
    · rw [← hf]
      obtain ⟨a, b, c⟩ := h1 x y z pg hpg hp
      refine ⟨a, b, ?_⟩
      rw [List.getElem?_set_ne]
      · exact c
      · intro heq
        apply hold x y z pg hpg hp
        omega
  · intro x y z x1 y1 z1 pg pg1 hpg hpg1 hp hp1 hf
    rcases hkept x y z pg hpg hp with ⟨a, b, c, e⟩ | ⟨q, hq, hqp, hqf⟩
    · rcases hkept x1 y1 z1 pg1 hpg1 hp1 with ⟨a1, b1, c1, _⟩ | ⟨q1, hq1, hqp1, hqf1⟩
      · exact ⟨by rw [a, a1], by rw [b, b1], by rw [c, c1]⟩
      · exact absurd (by rw [hqf1, ← hf, e]) (hold x1 y1 z1 q1 hq1 hqp1)
    · rcases hkept x1 y1 z1 pg1 hpg1 hp1 with ⟨_, _, _, e1⟩ | ⟨q1, hq1, hqp1, hqf1⟩
      · exact absurd (by rw [hqf, hf, e1]) (hold x y z q hq hqp)
      · exact h2 x y z x1 y1 z1 q q1 hq hq1 hqp hqp1 (by rw [hqf, hqf1, hf])

theorem initPage_absent {rnd : Nat → Nat} (hrnd : NoPreResident rnd) (pos : Nat) :
    (initPage rnd pos).1.present = false := by
  unfold initPage
  rw [if_neg (by have := hrnd pos; omega)]

theorem initPages_absent {rnd : Nat → Nat} (hrnd : NoPreResident rnd) (n pos : Nat) :
    ∀ pg ∈ (initPages rnd n pos).1, pg.present = false := by
  induction n generalizing pos with
  | zero => intro pg hpg; simp [initPages] at hpg
  | succ n ih =>
    intro pg hpg
    simp only [initPages, List.mem_cons] at hpg
    rcases hpg with hpg | hpg
    · subst hpg
      exact initPage_absent hrnd pos
    · exact ih _ pg hpg

theorem growTables_absent {rnd : Nat → Nat} (hrnd : NoPreResident rnd) {m size : Int}
    {k : Nat} {pts pts1 : List PageTable} {pos pos1 : Nat}
    (h : growTables rnd m size k pts pos = some (pts1, pos1)) :
    ∃ fresh, pts1 = pts ++ fresh ∧ ∀ pt ∈ fresh, ∀ pg ∈ pt.pages, pg.present = false := by
  induction k generalizing pts pos with
  | zero =>
    simp only [growTables, Option.some.injEq, Prod.mk.injEq] at h
    exact ⟨[], by simp [h.1], by simp⟩
  | succ k ih =>
    unfold growTables at h
    split at h
    · exact absurd h (by simp)
    · rename_i pt pos2 hc
      obtain ⟨fresh, h1, h2⟩ := ih h
      refine ⟨pt :: fresh, by simp [h1], ?_⟩
      intro q hq
      rcases List.mem_cons.mp hq with hq | hq
      · subst hq
        unfold PageTable.create at hc
        split at hc
        · exact absurd hc (by simp)
        · simp only [Option.some.injEq, Prod.mk.injEq] at hc
          rw [← hc.1]
          exact initPages_absent hrnd _ _
      · exact h2 q hq

theorem getPageTable_kept {rnd : Nat → Nat} (hrnd : NoPreResident rnd)
    {dt dt1 : DirectoryTable} {d size : Int} {pos pos1 : Nat} {pt : PageTable}
    (h : dt.getPageTable rnd d size pos = some (dt1, pt, pos1)) :
    ∀ d1 p1 pg, dirPage dt1 d1 p1 = some pg → pg.present = true →
      dirPage dt d1 p1 = some pg := by
  unfold DirectoryTable.getPageTable at h
  split at h
  · exact absurd h (by simp)
  · split at h
    · exact absurd h (by simp)
    · rename_i pts pos2 hg
      split at h
      · exact absurd h (by simp)
      · simp only [Option.some.injEq, Prod.mk.injEq] at h
        obtain ⟨hdt1, _, _⟩ := h
        subst hdt1
        obtain ⟨fresh, hpts, hfresh⟩ := growTables_absent hrnd hg
        intro d1 p1 pg hpg hpres
        unfold dirPage at hpg ⊢
        split at hpg
        · exact absurd hpg (by simp)
        · rename_i hneg
          rw [if_neg hneg]
          dsimp only at hpg
          rw [hpts] at hpg
          by_cases hlt : d1.toNat < dt.pageTables.length
          · rw [List.getElem?_append_left hlt] at hpg
            exact hpg
          · rw [List.getElem?_append_right (by omega)] at hpg
            split at hpg
            · exact absurd hpg (by simp)
            · rename_i q hq
              have := hfresh q (List.getElem?_mem hq) pg (List.getElem?_mem hpg)
              rw [this] at hpres
              cases hpres

theorem touch_free_frames (pm : PhysicalMemory) (frame : Int) :
    (pm.touch frame).free_frames = pm.free_frames ∧
      (pm.touch frame).num_frames = pm.num_frames := by
  unfold PhysicalMemory.touch
  split
  · split
    · exact ⟨rfl, rfl⟩
    · exact ⟨rfl, rfl⟩
  · exact ⟨rfl, rfl⟩

theorem allocateFrame_num_frames (pm : PhysicalMemory) (pageNum time : Int) :
    (pm.allocateFrame pageNum time).2.num_frames = pm.num_frames := by
  unfold PhysicalMemory.allocateFrame
  split
  · rfl
  · split
    · split <;> rfl
    · split <;> rfl

/-- Effect of `getFrameNumber` on the pages of its table when the pool has a free frame:
either no frame changes hands, or page `p` is put on the first free frame. -/
theorem getFrameNumber_pages {pt pt1 : PageTable} {pm pm1 : PhysicalMemory} {p t : Int}
    {a : Protection} {r : Outcome Int} {f : Nat} (hfree : pm.firstFree = some f)
    (h : pt.getFrameNumber p t a pm = (r, pt1, pm1)) :
    pm1.num_frames = pm.num_frames ∧
    ((pm1.free_frames = pm.free_frames ∧
        ∀ (i : Nat) (pg1 : Page), pt1.pages[i]? = some pg1 → pg1.present = true →
          ∃ pg : Page, pt.pages[i]? = some pg ∧ pg.present = true ∧
            pg.frame_number = pg1.frame_number) ∨
      (pm1.free_frames = pm.free_frames.set f false ∧ 0 ≤ p ∧
        ∀ (i : Nat) (pg1 : Page), pt1.pages[i]? = some pg1 → pg1.present = true →
          (i = p.toNat ∧ pg1.frame_number = (f : Int)) ∨
          ∃ pg : Page, pt.pages[i]? = some pg ∧ pg.present = true ∧
            pg.frame_number = pg1.frame_number)) := by
  have hsame : ∀ (i : Nat) (pg1 : Page), pt.pages[i]? = some pg1 → pg1.present = true →
      ∃ pg : Page, pt.pages[i]? = some pg ∧ pg.present = true ∧
        pg.frame_number = pg1.frame_number :=
    fun i pg1 h1 h2 => ⟨pg1, h1, h2, rfl⟩
  unfold PageTable.getFrameNumber at h
  split at h
  · simp only [Prod.mk.injEq] at h
    obtain ⟨_, h1, h2⟩ := h
    subst h1 h2
    exact ⟨rfl, Or.inl ⟨rfl, hsame⟩⟩
  · rename_i hrange
    split at h
    · simp only [Prod.mk.injEq] at h
      obtain ⟨_, h1, h2⟩ := h
      subst h1 h2
      exact ⟨rfl, Or.inl ⟨rfl, hsame⟩⟩
    · rename_i pg hpg
      split at h
      · rename_i habs
        obtain ⟨hres, hff⟩ := allocateFrame_free p t hfree
        have hnum := allocateFrame_num_frames pm p t
        split at h
        · rename_i e pm2 hal
          rw [hal] at hres
          cases hres
        · rename_i frame pm2 hal
          rw [hal] at hres hff hnum
          simp only [Outcome.ok.injEq] at hres
          simp only [Prod.mk.injEq] at h
          obtain ⟨_, h1, h2⟩ := h
          subst h1 h2 hres
          refine ⟨hnum, Or.inr ⟨hff, by omega, ?_⟩⟩
          intro i pg1 hi hpres
          dsimp only at hi
          by_cases hip : i = p.toNat
          · subst hip
            have hlt : p.toNat < pt.pages.length := by
              by_contra hge
              rw [List.getElem?_eq_none (by omega)] at hpg
              exact absurd hpg (by simp)
            rw [List.getElem?_set_self hlt] at hi
            simp only [Option.some.injEq] at hi
            subst hi
            exact Or.inl ⟨rfl, rfl⟩
          · rw [List.getElem?_set_ne (Ne.symm hip)] at hi
            exact Or.inr ⟨pg1, hi, hpres, rfl⟩
      · rename_i hpres0
        have hpgp : pg.present = true := by
          cases hb : pg.present with
          | true => rfl
          | false => exact absurd hb hpres0
        split at h
        · simp only [Prod.mk.injEq] at h
          obtain ⟨_, h1, h2⟩ := h
          subst h1 h2
          exact ⟨rfl, Or.inl ⟨rfl, hsame⟩⟩
        · simp only [Prod.mk.injEq] at h
          obtain ⟨_, h1, h2⟩ := h
          subst h1 h2
          refine ⟨(touch_free_frames pm _).2, Or.inl ⟨(touch_free_frames pm _).1, ?_⟩⟩
          intro i pg1 hi hpres
          dsimp only at hi
          by_cases hip : i = p.toNat
          · subst hip
            have hlt : p.toNat < pt.pages.length := by
              by_contra hge
              rw [List.getElem?_eq_none (by omega)] at hpg
              exact absurd hpg (by simp)
            rw [List.getElem?_set_self hlt] at hi
            simp only [Option.some.injEq] at hi
            subst hi
            exact ⟨pg, hpg, hpgp, rfl⟩
          · rw [List.getElem?_set_ne (Ne.symm hip)] at hi
            exact ⟨pg1, hi, hpres, rfl⟩

theorem dirPage_some {dt : DirectoryTable} {d p : Int} {pg : Page}
    (h : dirPage dt d p = some pg) :
    0 ≤ d ∧ 0 ≤ p ∧ ∃ pt, dt.pageTables[d.toNat]? = some pt ∧ pt.pages[p.toNat]? = some pg := by
  unfold dirPage at h
  split at h
  · exact absurd h (by simp)
  · rename_i hneg
    split at h
    · exact absurd h (by simp)
    · rename_i pt hpt
      exact ⟨by omega, by omega, pt, hpt, h⟩

theorem dirPage_eq {dt : DirectoryTable} {d p : Int} {pt : PageTable} (hd : 0 ≤ d)
    (hp : 0 ≤ p) (hpt : dt.pageTables[d.toNat]? = some pt) :
    dirPage dt d p = pt.pages[p.toNat]? := by
  unfold dirPage
  rw [if_neg (by omega)]
  simp only [hpt]

theorem dirPage_store {dt1 : DirectoryTable} {pt pt1 : PageTable} {d : Int} (m : Int)
    (hd : 0 ≤ d) (hget : dt1.pageTables[d.toNat]? = some pt) (d1 p1 : Int) (pg1 : Page)
    (h : dirPage (DirectoryTable.mk (dt1.pageTables.set d.toNat pt1) m) d1 p1 = some pg1) :
    (d1 = d ∧ 0 ≤ p1 ∧ pt1.pages[p1.toNat]? = some pg1 ∧
        ∀ q, pt.pages[p1.toNat]? = some q → dirPage dt1 d1 p1 = some q) ∨
      (d1 ≠ d ∧ dirPage dt1 d1 p1 = some pg1) := by
  obtain ⟨hd1, hp1, q, hq, hpg⟩ := dirPage_some h
  dsimp only at hq
  have hdlt : d.toNat < dt1.pageTables.length := by
    by_contra hge
    rw [List.getElem?_eq_none (by omega)] at hget
    exact absurd hget (by simp)
  by_cases hdd : d1 = d
  · subst hdd
    rw [List.getElem?_set_self hdlt] at hq
    simp only [Option.some.injEq] at hq
    subst hq
    refine Or.inl ⟨rfl, hp1, hpg, ?_⟩
    intro q hq
    rw [dirPage_eq hd1 hp1 hget]
    exact hq
  · rw [List.getElem?_set_ne (by omega)] at hq
    refine Or.inr ⟨hdd, ?_⟩
    rw [dirPage_eq hd1 hp1 hq]
    exact hpg

theorem pagesKept_insert {st st1 : SegmentTable} {s : Int} {dt dt1 : DirectoryTable}
    (hdt : mapFind s st.directoryTables = some dt)
    (hst1 : st1.directoryTables = mapInsert s dt1 st.directoryTables)
    (hk : ∀ d1 p1 pg1, dirPage dt1 d1 p1 = some pg1 → pg1.present = true →
      ∃ pg, dirPage dt d1 p1 = some pg ∧ pg.present = true ∧
        pg.frame_number = pg1.frame_number) :
    PagesKept st st1 := by
  intro x y z pg1 hpg1 hpres
  unfold pageAt at hpg1 ⊢
  rw [hst1, mapFind_mapInsert] at hpg1
  by_cases hsx : s = x
  · subst hsx
    rw [if_pos rfl] at hpg1
    rw [hdt]
    exact hk y z pg1 hpg1 hpres
  · rw [if_neg hsx] at hpg1
    exact ⟨pg1, hpg1, hpres, rfl⟩

theorem pagesKeptBut_insert {st st1 : SegmentTable} {s d p : Int} {f : Nat}
    {dt dt1 : DirectoryTable} (hdt : mapFind s st.directoryTables = some dt)
    (hst1 : st1.directoryTables = mapInsert s dt1 st.directoryTables)
    (hk : ∀ d1 p1 pg1, dirPage dt1 d1 p1 = some pg1 → pg1.present = true →
      (d1 = d ∧ p1 = p ∧ pg1.frame_number = (f : Int)) ∨
      ∃ pg, dirPage dt d1 p1 = some pg ∧ pg.present = true ∧
        pg.frame_number = pg1.frame_number) :
    PagesKeptBut st st1 s d p f := by
  intro x y z pg1 hpg1 hpres
  unfold pageAt at hpg1 ⊢
  rw [hst1, mapFind_mapInsert] at hpg1
  by_cases hsx : s = x
  · subst hsx
    rw [if_pos rfl] at hpg1
    rw [hdt]
    rcases hk y z pg1 hpg1 hpres with ⟨a, b, c⟩ | h
    · exact Or.inl ⟨rfl, a, b, c⟩
    · exact Or.inr h
  · rw [if_neg hsx] at hpg1
    exact Or.inr ⟨pg1, hpg1, hpres, rfl⟩

/-- Effect of `translateAddress` on the present pages and on occupancy, when no page
starts resident and the pool has a free frame `f`: either occupancy and the present
pages are as before, or `f` becomes occupied and page `(s, d, p)` is put on it. -/
theorem translateAddress_pages {rnd : Nat → Nat} (hrnd : NoPreResident rnd)
    {st st1 : SegmentTable} {s d p off : Int} {a : Protection} {r : Outcome Int} {f : Nat}
    (hfree : st.physMem.firstFree = some f)
    (h : st.translateAddress rnd s d p off a = some (r, st1)) :
    st1.physMem.num_frames = st.physMem.num_frames ∧
      ((st1.physMem.free_frames = st.physMem.free_frames ∧ PagesKept st st1) ∨
        (st1.physMem.free_frames = st.physMem.free_frames.set f false ∧
          PagesKeptBut st st1 s d p f)) := by
  have hrefl : ∀ {st2 : SegmentTable}, st2.directoryTables = st.directoryTables →
      PagesKept st st2 := by
    intro st2 h2 x y z pg1 hpg1 hpres
    unfold pageAt at hpg1 ⊢
    rw [h2] at hpg1
    exact ⟨pg1, hpg1, hpres, rfl⟩
  unfold SegmentTable.translateAddress at h
  simp only [tick_segments, tick_directoryTables, tick_tlb, tick_physMem] at h
  split at h
  · simp only [Option.some.injEq, Prod.mk.injEq] at h
    rw [← h.2]
    exact ⟨rfl, Or.inl ⟨rfl, hrefl rfl⟩⟩
  · split at h
    · simp only [Option.some.injEq, Prod.mk.injEq] at h
      rw [← h.2]
      exact ⟨rfl, Or.inl ⟨rfl, hrefl rfl⟩⟩
    · split at h
      · simp only [Option.some.injEq, Prod.mk.injEq] at h
        rw [← h.2]
        exact ⟨rfl, Or.inl ⟨rfl, hrefl rfl⟩⟩
      · split at h
        · exact absurd h (by simp)
        · rename_i dirTable hdt
          split at h
          · exact absurd h (by simp)
          · rename_i dirTable1 pageTable pos1 hg
            obtain ⟨hd0, _, hget, _⟩ := getPageTable_spec hg
            have hkept := getPageTable_kept hrnd hg
            have hgrow : ∀ {st2 : SegmentTable},
                st2.directoryTables = mapInsert s dirTable1 st.directoryTables →
                PagesKept st st2 := by
              intro st2 h2
              apply pagesKept_insert hdt h2
              intro d1 p1 pg1 h3 h4
              exact ⟨pg1, hkept d1 p1 pg1 h3 h4, h4, rfl⟩
            split at h
            · split at h
              · simp only [Option.some.injEq, Prod.mk.injEq] at h
                rw [← h.2]
                exact ⟨rfl, Or.inl ⟨rfl, hgrow rfl⟩⟩
              · simp only [Option.some.injEq, Prod.mk.injEq] at h
                rw [← h.2]
                exact ⟨rfl, Or.inl ⟨rfl, hgrow rfl⟩⟩
            · split at h
              · simp only [Option.some.injEq, Prod.mk.injEq] at h
                rw [← h.2]
                exact ⟨rfl, Or.inl ⟨rfl, hgrow rfl⟩⟩
              · split at h
                · simp only [Option.some.injEq, Prod.mk.injEq] at h
                  rw [← h.2]
                  exact ⟨rfl, Or.inl ⟨rfl, hgrow rfl⟩⟩
                · have hfinal : ∀ {st2 : SegmentTable} {r2 : Outcome Int} {pt1 : PageTable}
                      {pm1 : PhysicalMemory},
                      pageTable.getFrameNumber p (st.tick rnd).time a st.physMem
                        = (r2, pt1, pm1) →
                      st2.directoryTables
                        = storePageTable st.directoryTables s dirTable1 d pt1 →
                      st2.physMem = pm1 →
                      st2.physMem.num_frames = st.physMem.num_frames ∧
                        ((st2.physMem.free_frames = st.physMem.free_frames ∧
                            PagesKept st st2) ∨
                          (st2.physMem.free_frames = st.physMem.free_frames.set f false ∧
                            PagesKeptBut st st2 s d p f)) := by
                    intro st2 r2 pt1 pm1 hgf hdts hpm
                    obtain ⟨hnum, hcase⟩ := getFrameNumber_pages hfree hgf
                    rw [hpm]
                    refine ⟨hnum, ?_⟩
                    rcases hcase with ⟨hff, hpages⟩ | ⟨hff, hp0, hpages⟩
                    · refine Or.inl ⟨hff, pagesKept_insert hdt hdts ?_⟩
                      intro d1 p1 pg1 h3 h4
                      rcases dirPage_store _ hd0 hget d1 p1 pg1 h3 with
                        ⟨h5, h6, h7, h8⟩ | ⟨_, h5⟩
                      · obtain ⟨q, hq, hqp, hqf⟩ := hpages p1.toNat pg1 h7 h4
                        exact ⟨q, hkept d1 p1 q (h8 q hq) hqp, hqp, hqf⟩
                      · exact ⟨pg1, hkept d1 p1 pg1 h5 h4, h4, rfl⟩
                    · refine Or.inr ⟨hff, pagesKeptBut_insert hdt hdts ?_⟩
                      intro d1 p1 pg1 h3 h4
                      rcases dirPage_store _ hd0 hget d1 p1 pg1 h3 with
                        ⟨h5, h6, h7, h8⟩ | ⟨_, h5⟩
                      · rcases hpages p1.toNat pg1 h7 h4 with ⟨hi, hfr⟩ | ⟨q, hq, hqp, hqf⟩
                        · exact Or.inl ⟨h5, by omega, hfr⟩
                        · exact Or.inr ⟨q, hkept d1 p1 q (h8 q hq) hqp, hqp, hqf⟩
                      · exact Or.inr ⟨pg1, hkept d1 p1 pg1 h5 h4, h4, rfl⟩
                  split at h
                  · rename_i e pt1 pm1 hgf
                    simp only [Option.some.injEq, Prod.mk.injEq] at h
                    rw [← h.2]
                    exact hfinal hgf rfl rfl
                  · rename_i frame pt1 pm1 hgf
                    split at h
                    · exact absurd h (by simp)
                    · simp only [Option.some.injEq, Prod.mk.injEq] at h
                      rw [← h.2]
                      exact hfinal hgf rfl rfl

theorem addSegment_framesOwned {st st1 : SegmentTable} {id base limit : Int}
    {prot : Protection} (hown : FramesOwned st)
    (h : st.addSegment id base limit prot = some st1) : FramesOwned st1 := by
  obtain ⟨_, hpm, _, hdts, _⟩ := addSegment_spec h
  apply framesOwned_kept hown (by rw [hpm]) (by rw [hpm])
  intro x y z pg1 hpg1 hpres
  unfold pageAt at hpg1 ⊢
  rw [hdts, mapFind_mapInsert] at hpg1
  by_cases hix : id = x
  · rw [if_pos hix] at hpg1
    simp [dirPage] at hpg1
  · rw [if_neg hix] at hpg1
    exact ⟨pg1, hpg1, hpres, rfl⟩

theorem freeFrame_keep (pm : PhysicalMemory) {g frame : Int} (hg : 0 ≤ g)
    (hne : frame ≠ g) :
    (pm.freeFrame frame).free_frames[g.toNat]? = pm.free_frames[g.toNat]? := by
  unfold PhysicalMemory.freeFrame
  split
  · rename_i hr
    dsimp only
    exact List.getElem?_set_ne (by omega)
  · rfl

theorem freePages_keep (pages : List Page) (pm : PhysicalMemory) {g : Int} (hg : 0 ≤ g)
    (h : ∀ q ∈ pages, q.present = true → q.frame_number ≠ g) :
    (freePages pages pm).free_frames[g.toNat]? = pm.free_frames[g.toNat]? := by
  unfold freePages
  induction pages generalizing pm with
  | nil => rfl
  | cons q rest ih =>
    simp only [List.foldl_cons]
    have hrest : ∀ x ∈ rest, x.present = true → x.frame_number ≠ g :=
      fun x hx => h x (List.mem_cons_of_mem _ hx)
    split
    · rename_i hq
      rw [ih _ hrest]
      exact freeFrame_keep pm hg (h q (List.mem_cons_self _ _) hq)
    · exact ih _ hrest

theorem freeTables_keep (pts : List PageTable) (pm : PhysicalMemory) {g : Int} (hg : 0 ≤ g)
    (h : ∀ pt ∈ pts, ∀ q ∈ pt.pages, q.present = true → q.frame_number ≠ g) :
    (freeTables pts pm).free_frames[g.toNat]? = pm.free_frames[g.toNat]? := by
  unfold freeTables
  induction pts generalizing pm with
  | nil => rfl
  | cons pt rest ih =>
    simp only [List.foldl_cons]
    rw [ih _ (fun x hx => h x (List.mem_cons_of_mem _ hx))]
    exact freePages_keep _ pm hg (h pt (List.mem_cons_self _ _))

theorem removeSegment_framesOwned {st : SegmentTable} (id : Int) (hown : FramesOwned st) :
    FramesOwned (st.removeSegment id).2 := by
  by_cases hok : (st.removeSegment id).1 = Outcome.ok ()
  · obtain ⟨h0, h1, dt, hdt⟩ := (removeSegment_ok_iff st id).mp hok
    rw [removeSegment_ok h0 h1 hdt]
    obtain ⟨hI1, hI2⟩ := hown
    have hpage : ∀ x y z pg, pageAt
        { st with
          physMem := freeTables dt.pageTables st.physMem
          directoryTables := mapErase id st.directoryTables
          segments := st.segments.set id.toNat (Segment.mk 0 0 Protection.READ_WRITE 0) }
        x y z = some pg → x ≠ id ∧ pageAt st x y z = some pg := by
      intro x y z pg hpg
      unfold pageAt at hpg ⊢
      dsimp only at hpg
      rw [mapFind_mapErase] at hpg
      by_cases hix : id = x
      · rw [if_pos hix] at hpg
        exact absurd hpg (by simp)
      · rw [if_neg hix] at hpg
        exact ⟨Ne.symm hix, hpg⟩
    constructor
    · intro x y z pg hpg hpres
      obtain ⟨hx, hold⟩ := hpage x y z pg hpg
      obtain ⟨a, b, c⟩ := hI1 x y z pg hold hpres
      dsimp only
      refine ⟨a, by rw [(freeTables_shape _ _).1]; exact b, ?_⟩
      rw [freeTables_keep _ _ a]
      · exact c
      · intro pt hpt q hq hqp hqf
        obtain ⟨i, hi⟩ := List.getElem?_of_mem hpt
        obtain ⟨j, hj⟩ := List.getElem?_of_mem hq
        have hqat : pageAt st id (i : Int) (j : Int) = some q := by
          unfold pageAt
          rw [hdt]
          simp only
          rw [dirPage_eq (Int.ofNat_nonneg i) (Int.ofNat_nonneg j)
            (by rw [Int.toNat_ofNat]; exact hi), Int.toNat_ofNat]
          exact hj
        exact hx (hI2 x y z id i j pg q hold hqat hpres hqp hqf.symm).1
    · intro x y z x1 y1 z1 pg pg1 hpg hpg1 hp hp1 hf
      exact hI2 x y z x1 y1 z1 pg pg1 (hpage x y z pg hpg).2 (hpage x1 y1 z1 pg1 hpg1).2
        hp hp1 hf
  · rw [removeSegment_throw st id hok]
    exact hown

theorem run_framesOwned {rnd : Nat → Nat} (hrnd : NoPreResident rnd) {ops : List Op}
    {st st1 : SegmentTable} (hown : FramesOwned st) (hrun : run rnd ops st = some st1)
    (hfree : neverFull rnd ops st = true) : FramesOwned st1 := by
  induction ops generalizing st with
  | nil =>
    simp only [run, Option.some.injEq] at hrun
    subst hrun
    exact hown
  | cons op ops ih =>
    simp only [run] at hrun
    cases hst : step rnd st op with
    | none =>
      rw [hst] at hrun
      exact absurd hrun (by simp)
    | some st2 =>
      rw [hst] at hrun
      simp only [neverFull, hst, Bool.and_eq_true] at hfree
      obtain ⟨hnow, hlater⟩ := hfree
      apply ih _ hrun hlater
      cases op with
      | add id base limit prot => exact addSegment_framesOwned hown hst
      | remove id =>
        simp only [step, Option.some.injEq] at hst
        subst hst
        exact removeSegment_framesOwned id hown
      | translate s d p off a =>
        simp only [step] at hst
        cases htr : st.translateAddress rnd s d p off a with
        | none =>
          rw [htr] at hst
          exact absurd hst (by simp)
        | some res =>
          obtain ⟨r, st3⟩ := res
          rw [htr] at hst
          simp only [Option.some.injEq] at hst
          subst hst
          simp only at hnow
          obtain ⟨f, hf⟩ := Option.isSome_iff_exists.mp hnow
          obtain ⟨hnum, hcase⟩ := translateAddress_pages hrnd hf htr
          rcases hcase with ⟨hff, hk⟩ | ⟨hff, hk⟩
          · exact framesOwned_kept hown hff hnum hk
          · exact framesOwned_alloc hown hf hff hnum hk

theorem create_framesOwned {tlbSize numFrames : Int} {use_lru : Bool} {st : SegmentTable}
    (h : SegmentTable.create tlbSize numFrames use_lru = some st) : FramesOwned st := by
  have hdts : st.directoryTables = [] := by
    unfold SegmentTable.create at h
    split at h
    · exact absurd h (by simp)
    · simp only [Option.some.injEq] at h
      rw [← h]
  constructor
  · intro s d p pg hpg
    simp [pageAt, hdts, mapFind] at hpg
  · intro s d p s1 d1 p1 pg pg1 hpg
    simp [pageAt, hdts, mapFind] at hpg

/-- C10, counterexample. In the reachable state `tableMock` pages 0 and 1 of page table 0
of segment 0 are both present on frame 0, which the frame pool marks free. -/
theorem present_pages_counterexample :
    Reachable rndResident tableMock ∧
      pageAt tableMock 0 0 0 = some (Page.mk 0 true Protection.READ_ONLY 0) ∧
      pageAt tableMock 0 0 1 = some (Page.mk 0 true Protection.READ_ONLY 0) ∧
      tableMock.physMem.free_frames[0]? = some true :=
  ⟨⟨4, 10, true, table0,
      [Op.add 0 0 2 Protection.READ_WRITE, Op.translate 0 0 5 0 Protection.READ_ONLY],
      rfl, by decide⟩,
    by decide, by decide, by decide⟩

/-- C10, amended. Take a state reached from a constructed table by `addSegment`,
`removeSegment` and `translateAddress` calls, where no page table was created with
resident pages and every `translateAddress` call started with a free frame in the pool
(so no allocation evicted). Then the frame of each present page is a frame of the pool
marked occupied, and two present pages with the same `frame_number` are the same page
(same segment, directory and page index). -/
theorem present_pages_own_frames (rnd : Nat → Nat) (tlbSize numFrames : Int)
    (use_lru : Bool) (ops : List Op) (st0 st : SegmentTable) (hrnd : NoPreResident rnd)
    (h0 : SegmentTable.create tlbSize numFrames use_lru = some st0)
    (hrun : run rnd ops st0 = some st) (hfree : neverFull rnd ops st0 = true) :
    (∀ s d p pg, pageAt st s d p = some pg → pg.present = true →
      0 ≤ pg.frame_number ∧ pg.frame_number < st.physMem.num_frames ∧
        st.physMem.free_frames[pg.frame_number.toNat]? = some false) ∧
    (∀ s d p s1 d1 p1 pg pg1, pageAt st s d p = some pg → pageAt st s1 d1 p1 = some pg1 →
      pg.present = true → pg1.present = true → pg.frame_number = pg1.frame_number →
      s = s1 ∧ d = d1 ∧ p = p1) :=
  run_framesOwned hrnd (create_framesOwned h0) hrun hfree

/-- Witness of C10 (amended): in `table2`, reached under `rndAbsent` with a free frame
before its one translation, page `(0, 0, 5)` is present on frame 0, which is marked
occupied. -/
theorem present_pages_own_frames_witness :
    (0 : Int) ≤ 0 ∧ (0 : Int) < table2.physMem.num_frames ∧
      table2.physMem.free_frames[0]? = some false :=
  (present_pages_own_frames rndAbsent 4 10 true
    [Op.add 0 0 10 Protection.READ_WRITE, Op.add 1 20000 5 Protection.READ_ONLY,
      Op.translate 0 0 5 10 Protection.READ_ONLY]
    table0 table2 (fun _ => (by decide : (3 : Nat) ≤ 5 % 10)) rfl (by decide)
    (by decide)).1 0 0 5
    (Page.mk 0 true Protection.READ_ONLY 0) (by decide) rfl

/-! ## Case analysis of `translateAddress` -/

/-- Every result of `translateAddress` comes from one of its nine exits; a property that
holds at each exit holds of the result. -/
theorem translateAddress_elim {rnd : Nat → Nat} {st st1 : SegmentTable} {s d p off : Int}
    {a : Protection} {r : Outcome Int} {P : Outcome Int → SegmentTable → Prop}
    (h : st.translateAddress rnd s d p off a = some (r, st1))
    (hnone : segmentAt st.segments s = none →
      P (Outcome.throw Fault.segmentationFault) (st.tick rnd))
    (htomb : ∀ seg, segmentAt st.segments s = some seg → seg.limit = 0 →
      P (Outcome.throw Fault.segmentationFault) ((st.tick rnd).withFault s))
    (hprot : ∀ seg, segmentAt st.segments s = some seg → seg.limit ≠ 0 →
      a = Protection.READ_WRITE ∧ seg.protection = Protection.READ_ONLY →
      P (Outcome.throw Fault.segmentProtection) ((st.tick rnd).withFault s))
    (hwalk : ∀ seg dt dt1 pt pos1, segmentAt st.segments s = some seg → seg.limit ≠ 0 →
      ¬(a = Protection.READ_WRITE ∧ seg.protection = Protection.READ_ONLY) →
      mapFind s st.directoryTables = some dt →
      dt.getPageTable rnd d 1000 (st.tick rnd).rand_pos = some (dt1, pt, pos1) →
      ((st.tlb.get s d p).1 ≠ -1 → pt.page_size ≤ off →
        P (Outcome.throw Fault.offsetFault) ((st.afterProbe rnd s d p dt1 pos1).withFault s)) ∧
      ((st.tlb.get s d p).1 ≠ -1 → off < pt.page_size →
        P (Outcome.ok (seg.base_address + (st.tlb.get s d p).1 * pt.page_size + off))
          (st.afterProbe rnd s d p dt1 pos1)) ∧
      ((st.tlb.get s d p).1 = -1 → seg.limit ≤ p →
        P (Outcome.throw Fault.pageLimit) ((st.afterProbe rnd s d p dt1 pos1).withFault s)) ∧
      ((st.tlb.get s d p).1 = -1 → p < seg.limit → pt.page_size ≤ off →
        P (Outcome.throw Fault.offsetFault) ((st.afterProbe rnd s d p dt1 pos1).withFault s)) ∧
      ((st.tlb.get s d p).1 = -1 → p < seg.limit → off < pt.page_size →
        ∀ e pt1 pm1, pt.getFrameNumber p (st.tick rnd).time a st.physMem
            = (Outcome.throw e, pt1, pm1) →
          P (Outcome.throw e) (st.afterWalk rnd s d p dt1 pos1 pt1 pm1)) ∧
      ((st.tlb.get s d p).1 = -1 → p < seg.limit → off < pt.page_size →
        ∀ frame pt1 pm1 tlb2, pt.getFrameNumber p (st.tick rnd).time a st.physMem
            = (Outcome.ok frame, pt1, pm1) →
          (st.tlb.get s d p).2.put s d p frame = some tlb2 →
          P (Outcome.ok (seg.base_address + frame * pt1.page_size + off))
            { st.afterWalk rnd s d p dt1 pos1 pt1 pm1 with tlb := tlb2 })) :
    P r st1 := by
  unfold SegmentTable.translateAddress at h
  simp only [tick_segments, tick_directoryTables, tick_tlb, tick_physMem] at h
  split at h
  · rename_i hs
    simp only [Option.some.injEq, Prod.mk.injEq] at h
    rw [← h.1, ← h.2]
    exact hnone hs
  · rename_i seg hs
    split at h
    · rename_i hl
      simp only [Option.some.injEq, Prod.mk.injEq] at h
      rw [← h.1, ← h.2]
      exact htomb seg hs hl
    · rename_i hl
      split at h
      · rename_i hacc
        simp only [Option.some.injEq, Prod.mk.injEq] at h
        rw [← h.1, ← h.2]
        exact hprot seg hs hl hacc
      · rename_i hacc
        split at h
        · exact absurd h (by simp)
        · rename_i dt hdt
          split at h
          · exact absurd h (by simp)
          · rename_i dt1 pt pos1 hg
            obtain ⟨c1, c2, c3, c4, c5, c6⟩ := hwalk seg dt dt1 pt pos1 hs hl hacc hdt hg
            split at h
            · rename_i hprobe
              split at h
              · rename_i hoff
                simp only [Option.some.injEq, Prod.mk.injEq] at h
                rw [← h.1, ← h.2]
                exact c1 hprobe hoff
              · rename_i hoff
                simp only [Option.some.injEq, Prod.mk.injEq] at h
                rw [← h.1, ← h.2]
                exact c2 hprobe (by omega)
            · rename_i hprobe
              have hmiss : (st.tlb.get s d p).1 = -1 := by
                by_contra hne
                exact hprobe hne
              split at h
              · rename_i hlim
                simp only [Option.some.injEq, Prod.mk.injEq] at h
                rw [← h.1, ← h.2]
                exact c3 hmiss hlim
              · rename_i hlim
                split at h
                · rename_i hoff
                  simp only [Option.some.injEq, Prod.mk.injEq] at h
                  rw [← h.1, ← h.2]
                  exact c4 hmiss (by omega) hoff
                · rename_i hoff
                  split at h
                  · rename_i e pt1 pm1 hgf
                    simp only [Option.some.injEq, Prod.mk.injEq] at h
                    rw [← h.1, ← h.2]
                    exact c5 hmiss (by omega) (by omega) e pt1 pm1 hgf
                  · rename_i frame pt1 pm1 hgf
                    split at h
                    · exact absurd h (by simp)
                    · rename_i tlb2 hput
                      simp only [Option.some.injEq, Prod.mk.injEq] at h
                      rw [← h.1, ← h.2]
                      exact c6 hmiss (by omega) (by omega) frame pt1 pm1 tlb2 hgf hput

/-! ## Clock and latency -/

/-- C15. Every `translateAddress` call with a result, an address or any fault, increases
the logical clock `time` by exactly 1 and `translation_count` by exactly 1, and increases
`total_latency` by an amount between 1 and 10 inclusive. -/
theorem translateAddress_clock (rnd : Nat → Nat) (st st1 : SegmentTable)
    (s d p off : Int) (a : Protection) (r : Outcome Int)
    (h : st.translateAddress rnd s d p off a = some (r, st1)) :
    st1.time = st.time + 1 ∧ st1.translation_count = st.translation_count + 1 ∧
      1 ≤ st1.total_latency - st.total_latency ∧
      st1.total_latency - st.total_latency ≤ 10 := by
  have key : st1.time = st.time + 1 ∧ st1.translation_count = st.translation_count + 1 ∧
      st1.total_latency = st.total_latency + (1 + ((rnd st.rand_pos % 10 : Nat) : Int)) := by
    refine translateAddress_elim
      (P := fun _ x => x.time = st.time + 1 ∧
        x.translation_count = st.translation_count + 1 ∧
        x.total_latency = st.total_latency + (1 + ((rnd st.rand_pos % 10 : Nat) : Int)))
      h ?_ ?_ ?_ ?_
    · intro _
      exact ⟨rfl, rfl, rfl⟩
    · intro _ _ _
      exact ⟨rfl, rfl, rfl⟩
    · intro _ _ _ _
      exact ⟨rfl, rfl, rfl⟩
    · intro seg dt dt1 pt pos1 _ _ _ _ _
      refine ⟨?_, ?_, ?_, ?_, ?_, ?_⟩
      · intro _ _
        exact ⟨rfl, rfl, rfl⟩
      · intro _ _
        exact ⟨rfl, rfl, rfl⟩
      · intro _ _
        exact ⟨rfl, rfl, rfl⟩
      · intro _ _ _
        exact ⟨rfl, rfl, rfl⟩
      · intro _ _ _ _ _ _ _
        exact ⟨rfl, rfl, rfl⟩
      · intro _ _ _ _ _ _ _ _ _
        exact ⟨rfl, rfl, rfl⟩
  obtain ⟨h1, h2, h3⟩ := key
  have hmod : rnd st.rand_pos % 10 < 10 := Nat.mod_lt _ (by decide)
  refine ⟨h1, h2, ?_, ?_⟩ <;> omega

/-- Witness of C15: the read that takes `table1` to `table2`. -/
theorem translateAddress_clock_witness :
    table2.time = table1.time + 1 ∧
      table2.translation_count = table1.translation_count + 1 ∧
      1 ≤ table2.total_latency - table1.total_latency ∧
      table2.total_latency - table1.total_latency ≤ 10 :=
  translateAddress_clock rndAbsent table1 table2 0 0 5 10 Protection.READ_ONLY
    (Outcome.ok 10) (by decide)

/-! ## What a TLB hit leaves alone -/

theorem pageAt_congr {st st1 : SegmentTable}
    (h : st1.directoryTables = st.directoryTables) (s d p : Int) :
    pageAt st1 s d p = pageAt st s d p := by
  unfold pageAt
  rw [h]

theorem getPageTable_grows {rnd : Nat → Nat} {dt dt1 : DirectoryTable} {d : Int}
    {pos pos1 : Nat} {pt : PageTable}
    (h : dt.getPageTable rnd d 1000 pos = some (dt1, pt, pos1)) (d1 p1 : Int) (pg : Page)
    (hpg : dirPage dt d1 p1 = some pg) : dirPage dt1 d1 p1 = some pg := by
  obtain ⟨_, _, _, fresh, hpts, _⟩ := getPageTable_spec h
  obtain ⟨hd1, hp1, q, hq, hqp⟩ := dirPage_some hpg
  have hlt : d1.toNat < dt.pageTables.length := by
    by_contra hge
    rw [List.getElem?_eq_none (by omega)] at hq
    exact absurd hq (by simp)
  have hq1 : dt1.pageTables[d1.toNat]? = some q := by
    rw [hpts, List.getElem?_append_left hlt]
    exact hq
  rw [dirPage_eq hd1 hp1 hq1]
  exact hqp

theorem pageAt_afterProbe {rnd : Nat → Nat} {st : SegmentTable} {s d p : Int}
    {dt dt1 : DirectoryTable} {pt : PageTable} {pos1 : Nat}
    (hdt : mapFind s st.directoryTables = some dt)
    (hg : dt.getPageTable rnd d 1000 (st.tick rnd).rand_pos = some (dt1, pt, pos1))
    (s1 d1 p1 : Int) (pg : Page) (hpg : pageAt st s1 d1 p1 = some pg) :
    pageAt (st.afterProbe rnd s d p dt1 pos1) s1 d1 p1 = some pg := by
  unfold pageAt at hpg ⊢
  unfold SegmentTable.afterProbe
  dsimp only
  rw [mapFind_mapInsert]
  by_cases hs : s = s1
  · subst hs
    rw [if_pos rfl]
    rw [hdt] at hpg
    exact getPageTable_grows hg d1 p1 pg hpg
  · rw [if_neg hs]
    exact hpg

/-- C20. A `translateAddress` call whose TLB probe hits (the cache holds a frame other
than `-1` for the key) leaves the frame pool as it was (occupancy, `lru_list` and
`fifo_queue` order, `frame_to_page`) and leaves every existing page with all its fields,
`last_access` included: a cache hit does not promote the frame in the pool. -/
theorem translateAddress_hit_effect (rnd : Nat → Nat) (st st1 : SegmentTable)
    (s d p off : Int) (a : Protection) (r : Outcome Int)
    (h : st.translateAddress rnd s d p off a = some (r, st1))
    (hhit : (st.tlb.get s d p).1 ≠ -1) :
    st1.physMem = st.physMem ∧
      ∀ s1 d1 p1 pg, pageAt st s1 d1 p1 = some pg → pageAt st1 s1 d1 p1 = some pg := by
  refine translateAddress_elim
    (P := fun _ x => x.physMem = st.physMem ∧
      ∀ s1 d1 p1 pg, pageAt st s1 d1 p1 = some pg → pageAt x s1 d1 p1 = some pg)
    h ?_ ?_ ?_ ?_
  · intro _
    exact ⟨rfl, fun _ _ _ _ hpg => hpg⟩
  · intro _ _ _
    exact ⟨rfl, fun _ _ _ _ hpg => hpg⟩
  · intro _ _ _ _
    exact ⟨rfl, fun _ _ _ _ hpg => hpg⟩
  · intro seg dt dt1 pt pos1 _ _ _ hdt hg
    refine ⟨?_, ?_, ?_, ?_, ?_, ?_⟩
    · intro _ _
      exact ⟨rfl, fun s1 d1 p1 pg hpg => pageAt_afterProbe (p := p) hdt hg s1 d1 p1 pg hpg⟩
    · intro _ _
      exact ⟨rfl, fun s1 d1 p1 pg hpg => pageAt_afterProbe hdt hg s1 d1 p1 pg hpg⟩
    · intro hm
      exact absurd hm hhit
    · intro hm
      exact absurd hm hhit
    · intro hm
      exact absurd hm hhit
    · intro hm
      exact absurd hm hhit

/-- Witness of C20: on `table2` the TLB holds `(0, 0, 5)`; the repeated read, which
leads to `table3`, leaves the frame pool and the pages as they were. -/
theorem translateAddress_hit_effect_witness :
    table3.physMem = table2.physMem ∧
      ∀ s1 d1 p1 pg, pageAt table2 s1 d1 p1 = some pg → pageAt table3 s1 d1 p1 = some pg :=
  translateAddress_hit_effect rndAbsent table2 table3 0 0 5 10 Protection.READ_ONLY
    (Outcome.ok 10) (by decide) (by decide)

/-! ## Page indices that reach the page table -/

theorem allocateFrame_fault {pm pm1 : PhysicalMemory} {pageNum time : Int} {e : Fault}
    (h : pm.allocateFrame pageNum time = (Outcome.throw e, pm1)) :
    (e = Fault.memoryFullLRU ∨ e = Fault.memoryFullFIFO) ∧ pm1 = pm := by
  unfold PhysicalMemory.allocateFrame at h
  split at h
  · simp at h
  · split at h
    · split at h
      · simp only [Prod.mk.injEq, Outcome.throw.injEq] at h
        exact ⟨Or.inl h.1.symm, h.2.symm⟩
      · simp at h
    · split at h
      · simp only [Prod.mk.injEq, Outcome.throw.injEq] at h
        exact ⟨Or.inr h.1.symm, h.2.symm⟩
      · simp at h

/-- What `getFrameNumber` leaves when it throws: nothing changes, and the error is the
invalid-page one exactly for an index outside the table. -/
theorem getFrameNumber_throw {pt pt1 : PageTable} {pm pm1 : PhysicalMemory} {p t : Int}
    {a : Protection} {e : Fault}
    (h : pt.getFrameNumber p t a pm = (Outcome.throw e, pt1, pm1)) :
    pt1 = pt ∧ pm1 = pm ∧
      (e = Fault.invalidPage → p < 0 ∨ (pt.pages.length : Int) ≤ p) := by
  unfold PageTable.getFrameNumber at h
  split at h
  · rename_i hr
    simp only [Prod.mk.injEq] at h
    exact ⟨h.2.1.symm, h.2.2.symm, fun _ => by omega⟩
  · rename_i hr
    split at h
    · rename_i hnone
      exfalso
      rw [List.getElem?_eq_getElem (by omega)] at hnone
      exact absurd hnone (by simp)
    · split at h
      · split at h
        · rename_i e1 pm2 hal
          simp only [Prod.mk.injEq, Outcome.throw.injEq] at h
          obtain ⟨he, hpm⟩ := allocateFrame_fault hal
          refine ⟨h.2.1.symm, by rw [← h.2.2, hpm], ?_⟩
          intro hinv
          rw [← h.1] at hinv
          rcases he with he | he <;> rw [he] at hinv <;> cases hinv
        · simp at h
      · split at h
        · simp only [Prod.mk.injEq, Outcome.throw.injEq] at h
          refine ⟨h.2.1.symm, h.2.2.symm, ?_⟩
          intro hinv
          rw [← h.1] at hinv
          cases hinv
        · simp at h

/-- C19, counterexample. On the reachable state `table1` the read of page `-1` of
segment 0 passes the page-limit check (`-1 < 10`) and ends with the page table's
"Invalid page number" error. -/
theorem translateAddress_invalid_page_counterexample :
    Reachable rndAbsent table1 ∧
      (table1.translateAddress rndAbsent 0 0 (-1) 0 Protection.READ_ONLY).map Prod.fst
        = some (Outcome.throw Fault.invalidPage) :=
  ⟨reachable_table1, by decide⟩

/-- C19, amended. No `translateAddress` call on a reachable state with a page index
`p ≥ 0` ends with the page table's "Invalid page number" error: a non-negative page index
that gets past the page-limit check lies within the capacity of the page table it is
resolved in. -/
theorem translateAddress_no_invalid_page (rnd : Nat → Nat) (st st1 : SegmentTable)
    (s d p off : Int) (a : Protection) (r : Outcome Int) (hreach : Reachable rnd st)
    (hp : 0 ≤ p) (h : st.translateAddress rnd s d p off a = some (r, st1)) :
    r ≠ Outcome.throw Fault.invalidPage := by
  have hwf := reachable_wf hreach
  refine translateAddress_elim (P := fun x _ => x ≠ Outcome.throw Fault.invalidPage)
    h ?_ ?_ ?_ ?_
  · intro _ hc
    cases hc
  · intro _ _ _ hc
    cases hc
  · intro _ _ _ _ hc
    cases hc
  · intro seg dt dt1 pt pos1 hseg hlive _ hdt hg
    refine ⟨?_, ?_, ?_, ?_, ?_, ?_⟩
    · intro _ _ hc
      cases hc
    · intro _ _ hc
      cases hc
    · intro _ _ hc
      cases hc
    · intro _ _ _ hc
      cases hc
    · intro _ hlim _ e pt1 pm1 hgf hc
      simp only [Outcome.throw.injEq] at hc
      obtain ⟨dt2, hdt2, hmax⟩ := hwf.2.2.2 s seg hseg hlive
      rw [hdt] at hdt2
      simp only [Option.some.injEq] at hdt2
      subst hdt2
      have hlen := (getPageTable_wf (hwf.2.2.1 s dt hdt).1 hg).2.2.1
      rcases (getFrameNumber_throw hgf).2.2 hc with hneg | hbig
      · omega
      · omega
    · intro _ _ _ _ _ _ _ _ _ hc
      cases hc

/-- Witness of C19 (amended): the read that takes `table1` to `table2` has page index 5. -/
theorem translateAddress_no_invalid_page_witness :
    (Outcome.ok 10 : Outcome Int) ≠ Outcome.throw Fault.invalidPage :=
  translateAddress_no_invalid_page rndAbsent table1 table2 0 0 5 10 Protection.READ_ONLY
    (Outcome.ok 10) reachable_table1 (by decide) (by decide)

/-! ## The TLB across a removal -/

theorem getFrameNumber_ok {pt pt1 : PageTable} {pm pm1 : PhysicalMemory} {p t frame : Int}
    {a : Protection} (h : pt.getFrameNumber p t a pm = (Outcome.ok frame, pt1, pm1)) :
    0 ≤ p ∧ ∃ pg1, pt1.pages[p.toNat]? = some pg1 ∧ pg1.present = true ∧
      pg1.frame_number = frame := by
  unfold PageTable.getFrameNumber at h
  split at h
  · simp at h
  · rename_i hr
    have hlt : p.toNat < pt.pages.length := by omega
    split at h
    · simp at h
    · rename_i pg hpg
      split at h
      · split at h
        · simp at h
        · simp only [Prod.mk.injEq, Outcome.ok.injEq] at h
          obtain ⟨h1, h2, _⟩ := h
          subst h1 h2
          exact ⟨by omega, _, List.getElem?_set_self hlt, rfl, rfl⟩
      · rename_i hpres
        split at h
        · simp at h
        · simp only [Prod.mk.injEq, Outcome.ok.injEq] at h
          obtain ⟨h1, h2, _⟩ := h
          subst h1 h2
          refine ⟨by omega, _, List.getElem?_set_self hlt, ?_, rfl⟩
          cases hb : pg.present with
          | true => rfl
          | false => exact absurd hb hpres

/-- A translation that misses the TLB and returns an address is resolved through the page
table: afterwards page `(s, d, p)` is present and the address is
`base_address + frame_number * 1000 + offset`. -/
theorem translateAddress_miss_ok {rnd : Nat → Nat} {st st1 : SegmentTable}
    {s d p off x : Int} {a : Protection} (hwf : TableWF st)
    (hmiss : (st.tlb.get s d p).1 = -1)
    (h : st.translateAddress rnd s d p off a = some (Outcome.ok x, st1)) :
    ∃ seg pg, segmentAt st.segments s = some seg ∧ pageAt st1 s d p = some pg ∧
      pg.present = true ∧ x = seg.base_address + pg.frame_number * 1000 + off := by
  refine translateAddress_elim
    (P := fun r y => ∀ z, r = Outcome.ok z →
      ∃ seg pg, segmentAt st.segments s = some seg ∧ pageAt y s d p = some pg ∧
        pg.present = true ∧ z = seg.base_address + pg.frame_number * 1000 + off)
    h ?_ ?_ ?_ ?_ x rfl
  · intro _ z hz
    cases hz
  · intro _ _ _ z hz
    cases hz
  · intro _ _ _ _ z hz
    cases hz
  · intro seg dt dt1 pt pos1 hseg _ _ hdt hg
    refine ⟨?_, ?_, ?_, ?_, ?_, ?_⟩
    · intro _ _ z hz
      cases hz
    · intro hne
      exact absurd hmiss hne
    · intro _ _ z hz
      cases hz
    · intro _ _ _ z hz
      cases hz
    · intro _ _ _ _ _ _ _ z hz
      cases hz
    · intro _ _ _ frame pt1 pm1 tlb2 hgf _ z hz
      simp only [Outcome.ok.injEq] at hz
      obtain ⟨hp0, pg1, hpg1, hpres, hfr⟩ := getFrameNumber_ok hgf
      obtain ⟨hd0, _, hget, _⟩ := getPageTable_spec hg
      have hsize : pt.page_size = 1000 := (getPageTable_wf (hwf.2.2.1 s dt hdt).1 hg).2.1
      have hsz1 : pt1.page_size = 1000 := by
        have := getFrameNumber_page_size pt p (st.tick rnd).time a st.physMem
        rw [hgf] at this
        rw [← hsize]
        exact this
      have hdlt : d.toNat < dt1.pageTables.length := by
        by_contra hge
        rw [List.getElem?_eq_none (by omega)] at hget
        exact absurd hget (by simp)
      refine ⟨seg, pg1, hseg, ?_, hpres, ?_⟩
      · unfold pageAt SegmentTable.afterWalk storePageTable
        dsimp only
        rw [mapFind_mapInsert, if_pos rfl]
        dsimp only
        rw [dirPage_eq hd0 hp0 (List.getElem?_set_self hdlt)]
        exact hpg1
      · rw [← hz, hfr, hsz1]

/-- C11, counterexample. From the reachable state `tableCached`, `removeSegment(0)`
succeeds and the TLB still holds the entry `(0, 0, 5)`; after `addSegment(0, 0, 3, RW)`
the first probe for page 5 of segment 0 hits and returns the stale frame 0. -/
theorem removeSegment_tlb_counterexample :
    Reachable rndAbsent tableCached ∧
      (tableCached.removeSegment 0).1 = Outcome.ok () ∧
      mapFind ((0, 0, 5) : TLBKey) (tableCached.removeSegment 0).2.tlb.cache = some 0 ∧
      (tableCached.removeSegment 0).2.addSegment 0 0 3 Protection.READ_WRITE
        = some tableStale ∧
      (tableStale.tlb.get 0 0 5).1 = 0 :=
  ⟨⟨4, 10, true, table0, staleOps.take 2, rfl, by decide⟩, by decide, by decide,
    by decide, by decide⟩

/-- C11, amended. A successful `removeSegment(id)` on a reachable state leaves the TLB as
it was, entries of segment `id` included, and so does a later `addSegment(id, ...)`.
The first `translateAddress` of a page of segment `id` after that is a TLB miss exactly
when the TLB held no entry for that page before the removal; a miss that returns an
address is resolved through the new page table (the page is present afterwards and the
address is built from its frame). -/
theorem removeSegment_keeps_tlb (rnd : Nat → Nat) (st st2 : SegmentTable)
    (id base limit d p : Int) (prot : Protection) (hreach : Reachable rnd st)
    (hok : (st.removeSegment id).1 = Outcome.ok ())
    (hadd : (st.removeSegment id).2.addSegment id base limit prot = some st2) :
    (st.removeSegment id).2.tlb = st.tlb ∧ st2.tlb = st.tlb ∧
      ((st2.tlb.get id d p).1 = -1 ↔ mapFind (id, d, p) st.tlb.cache = none) ∧
      ∀ off a x st3, (st2.tlb.get id d p).1 = -1 →
        st2.translateAddress rnd id d p off a = some (Outcome.ok x, st3) →
        ∃ pg, pageAt st3 id d p = some pg ∧ pg.present = true ∧
          x = base + pg.frame_number * 1000 + off := by
  have hwf := reachable_wf hreach
  obtain ⟨h0, h1, dt, hdt⟩ := (removeSegment_ok_iff st id).mp hok
  have hrem : (st.removeSegment id).2.tlb = st.tlb := by
    rw [removeSegment_ok h0 h1 hdt]
  obtain ⟨_, _, htlb, _, _, hnew, _⟩ := addSegment_spec hadd
  have htlb2 : st2.tlb = st.tlb := by rw [htlb, hrem]
  have hwf2 : TableWF st2 := addSegment_wf (removeSegment_wf id hwf) hadd
  refine ⟨hrem, htlb2, ?_, ?_⟩
  · rw [htlb2]
    cases hfind : mapFind (id, d, p) st.tlb.cache with
    | none =>
      unfold TLB.get
      rw [hfind]
      simp
    | some f =>
      rw [(get_hit hfind).1]
      have := (hwf.2.1 (id, d, p) f hfind).2
      simp [this]
  · intro off a x st3 hmiss htr
    obtain ⟨seg, pg, hseg, hpg, hpres, hx⟩ := translateAddress_miss_ok hwf2 hmiss htr
    rw [hnew] at hseg
    simp only [Option.some.injEq] at hseg
    subst hseg
    exact ⟨pg, hpg, hpres, hx⟩

/-- Witness of C11 (amended): `tableCached`, segment 0 removed and added again as
`tableStale`; the TLB is the one of `tableCached`. -/
theorem removeSegment_keeps_tlb_witness :
    (tableCached.removeSegment 0).2.tlb = tableCached.tlb ∧
      tableStale.tlb = tableCached.tlb :=
  have h := removeSegment_keeps_tlb rndAbsent tableCached tableStale 0 0 3 0 5
    Protection.READ_WRITE ⟨4, 10, true, table0, staleOps.take 2, rfl, by decide⟩
    (by decide) (by decide)
  ⟨h.1, h.2.1⟩

/-! ## Page-level protection -/

theorem getFrameNumber_protected {pt : PageTable} {p : Int} {pg : Page} (t : Int)
    (pm : PhysicalMemory) (hp0 : 0 ≤ p) (hpg : pt.pages[p.toNat]? = some pg)
    (hpres : pg.present = true) (hro : pg.protection = Protection.READ_ONLY) :
    pt.getFrameNumber p t Protection.READ_WRITE pm
      = (Outcome.throw Fault.pageProtection, pt, pm) := by
  have hlt : p.toNat < pt.pages.length := by
    by_contra hge
    rw [List.getElem?_eq_none (by omega)] at hpg
    exact absurd hpg (by simp)
  unfold PageTable.getFrameNumber
  rw [if_neg (by omega)]
  simp only [hpg, hpres, hro]
  simp

/-- Supporting result for C12, the path that does check: in a reachable state, a write
to a page that is present with page protection `READ_ONLY`, in a live `READ_WRITE`
segment, with an offset below 1000 and no TLB entry for the page, throws the page-level
Protection Violation. -/
theorem translateAddress_page_protection_miss (rnd : Nat → Nat) (st : SegmentTable)
    (s d p off : Int) (seg : Segment) (pg : Page) (hreach : Reachable rnd st)
    (hseg : segmentAt st.segments s = some seg) (hlive : seg.limit ≠ 0)
    (hrw : seg.protection = Protection.READ_WRITE)
    (hpg : pageAt st s d p = some pg) (hpres : pg.present = true)
    (hro : pg.protection = Protection.READ_ONLY) (hoff : off < 1000)
    (hmiss : mapFind (s, d, p) st.tlb.cache = none) :
    (st.translateAddress rnd s d p off Protection.READ_WRITE).map Prod.fst
      = some (Outcome.throw Fault.pageProtection) := by
  have hwf := reachable_wf hreach
  obtain ⟨dt, hdt, hmax⟩ := hwf.2.2.2 s seg hseg hlive
  unfold pageAt at hpg
  rw [hdt] at hpg
  simp only at hpg
  obtain ⟨hd0, hp0, pt, hpt, hpage⟩ := dirPage_some hpg
  obtain ⟨hsize, hlen, _⟩ := (hwf.2.2.1 s dt hdt).1 pt (List.getElem?_mem hpt)
  have hplt : p.toNat < pt.pages.length := by
    by_contra hge
    rw [List.getElem?_eq_none (by omega)] at hpage
    exact absurd hpage (by simp)
  have hprobe : (st.tlb.get s d p).1 = -1 := by
    unfold TLB.get
    rw [hmiss]
  unfold SegmentTable.translateAddress
  simp only [tick_segments, tick_directoryTables, tick_tlb, tick_physMem, hseg, hdt]
  rw [if_neg hlive, if_neg (by rw [hrw]; simp), getPageTable_existing rnd 1000 _ hd0 hpt]
  simp only [hprobe, ne_eq, not_true_eq_false, if_false, hsize]
  rw [if_neg (by omega), if_neg (by omega),
    getFrameNumber_protected _ _ hp0 hpage hpres hro]
  rfl

/-- C12, the failing input. In the reachable state `table2` segment 0 is live and
`READ_WRITE`, and its page `(0, 0, 5)` is present with page protection `READ_ONLY`
because its first fault was a read; the write `translate(0, 0, 5, 10, Write)` hits the
TLB and returns address 10 instead of throwing a Protection Violation. -/
theorem translateAddress_page_protection_bypass :
    Reachable rndAbsent table2 ∧
      segmentAt table2.segments 0 = some (Segment.mk 0 10 Protection.READ_WRITE 0) ∧
      pageAt table2 0 0 5 = some (Page.mk 0 true Protection.READ_ONLY 0) ∧
      (table2.translateAddress rndAbsent 0 0 5 10 Protection.READ_WRITE).map Prod.fst
        = some (Outcome.ok 10) :=
  ⟨reachable_table2, by decide, by decide, by decide⟩

/-! ## Eviction scenarios -/

theorem getFrameNumber_absent_alloc {pt : PageTable} {pm pm1 : PhysicalMemory} {p f : Int}
    {pg : Page} (t : Int) (a : Protection) (hp0 : 0 ≤ p)
    (hpg : pt.pages[p.toNat]? = some pg) (habs : pg.present = false)
    (hal : pm.allocateFrame p t = (Outcome.ok f, pm1)) :
    pt.getFrameNumber p t a pm =
      (Outcome.ok f,
        { pt with pages := pt.pages.set p.toNat (Page.mk f true a pg.last_access) }, pm1) := by
  have hlt : p.toNat < pt.pages.length := by
    by_contra hge
    rw [List.getElem?_eq_none (by omega)] at hpg
    exact absurd hpg (by simp)
  unfold PageTable.getFrameNumber
  rw [if_neg (by omega)]
  simp only [hpg, habs, if_true, hal]

theorem getFrameNumber_present {pt : PageTable} {p : Int} {pg : Page} (t : Int)
    (a : Protection) (pm : PhysicalMemory) (hp0 : 0 ≤ p)
    (hpg : pt.pages[p.toNat]? = some pg) (hpres : pg.present = true)
    (hperm : ¬(a = Protection.READ_WRITE ∧ pg.protection = Protection.READ_ONLY)) :
    pt.getFrameNumber p t a pm =
      (Outcome.ok pg.frame_number,
        { pt with pages := pt.pages.set p.toNat { pg with last_access := t } },
        pm.touch pg.frame_number) := by
  have hlt : p.toNat < pt.pages.length := by
    by_contra hge
    rw [List.getElem?_eq_none (by omega)] at hpg
    exact absurd hpg (by simp)
  unfold PageTable.getFrameNumber
  rw [if_neg (by omega)]
  simp only [hpg, hpres]
  rw [if_neg (by simp), if_neg hperm]

theorem getFrameNumber_present_fifo {pt : PageTable} {p : Int} {pg : Page} (t : Int)
    (a : Protection) (pm : PhysicalMemory) (hp0 : 0 ≤ p)
    (hpg : pt.pages[p.toNat]? = some pg) (hpres : pg.present = true)
    (hfifo : pm.use_lru = false) : (pt.getFrameNumber p t a pm).2.2 = pm := by
  by_cases hperm : a = Protection.READ_WRITE ∧ pg.protection = Protection.READ_ONLY
  · have hlt : p.toNat < pt.pages.length := by
      by_contra hge
      rw [List.getElem?_eq_none (by omega)] at hpg
      exact absurd hpg (by simp)
    unfold PageTable.getFrameNumber
    rw [if_neg (by omega)]
    simp only [hpg, hpres]
    rw [if_neg (by simp), if_pos hperm]
  · rw [getFrameNumber_present t a pm hp0 hpg hpres hperm]
    unfold PhysicalMemory.touch
    simp [hfifo]

/-- C13. Take a frame pool of two frames, all free, under LRU, and pages A, B, C that are
not present (each given by its page table and index when it is resolved). Resolving A
gives frame 0 and resolving B gives frame 1, which fills the pool; a permitted resolve of
A, present on frame 0, returns frame 0; the resolve of C that follows is given frame 1,
the frame B held, and not A's frame 0, and it leaves every other page of its table as it
was; the recency list ends as `[0, 1]`. -/
theorem lru_eviction_scenario (pm : PhysicalMemory) (ptA ptB ptA2 ptC : PageTable)
    (a b c tA tB tA2 tC : Int) (xA xB xA2 xC : Protection) (pgA pgB pgA2 pgC : Page)
    (hn : pm.num_frames = 2) (hfree : pm.free_frames = [true, true])
    (hlru : pm.use_lru = true) (hlist : pm.lru_list = [])
    (ha0 : 0 ≤ a) (hb0 : 0 ≤ b) (hc0 : 0 ≤ c)
    (hA : ptA.pages[a.toNat]? = some pgA) (hAabs : pgA.present = false)
    (hB : ptB.pages[b.toNat]? = some pgB) (hBabs : pgB.present = false)
    (hA2 : ptA2.pages[a.toNat]? = some pgA2) (hA2pres : pgA2.present = true)
    (hA2frame : Outcome.ok pgA2.frame_number = (ptA.getFrameNumber a tA xA pm).1)
    (hperm : ¬(xA2 = Protection.READ_WRITE ∧ pgA2.protection = Protection.READ_ONLY))
    (hC : ptC.pages[c.toNat]? = some pgC) (hCabs : pgC.present = false) :
    let r1 := ptA.getFrameNumber a tA xA pm
    let r2 := ptB.getFrameNumber b tB xB r1.2.2
    let r3 := ptA2.getFrameNumber a tA2 xA2 r2.2.2
    let r4 := ptC.getFrameNumber c tC xC r3.2.2
    r1.1 = Outcome.ok 0 ∧
      r1.2.1.pages[a.toNat]? = some (Page.mk 0 true xA pgA.last_access) ∧
      r2.1 = Outcome.ok 1 ∧ r2.2.2.free_frames = [false, false] ∧
      r3.1 = Outcome.ok 0 ∧ r4.1 = Outcome.ok 1 ∧
      (∀ q : Nat, q ≠ c.toNat → r4.2.1.pages[q]? = ptC.pages[q]?) ∧
      r4.2.2.lru_list = [0, 1] := by
  obtain ⟨n, free, fifo, lru, f2p, ul⟩ := pm
  simp only at hn hfree hlru hlist
  subst hn hfree hlru hlist
  have hAlt : a.toNat < ptA.pages.length := by
    by_contra hge
    rw [List.getElem?_eq_none (by omega)] at hA
    exact absurd hA (by simp)
  have e1 := getFrameNumber_absent_alloc tA xA ha0 hA hAabs
    (show PhysicalMemory.allocateFrame ⟨2, [true, true], fifo, [], f2p, true⟩ a tA
      = (Outcome.ok 0, ⟨2, [false, true], fifo, [0], mapInsert 0 a f2p, true⟩) from rfl)
  rw [e1] at hA2frame
  simp only [Outcome.ok.injEq] at hA2frame
  have e2 := getFrameNumber_absent_alloc tB xB hb0 hB hBabs
    (show PhysicalMemory.allocateFrame
        ⟨2, [false, true], fifo, [0], mapInsert 0 a f2p, true⟩ b tB
      = (Outcome.ok 1,
          ⟨2, [false, false], fifo, [0, 1], mapInsert 1 b (mapInsert 0 a f2p), true⟩)
      from rfl)
  have e3 := getFrameNumber_present tA2 xA2
    ⟨2, [false, false], fifo, [0, 1], mapInsert 1 b (mapInsert 0 a f2p), true⟩
    ha0 hA2 hA2pres hperm
  rw [hA2frame] at e3
  have e4 := getFrameNumber_absent_alloc tC xC hc0 hC hCabs
    (show PhysicalMemory.allocateFrame
        (PhysicalMemory.touch
          ⟨2, [false, false], fifo, [0, 1], mapInsert 1 b (mapInsert 0 a f2p), true⟩ 0) c tC
      = (Outcome.ok 1,
          ⟨2, [false, false], fifo, [0, 1],
            mapInsert 1 c (mapInsert 1 b (mapInsert 0 a f2p)), true⟩)
      from rfl)
  dsimp only
  rw [e1]
  dsimp only
  rw [e2]
  dsimp only
  rw [e3]
  dsimp only
  rw [e4]
  refine ⟨rfl, ?_, rfl, rfl, rfl, rfl, ?_, rfl⟩
  · exact List.getElem?_set_self hAlt
  · intro q hq
    exact List.getElem?_set_ne (Ne.symm hq)

/-- Witness of C13 on `blankTable` and `pool2 true`, pages 0, 1, 2: C gets frame 1 and
the recency list ends as `[0, 1]`. -/
theorem lru_eviction_scenario_witness :
    (scenarioC true).1 = Outcome.ok 1 ∧ (scenarioC true).2.2.lru_list = [0, 1] :=
  have h := lru_eviction_scenario (pool2 true) blankTable (scenarioA true).2.1
    (scenarioB true).2.1 (scenarioTouch true).2.1 0 1 2 1 2 3 4
    Protection.READ_ONLY Protection.READ_ONLY Protection.READ_ONLY Protection.READ_ONLY
    (Page.mk (-1) false Protection.READ_WRITE 0) (Page.mk (-1) false Protection.READ_WRITE 0)
    (Page.mk 0 true Protection.READ_ONLY 0) (Page.mk (-1) false Protection.READ_WRITE 0)
    rfl rfl rfl rfl (by decide) (by decide) (by decide) (by decide) rfl (by decide) rfl
    (by decide) rfl (by decide) (by decide) (by decide) rfl
  ⟨h.2.2.2.2.2.1, h.2.2.2.2.2.2.2⟩

/-- C14. Take a frame pool of two frames, all free, under FIFO, and pages A, B, C that
are not present (each given by its page table and index when it is resolved). Resolving
A gives frame 0 and resolving B gives frame 1; the resolve of C that follows is given
frame 0, the frame A held, both when it comes right after B and when A, present on
frame 0, was resolved again in between with any access kind. -/
theorem fifo_eviction_scenario (pm : PhysicalMemory) (ptA ptB ptA2 ptC : PageTable)
    (a b c tA tB tA2 tC : Int) (xA xB xA2 xC : Protection) (pgA pgB pgA2 pgC : Page)
    (hn : pm.num_frames = 2) (hfree : pm.free_frames = [true, true])
    (hfifo : pm.use_lru = false) (hlist : pm.fifo_queue = [])
    (ha0 : 0 ≤ a) (hb0 : 0 ≤ b) (hc0 : 0 ≤ c)
    (hA : ptA.pages[a.toNat]? = some pgA) (hAabs : pgA.present = false)
    (hB : ptB.pages[b.toNat]? = some pgB) (hBabs : pgB.present = false)
    (hA2 : ptA2.pages[a.toNat]? = some pgA2) (hA2pres : pgA2.present = true)
    (hC : ptC.pages[c.toNat]? = some pgC) (hCabs : pgC.present = false) :
    let r1 := ptA.getFrameNumber a tA xA pm
    let r2 := ptB.getFrameNumber b tB xB r1.2.2
    let r3 := ptA2.getFrameNumber a tA2 xA2 r2.2.2
    r1.1 = Outcome.ok 0 ∧
      r1.2.1.pages[a.toNat]? = some (Page.mk 0 true xA pgA.last_access) ∧
      r2.1 = Outcome.ok 1 ∧ r2.2.2.free_frames = [false, false] ∧
      (ptC.getFrameNumber c tC xC r2.2.2).1 = Outcome.ok 0 ∧
      (ptC.getFrameNumber c tC xC r3.2.2).1 = Outcome.ok 0 := by
  obtain ⟨n, free, fifo, lru, f2p, ul⟩ := pm
  simp only at hn hfree hfifo hlist
  subst hn hfree hfifo hlist
  have hAlt : a.toNat < ptA.pages.length := by
    by_contra hge
    rw [List.getElem?_eq_none (by omega)] at hA
    exact absurd hA (by simp)
  have e1 := getFrameNumber_absent_alloc tA xA ha0 hA hAabs
    (show PhysicalMemory.allocateFrame ⟨2, [true, true], [], lru, f2p, false⟩ a tA
      = (Outcome.ok 0, ⟨2, [false, true], [0], lru, mapInsert 0 a f2p, false⟩) from rfl)
  have e2 := getFrameNumber_absent_alloc tB xB hb0 hB hBabs
    (show PhysicalMemory.allocateFrame
        ⟨2, [false, true], [0], lru, mapInsert 0 a f2p, false⟩ b tB
      = (Outcome.ok 1,
          ⟨2, [false, false], [0, 1], lru, mapInsert 1 b (mapInsert 0 a f2p), false⟩)
      from rfl)
  have e3 := getFrameNumber_present_fifo tA2 xA2
    ⟨2, [false, false], [0, 1], lru, mapInsert 1 b (mapInsert 0 a f2p), false⟩
    ha0 hA2 hA2pres rfl
  have e4 := getFrameNumber_absent_alloc tC xC hc0 hC hCabs
    (show PhysicalMemory.allocateFrame
        ⟨2, [false, false], [0, 1], lru, mapInsert 1 b (mapInsert 0 a f2p), false⟩ c tC
      = (Outcome.ok 0,
          ⟨2, [false, false], [1, 0], lru,
            mapInsert 0 c (mapInsert 1 b (mapInsert 0 a f2p)), false⟩)
      from rfl)
  dsimp only
  rw [e1]
  dsimp only
  rw [e2]
  dsimp only
  rw [e3, e4]
  exact ⟨rfl, List.getElem?_set_self hAlt, rfl, rfl, rfl, rfl⟩

/-- Witness of C14 on `blankTable` and `pool2 false`, pages 0, 1, 2: C gets frame 0 after
A was resolved again. -/
theorem fifo_eviction_scenario_witness :
    (scenarioC false).1 = Outcome.ok 0 :=
  (fifo_eviction_scenario (pool2 false) blankTable (scenarioA false).2.1
    (scenarioB false).2.1 (scenarioTouch false).2.1 0 1 2 1 2 3 4
    Protection.READ_ONLY Protection.READ_ONLY Protection.READ_ONLY Protection.READ_ONLY
    (Page.mk (-1) false Protection.READ_WRITE 0) (Page.mk (-1) false Protection.READ_WRITE 0)
    (Page.mk 0 true Protection.READ_ONLY 0) (Page.mk (-1) false Protection.READ_WRITE 0)
    rfl rfl rfl rfl (by decide) (by decide) (by decide) (by decide) rfl (by decide) rfl
    (by decide) rfl (by decide) rfl).2.2.2.2.2

/-! ## Eviction order and occupancy -/

theorem nodup_snoc {α : Type} {l : List α} {x : α} (hnd : l.Nodup) (hx : x ∉ l) :
    (l ++ [x]).Nodup := by
  rw [List.nodup_append]
  refine ⟨hnd, List.nodup_singleton x, ?_⟩
  intro y hy hy1
  simp only [List.mem_singleton] at hy1
  subst hy1
  exact hx hy

theorem order_push {l : List Int} {free : List Bool} {i : Nat} (hnd : l.Nodup)
    (hmem : ∀ f : Int, f ∈ l ↔ 0 ≤ f ∧ free[f.toNat]? = some false)
    (hi : free[i]? = some true) :
    (l ++ [(i : Int)]).Nodup ∧
      ∀ f : Int, f ∈ l ++ [(i : Int)] ↔ 0 ≤ f ∧ (free.set i false)[f.toNat]? = some false := by
  have hilt : i < free.length := by
    by_contra hge
    rw [List.getElem?_eq_none (by omega)] at hi
    exact absurd hi (by simp)
  constructor
  · apply nodup_snoc hnd
    intro hin
    have := ((hmem i).mp hin).2
    rw [Int.toNat_ofNat, hi] at this
    exact absurd this (by simp)
  · intro f
    rw [List.mem_append, List.mem_singleton, hmem f]
    constructor
    · rintro (⟨h0, hf⟩ | hf)
      · refine ⟨h0, ?_⟩
        by_cases hfi : i = f.toNat
        · rw [← hfi]
          exact List.getElem?_set_self hilt
        · rw [List.getElem?_set_ne hfi]
          exact hf
      · subst hf
        exact ⟨Int.ofNat_nonneg i, by rw [Int.toNat_ofNat]; exact List.getElem?_set_self hilt⟩
    · rintro ⟨h0, hf⟩
      by_cases hfi : i = f.toNat
      · right
        omega
      · left
        rw [List.getElem?_set_ne hfi] at hf
        exact ⟨h0, hf⟩

theorem order_rotate {l rest : List Int} {frame : Int} (h : l = frame :: rest)
    (hnd : l.Nodup) :
    (rest ++ [frame]).Nodup ∧ ∀ f : Int, f ∈ rest ++ [frame] ↔ f ∈ l := by
  subst h
  obtain ⟨h1, h2⟩ := List.nodup_cons.mp hnd
  refine ⟨nodup_snoc h2 h1, ?_⟩
  intro f
  rw [List.mem_append, List.mem_singleton, List.mem_cons]
  exact Or.comm

theorem order_filter {l : List Int} {free : List Bool} {frame : Int} (h0 : 0 ≤ frame)
    (hnd : l.Nodup) (hmem : ∀ f : Int, f ∈ l ↔ 0 ≤ f ∧ free[f.toNat]? = some false) :
    (l.filter (fun x => decide (x ≠ frame))).Nodup ∧
      ∀ f : Int, f ∈ l.filter (fun x => decide (x ≠ frame)) ↔
        0 ≤ f ∧ (free.set frame.toNat true)[f.toNat]? = some false := by
  refine ⟨hnd.filter _, ?_⟩
  intro f
  rw [List.mem_filter, hmem f]
  simp only [decide_eq_true_eq]
  constructor
  · rintro ⟨⟨hf0, hf⟩, hne⟩
    refine ⟨hf0, ?_⟩
    rw [List.getElem?_set_ne (by omega)]
    exact hf
  · rintro ⟨hf0, hf⟩
    by_cases hfi : frame.toNat = f.toNat
    · exfalso
      rw [← hfi] at hf
      by_cases hlt : frame.toNat < free.length
      · rw [List.getElem?_set_self hlt] at hf
        exact absurd hf (by simp)
      · rw [List.getElem?_eq_none (by simp; omega)] at hf
        exact absurd hf (by simp)
    · rw [List.getElem?_set_ne hfi] at hf
      exact ⟨⟨hf0, hf⟩, by omega⟩

theorem order_touch {l : List Int} {frame : Int} (hin : frame ∈ l) (hnd : l.Nodup) :
    (l.erase frame ++ [frame]).Nodup ∧ ∀ f : Int, f ∈ l.erase frame ++ [frame] ↔ f ∈ l := by
  constructor
  · apply nodup_snoc (hnd.erase frame)
    intro h
    exact ((List.Nodup.mem_erase_iff hnd).mp h).1 rfl
  · intro f
    rw [List.mem_append, List.mem_singleton, List.Nodup.mem_erase_iff hnd]
    constructor
    · rintro (⟨_, h⟩ | h)
      · exact h
      · rw [h]
        exact hin
    · intro h
      by_cases hf : f = frame
      · exact Or.inr hf
      · exact Or.inl ⟨hf, h⟩

theorem allocateFrame_order {pm : PhysicalMemory} (pageNum time : Int) (hwf : OrderWF pm) :
    OrderWF (pm.allocateFrame pageNum time).2 := by
  obtain ⟨n, free, fifo, lru, f2p, ul⟩ := pm
  obtain ⟨hnd, hmem⟩ := hwf
  unfold PhysicalMemory.allocateFrame
  cases hff : PhysicalMemory.firstFree ⟨n, free, fifo, lru, f2p, ul⟩ with
  | some i =>
    obtain ⟨_, hi, _⟩ := firstFree_some hff
    cases ul with
    | true => exact order_push hnd hmem hi
    | false => exact order_push hnd hmem hi
  | none =>
    cases ul with
    | true =>
      cases hl : lru with
      | nil =>
        subst hl
        exact ⟨hnd, hmem⟩
      | cons frame rest =>
        obtain ⟨h1, h2⟩ := order_rotate hl hnd
        exact ⟨h1, fun f => (h2 f).trans (hmem f)⟩
    | false =>
      cases hl : fifo with
      | nil =>
        subst hl
        exact ⟨hnd, hmem⟩
      | cons frame rest =>
        obtain ⟨h1, h2⟩ := order_rotate hl hnd
        exact ⟨h1, fun f => (h2 f).trans (hmem f)⟩

theorem freeFrame_order {pm : PhysicalMemory} (frame : Int) (hwf : OrderWF pm) :
    OrderWF (pm.freeFrame frame) := by
  obtain ⟨n, free, fifo, lru, f2p, ul⟩ := pm
  obtain ⟨hnd, hmem⟩ := hwf
  unfold PhysicalMemory.freeFrame
  split
  · rename_i hr
    cases ul with
    | true => exact order_filter hr.1 hnd hmem
    | false => exact order_filter hr.1 hnd hmem
  · exact ⟨hnd, hmem⟩

theorem touch_order {pm : PhysicalMemory} (frame : Int) (hwf : OrderWF pm) :
    OrderWF (pm.touch frame) := by
  obtain ⟨n, free, fifo, lru, f2p, ul⟩ := pm
  obtain ⟨hnd, hmem⟩ := hwf
  unfold PhysicalMemory.touch
  cases ul with
  | true =>
    by_cases hin : frame ∈ lru
    · simp only [if_true, hin]
      obtain ⟨h1, h2⟩ := order_touch hin hnd
      exact ⟨h1, fun f => (h2 f).trans (hmem f)⟩
    · simp only [if_true, hin, if_false]
      exact ⟨hnd, hmem⟩
  | false => exact ⟨hnd, hmem⟩

theorem getFrameNumber_pool (pt : PageTable) (p t : Int) (a : Protection)
    (pm : PhysicalMemory) :
    (pt.getFrameNumber p t a pm).2.2 = pm ∨
      (pt.getFrameNumber p t a pm).2.2 = (pm.allocateFrame p t).2 ∨
      ∃ frame, (pt.getFrameNumber p t a pm).2.2 = pm.touch frame := by
  unfold PageTable.getFrameNumber
  split
  · exact Or.inl rfl
  · split
    · exact Or.inl rfl
    · split
      · right
        left
        split
        · rename_i hal
          rw [hal]
        · rename_i hal
          rw [hal]
      · split
        · exact Or.inl rfl
        · exact Or.inr (Or.inr ⟨_, rfl⟩)

theorem applyOp_order {pm : PhysicalMemory} (op : PoolOp) (hwf : OrderWF pm) :
    OrderWF (pm.applyOp op) := by
  cases op with
  | allocate pageNum time => exact allocateFrame_order pageNum time hwf
  | free frame => exact freeFrame_order frame hwf
  | resolve pt pageNum time accessType =>
    show OrderWF (pt.getFrameNumber pageNum time accessType pm).2.2
    rcases getFrameNumber_pool pt pageNum time accessType pm with h | h | ⟨frame, h⟩
    · rw [h]
      exact hwf
    · rw [h]
      exact allocateFrame_order pageNum time hwf
    · rw [h]
      exact touch_order frame hwf

theorem runOps_order {pm : PhysicalMemory} (ops : List PoolOp) (hwf : OrderWF pm) :
    OrderWF (pm.runOps ops) := by
  unfold PhysicalMemory.runOps
  induction ops generalizing pm with
  | nil => exact hwf
  | cons op ops ih =>
    simp only [List.foldl_cons]
    exact ih (applyOp_order op hwf)

/-- C18. Start from a constructed `PhysicalMemory` and run any sequence of
`allocateFrame`, `freeFrame` and `PageTable::getFrameNumber` calls (on any page tables).
The eviction structure in use (`lru_list` under LRU, `fifo_queue` under FIFO) then holds
no frame twice, and holds a frame exactly when that frame is marked occupied. -/
theorem activeOrder_exact (frames : Int) (lru : Bool) (pm0 : PhysicalMemory)
    (ops : List PoolOp) (h0 : PhysicalMemory.create frames lru = some pm0) :
    (pm0.runOps ops).activeOrder.Nodup ∧
      ∀ f : Int, f ∈ (pm0.runOps ops).activeOrder ↔
        0 ≤ f ∧ (pm0.runOps ops).free_frames[f.toNat]? = some false := by
  apply runOps_order ops
  unfold PhysicalMemory.create at h0
  split at h0
  · exact absurd h0 (by simp)
  · simp only [Option.some.injEq] at h0
    subst h0
    constructor
    · unfold PhysicalMemory.activeOrder
      cases lru <;> simp
    · intro f
      unfold PhysicalMemory.activeOrder PhysicalMemory.occupied
      have hnot : ¬(0 ≤ f ∧ (List.replicate frames.toNat true)[f.toNat]? = some false) := by
        rintro ⟨_, h⟩
        have := List.getElem?_mem h
        rw [List.mem_replicate] at this
        exact absurd this.2 (by simp)
      cases lru <;> simp [hnot]

/-- Witness of C18: `pool2 true` after an allocation, a second one, a release of frame 0
and a third allocation holds frames 1 and 0 in `lru_list`, both occupied. -/
theorem activeOrder_exact_witness :
    ((pool2 true).runOps [PoolOp.allocate 7 1, PoolOp.allocate 8 2, PoolOp.free 0,
        PoolOp.allocate 9 3]).activeOrder.Nodup ∧
      ∀ f : Int, f ∈ ((pool2 true).runOps [PoolOp.allocate 7 1, PoolOp.allocate 8 2,
          PoolOp.free 0, PoolOp.allocate 9 3]).activeOrder ↔
        0 ≤ f ∧ ((pool2 true).runOps [PoolOp.allocate 7 1, PoolOp.allocate 8 2,
          PoolOp.free 0, PoolOp.allocate 9 3]).free_frames[f.toNat]? = some false :=
  activeOrder_exact 2 true (pool2 true)
    [PoolOp.allocate 7 1, PoolOp.allocate 8 2, PoolOp.free 0, PoolOp.allocate 9 3] rfl

/-! ## Fault accounting -/

theorem bumpFault_none {segs : List Segment} {i : Int} (h : segmentAt segs i = none) :
    bumpFault segs i = segs := by
  unfold bumpFault
  rw [h]

theorem getFrameNumber_fault_kind {pt pt1 : PageTable} {pm pm1 : PhysicalMemory}
    {p t : Int} {a : Protection} {e : Fault}
    (h : pt.getFrameNumber p t a pm = (Outcome.throw e, pt1, pm1)) :
    e = Fault.invalidPage ∨ e = Fault.pageProtection ∨ e = Fault.memoryFullLRU ∨
      e = Fault.memoryFullFIFO := by
  unfold PageTable.getFrameNumber at h
  split at h
  · simp only [Prod.mk.injEq, Outcome.throw.injEq] at h
    exact Or.inl h.1.symm
  · split at h
    · simp only [Prod.mk.injEq, Outcome.throw.injEq] at h
      exact Or.inl h.1.symm
    · split at h
      · split at h
        · rename_i e1 pm2 hal
          simp only [Prod.mk.injEq, Outcome.throw.injEq] at h
          rw [← h.1]
          rcases (allocateFrame_fault hal).1 with he | he
          · exact Or.inr (Or.inr (Or.inl he))
          · exact Or.inr (Or.inr (Or.inr he))
        · simp at h
      · split at h
        · simp only [Prod.mk.injEq, Outcome.throw.injEq] at h
          exact Or.inr (Or.inl h.1.symm)
        · simp at h

/-- Supporting result for C16. The segment records after a `translateAddress` call are
those before it with `fault_count` of record `s` raised by one when the call ends with
a segmentation fault, a segment-level protection violation, a page-limit fault or an
offset fault, and are unchanged for every other outcome: an address, or an error thrown
by `getFrameNumber` (page-level protection violation, invalid page, memory full). -/
theorem translateAddress_fault_count (rnd : Nat → Nat) (st st1 : SegmentTable)
    (s d p off : Int) (a : Protection) (r : Outcome Int)
    (h : st.translateAddress rnd s d p off a = some (r, st1)) :
    st1.segments = if countsFault r = true then bumpFault st.segments s else st.segments := by
  refine translateAddress_elim
    (P := fun x y => y.segments
      = if countsFault x = true then bumpFault st.segments s else st.segments)
    h ?_ ?_ ?_ ?_
  · intro hnone
    simp only [countsFault, if_true]
    exact (bumpFault_none hnone).symm
  · intro _ _ _
    rfl
  · intro _ _ _ _
    rfl
  · intro seg dt dt1 pt pos1 _ _ _ _ _
    refine ⟨?_, ?_, ?_, ?_, ?_, ?_⟩
    · intro _ _
      rfl
    · intro _ _
      rfl
    · intro _ _
      rfl
    · intro _ _ _
      rfl
    · intro _ _ _ e pt1 pm1 hgf
      rcases getFrameNumber_fault_kind hgf with he | he | he | he <;> subst he <;> rfl
    · intro _ _ _ _ _ _ _ _ _
      rfl

/-- C16, the failing input. On the reachable state `tableTwo`, under a `rand()` stream
that starts every page resident and read-only, the write `translate(0, 0, 0, 0, Write)`
fails with the page-level Protection Violation thrown by `getFrameNumber`, and segment 0,
which has a record, keeps `fault_count = 0`. -/
theorem translateAddress_fault_not_counted :
    Reachable rndResident tableTwo ∧
      (tableTwo.translateAddress rndResident 0 0 0 0 Protection.READ_WRITE).map Prod.fst
        = some (Outcome.throw Fault.pageProtection) ∧
      (tableTwo.translateAddress rndResident 0 0 0 0 Protection.READ_WRITE).bind
          (fun res => segmentAt res.2.segments 0)
        = some (Segment.mk 0 2 Protection.READ_WRITE 0) :=
  ⟨⟨4, 10, true, table0, [Op.add 0 0 2 Protection.READ_WRITE], rfl, rfl⟩,
    by decide, by decide⟩

/-! ## Size of the TLB -/

/-- C17, counterexample. On a TLB of capacity 2, inserting key `(0, 0, 1)` twice and
then keys `(0, 0, 2)`, `(0, 0, 3)`, `(0, 0, 4)` leaves three cached entries: the second
insert put a duplicate into `lruOrder`, so the last eviction erased a key that was no
longer cached. -/
theorem put_overflow :
    ((TLB.create 2).runOps overflowOps).map (fun t => t.cache.length) = some 3 ∧
      ((TLB.create 2).runOps overflowOps).map (fun t => t.cache.map Prod.fst)
        = some [(0, 0, 2), (0, 0, 3), (0, 0, 4)] :=
  ⟨by decide, by decide⟩

theorem mapFind_eq_none_iff {κ β : Type} [DecidableEq κ] (k : κ) (m : List (κ × β)) :
    mapFind k m = none ↔ k ∉ m.map Prod.fst := by
  induction m with
  | nil => simp [mapFind]
  | cons hd tl ih =>
    obtain ⟨a, b⟩ := hd
    by_cases h : a = k
    · subst h
      simp [mapFind]
    · simp only [mapFind, if_neg h, ih, List.map_cons, List.mem_cons, not_or]
      exact ⟨fun h1 => ⟨Ne.symm h, h1⟩, fun h1 => h1.2⟩

theorem mapInsert_absent {κ β : Type} [DecidableEq κ] {k : κ} (v : β) {m : List (κ × β)}
    (h : k ∉ m.map Prod.fst) : mapInsert k v m = m ++ [(k, v)] := by
  induction m with
  | nil => rfl
  | cons hd tl ih =>
    obtain ⟨a, b⟩ := hd
    simp only [List.map_cons, List.mem_cons, not_or] at h
    simp only [mapInsert, if_neg (Ne.symm h.1), ih h.2, List.cons_append]

theorem mapErase_keys {κ β : Type} [DecidableEq κ] (k : κ) (m : List (κ × β)) :
    (mapErase k m).map Prod.fst = (m.map Prod.fst).filter (fun x => decide (x ≠ k)) := by
  induction m with
  | nil => rfl
  | cons hd tl ih =>
    obtain ⟨a, b⟩ := hd
    by_cases h : a = k
    · subst h
      simp [mapErase, ih]
    · simp [mapErase, h, ih]

theorem mapErase_length {κ β : Type} [DecidableEq κ] {k : κ} {m : List (κ × β)}
    (hnd : (m.map Prod.fst).Nodup) (hk : k ∈ m.map Prod.fst) :
    (mapErase k m).length + 1 = m.length := by
  induction m with
  | nil => simp at hk
  | cons hd tl ih =>
    obtain ⟨a, b⟩ := hd
    simp only [List.map_cons, List.nodup_cons] at hnd
    by_cases h : a = k
    · subst h
      have hnot : a ∉ (tl.map Prod.fst) := hnd.1
      have hsame : mapErase a tl = tl := by
        clear ih hk hnd
        induction tl with
        | nil => rfl
        | cons hd2 tl2 ih2 =>
          obtain ⟨c, e⟩ := hd2
          simp only [List.map_cons, List.mem_cons, not_or] at hnot
          simp only [mapErase, if_neg (Ne.symm hnot.1), ih2 hnot.2]
      simp only [mapErase, if_true, hsame, List.length_cons]
    · simp only [List.map_cons, List.mem_cons] at hk
      rcases hk with hk | hk
      · exact absurd hk.symm h
      · simp only [mapErase, if_neg h, List.length_cons]
        rw [ih hnd.2 hk]

theorem get_sync {t : TLB} (s d p : Int) (hs : TLBSync t) : TLBSync (t.get s d p).2 := by
  obtain ⟨h1, h2, h3, h4⟩ := hs
  cases hfind : mapFind (s, d, p) t.cache with
  | none =>
    unfold TLB.get
    rw [hfind]
    exact ⟨h1, h2, h3, h4⟩
  | some f =>
    unfold TLB.get
    rw [hfind]
    have hin : (s, d, p) ∈ t.cache.map Prod.fst := by
      by_contra hnot
      rw [(mapFind_eq_none_iff _ _).mpr hnot] at hfind
      cases hfind
    refine ⟨h1, ?_, ?_, h4⟩
    · apply nodup_snoc (h2.filter _)
      intro hmem
      have := (List.mem_filter.mp hmem).2
      simp at this
    · intro k
      dsimp only
      rw [List.mem_append, List.mem_singleton, List.mem_filter, h3 k]
      simp only [decide_eq_true_eq]
      constructor
      · rintro (⟨h, _⟩ | h)
        · exact h
        · rw [h]
          exact hin
      · intro h
        by_cases hk : k = (s, d, p)
        · exact Or.inr hk
        · exact Or.inl ⟨h, hk⟩

theorem put_sync {t t1 : TLB} {s d p frame : Int} (hs : TLBSync t)
    (hfresh : mapFind (s, d, p) t.cache = none) (h : t.put s d p frame = some t1) :
    TLBSync t1 := by
  obtain ⟨h1, h2, h3, h4⟩ := hs
  have hnot : (s, d, p) ∉ t.cache.map Prod.fst := (mapFind_eq_none_iff _ _).mp hfresh
  unfold TLB.put at h
  split at h
  · rename_i hfull
    unfold TLB.full at hfull
    simp only [decide_eq_true_eq] at hfull
    split at h
    · exact absurd h (by simp)
    · rename_i front rest hl
      simp only [Option.some.injEq] at h
      subst h
      rw [hl] at h2 h3
      obtain ⟨hfr, hrest⟩ := List.nodup_cons.mp h2
      have hfin : front ∈ t.cache.map Prod.fst := (h3 front).mp (List.mem_cons_self _ _)
      have hnot2 : (s, d, p) ∉ (mapErase front t.cache).map Prod.fst := by
        rw [mapErase_keys]
        intro hmem
        exact hnot (List.mem_of_mem_filter hmem)
      have hlen := mapErase_length h1 hfin
      rw [mapInsert_absent frame hnot2]
      refine ⟨?_, ?_, ?_, ?_⟩
      · rw [List.map_append, mapErase_keys]
        apply nodup_snoc (h1.filter _)
        intro hmem
        exact hnot (List.mem_of_mem_filter hmem)
      · apply nodup_snoc hrest
        intro hmem
        exact hnot ((h3 _).mp (List.mem_cons_of_mem _ hmem))
      · intro k
        rw [List.map_append, mapErase_keys, List.mem_append, List.mem_append,
          List.mem_filter]
        simp only [List.map_cons, List.map_nil, List.mem_singleton, decide_eq_true_eq]
        constructor
        · rintro (hk | hk)
          · refine Or.inl ⟨(h3 k).mp (List.mem_cons_of_mem _ hk), ?_⟩
            intro hkf
            subst hkf
            exact hfr hk
          · exact Or.inr hk
        · rintro (⟨hk, hne⟩ | hk)
          · rcases List.mem_cons.mp ((h3 k).mpr hk) with hk1 | hk1
            · exact absurd hk1 hne
            · exact Or.inl hk1
          · exact Or.inr hk
      · intro hcap
        have hcap1 : 1 ≤ t.maxSize := hcap
        have := h4 hcap1
        show ((mapErase front t.cache ++ [((s, d, p), frame)]).length : Int) ≤ t.maxSize
        rw [List.length_append, List.length_singleton]
        push_cast
        omega
  · rename_i hfull
    unfold TLB.full at hfull
    simp only [decide_eq_true_eq] at hfull
    simp only [Option.some.injEq] at h
    subst h
    rw [mapInsert_absent frame hnot]
    refine ⟨?_, ?_, ?_, ?_⟩
    · rw [List.map_append]
      exact nodup_snoc h1 hnot
    · apply nodup_snoc h2
      intro hmem
      exact hnot ((h3 _).mp hmem)
    · intro k
      rw [List.map_append, List.mem_append, List.mem_append, h3 k]
      simp
    · intro hcap
      have hcap1 : 1 ≤ t.maxSize := hcap
      show ((t.cache ++ [((s, d, p), frame)]).length : Int) ≤ t.maxSize
      rw [List.length_append, List.length_singleton]
      push_cast
      omega

theorem create_sync (size : Int) : TLBSync (TLB.create size) := by
  unfold TLBSync TLB.create
  refine ⟨by simp, by simp, by simp, ?_⟩
  intro h
  dsimp only at h ⊢
  simp only [List.length_nil, Nat.cast_zero]
  omega

theorem put_maxSize {t t1 : TLB} {s d p frame : Int} (h : t.put s d p frame = some t1) :
    t1.maxSize = t.maxSize := (put_find h).2.2

theorem get_maxSize (t : TLB) (s d p : Int) : (t.get s d p).2.maxSize = t.maxSize := by
  unfold TLB.get
  split <;> rfl

/-- C17, amended. On a TLB of capacity `c ≥ 1`, a sequence of lookups and inserts in
which every insert is for a key that is not cached at that moment (the way
`translateAddress` inserts, after a miss) never leaves more than `c` cached entries. -/
theorem runOps_bounded (c : Int) (ops : List TLBOp) (t : TLB) (hc : 1 ≤ c)
    (hrun : (TLB.create c).runOps ops = some t)
    (hfresh : (TLB.create c).putsFresh ops = true) : (t.cache.length : Int) ≤ c := by
  have key : ∀ (ops : List TLBOp) (t0 t1 : TLB), TLBSync t0 → t0.runOps ops = some t1 →
      t0.putsFresh ops = true → TLBSync t1 ∧ t1.maxSize = t0.maxSize := by
    intro ops
    induction ops with
    | nil =>
      intro t0 t1 hs hr _
      simp only [TLB.runOps, Option.some.injEq] at hr
      subst hr
      exact ⟨hs, rfl⟩
    | cons op ops ih =>
      intro t0 t1 hs hr hf
      simp only [TLB.runOps] at hr
      cases hop : t0.applyOp op with
      | none =>
        rw [hop] at hr
        exact absurd hr (by simp)
      | some t2 =>
        rw [hop] at hr
        simp only [TLB.putsFresh, hop, Bool.and_eq_true] at hf
        obtain ⟨hnow, hlater⟩ := hf
        cases op with
        | get s d p =>
          simp only [TLB.applyOp, Option.some.injEq] at hop
          subst hop
          obtain ⟨a1, a2⟩ := ih _ t1 (get_sync s d p hs) hr hlater
          exact ⟨a1, a2.trans (get_maxSize t0 s d p)⟩
        | put s d p frame =>
          simp only [TLB.applyOp] at hop
          simp only [Option.isNone_iff_eq_none] at hnow
          obtain ⟨a1, a2⟩ := ih _ t1 (put_sync hs hnow hop) hr hlater
          exact ⟨a1, a2.trans (put_maxSize hop)⟩
  obtain ⟨hs, hm⟩ := key ops (TLB.create c) t (create_sync c) hrun hfresh
  have hmax : t.maxSize = c := hm
  have := hs.2.2.2 (by omega)
  omega

/-- Witness of C17 (amended): `freshOps` on a TLB of capacity 2 leaves at most two
entries. -/
theorem runOps_bounded_witness : ((tlbFresh.cache.length : Nat) : Int) ≤ 2 :=
  runOps_bounded 2 freshOps tlbFresh (by decide) (by decide) (by decide)

/-- Supporting result for C17: `translateAddress` keeps the cache and the recency list
of the TLB in agreement, because it inserts only after a miss. -/
theorem translateAddress_sync {rnd : Nat → Nat} {st st1 : SegmentTable} {s d p off : Int}
    {a : Protection} {r : Outcome Int} (hwf : TLBWF st.tlb) (hs : TLBSync st.tlb)
    (h : st.translateAddress rnd s d p off a = some (r, st1)) :
    TLBSync st1.tlb ∧ st1.tlb.maxSize = st.tlb.maxSize := by
  have hprobe := get_sync s d p hs
  have hpm := get_maxSize st.tlb s d p
  refine translateAddress_elim
    (P := fun _ y => TLBSync y.tlb ∧ y.tlb.maxSize = st.tlb.maxSize) h ?_ ?_ ?_ ?_
  · intro _
    exact ⟨hs, rfl⟩
  · intro _ _ _
    exact ⟨hs, rfl⟩
  · intro _ _ _ _
    exact ⟨hs, rfl⟩
  · intro seg dt dt1 pt pos1 _ _ _ _ _
    refine ⟨?_, ?_, ?_, ?_, ?_, ?_⟩
    · intro _ _
      exact ⟨hprobe, hpm⟩
    · intro _ _
      exact ⟨hprobe, hpm⟩
    · intro _ _
      exact ⟨hprobe, hpm⟩
    · intro _ _ _
      exact ⟨hprobe, hpm⟩
    · intro _ _ _ _ _ _ _
      exact ⟨hprobe, hpm⟩
    · intro hmiss _ _ frame pt1 pm1 tlb2 _ hput
      have hnone : mapFind (s, d, p) st.tlb.cache = none := by
        cases hfind : mapFind (s, d, p) st.tlb.cache with
        | none => rfl
        | some f =>
          rw [(get_hit hfind).1] at hmiss
          exact absurd hmiss (hwf _ _ hfind).2
      have hnone2 : mapFind (s, d, p) (st.tlb.get s d p).2.cache = none := by
        rw [get_cache]
        exact hnone
      exact ⟨put_sync hprobe hnone2 hput, (put_maxSize hput).trans hpm⟩

/-- Supporting result for C17: in every reachable state of a table whose TLB capacity is
at least 1, the TLB holds no more entries than its capacity. -/
theorem reachable_tlb_bounded (rnd : Nat → Nat) (st : SegmentTable)
    (hreach : Reachable rnd st) (hcap : 1 ≤ st.tlb.maxSize) :
    (st.tlb.cache.length : Int) ≤ st.tlb.maxSize := by
  have key : ∀ (ops : List Op) (s0 s1 : SegmentTable), TableWF s0 → TLBSync s0.tlb →
      run rnd ops s0 = some s1 → TLBSync s1.tlb := by
    intro ops
    induction ops with
    | nil =>
      intro s0 s1 _ hs hr
      simp only [run, Option.some.injEq] at hr
      subst hr
      exact hs
    | cons op ops ih =>
      intro s0 s1 hwf hs hr
      simp only [run] at hr
      cases hst : step rnd s0 op with
      | none =>
        rw [hst] at hr
        exact absurd hr (by simp)
      | some s2 =>
        rw [hst] at hr
        apply ih s2 s1 (step_wf hwf hst) _ hr
        cases op with
        | add id base limit prot =>
          rw [(addSegment_spec hst).2.2.1]
          exact hs
        | remove id =>
          simp only [step, Option.some.injEq] at hst
          subst hst
          by_cases hok : (s0.removeSegment id).1 = Outcome.ok ()
          · obtain ⟨h0, h1, dt, hdt⟩ := (removeSegment_ok_iff s0 id).mp hok
            rw [removeSegment_ok h0 h1 hdt]
            exact hs
          · rw [removeSegment_throw s0 id hok]
            exact hs
        | translate s d p off a =>
          simp only [step] at hst
          cases htr : s0.translateAddress rnd s d p off a with
          | none =>
            rw [htr] at hst
            exact absurd hst (by simp)
          | some res =>
            obtain ⟨r, s3⟩ := res
            rw [htr] at hst
            simp only [Option.some.injEq] at hst
            subst hst
            exact (translateAddress_sync hwf.2.1 hs htr).1
  obtain ⟨tlbSize, _, _, st0, ops, h0, hrun⟩ := hreach
  have hs0 : TLBSync st0.tlb := by
    unfold SegmentTable.create at h0
    split at h0
    · exact absurd h0 (by simp)
    · simp only [Option.some.injEq] at h0
      rw [← h0]
      exact create_sync tlbSize
  exact (key ops st0 st (create_tableWF h0) hs0 hrun).2.2.2 hcap

/-! ## What a failed translation leaves alone -/

theorem set_same {α : Type} {l : List α} {i : Nat} {x : α} (h : l[i]? = some x) :
    l.set i x = l := by
  induction l generalizing i with
  | nil => rfl
  | cons hd tl ih =>
    cases i with
    | zero =>
      simp only [List.getElem?_cons_zero, Option.some.injEq] at h
      subst h
      rfl
    | succ i =>
      simp only [List.getElem?_cons_succ] at h
      simp only [List.set_cons_succ, ih h]

theorem dirGrown_refl (dt : DirectoryTable) : DirGrown dt dt :=
  ⟨rfl, [], by simp⟩

theorem failureKeeps_same {st st1 : SegmentTable} (hpm : st1.physMem = st.physMem)
    (htlb : st1.tlb = st.tlb) (hdts : st1.directoryTables = st.directoryTables) :
    FailureKeeps st st1 := by
  refine ⟨hpm, by rw [htlb], by rw [htlb], ?_, ?_, ?_⟩
  · intro s d p pg hpg
    rw [pageAt_congr hdts]
    exact hpg
  · intro x hx
    rw [hdts]
    exact hx
  · intro x dt hx
    rw [hdts]
    exact ⟨dt, hx, dirGrown_refl dt⟩

theorem failureKeeps_probe {rnd : Nat → Nat} {st st1 : SegmentTable} {s d p : Int}
    {dt dt1 : DirectoryTable} {pt : PageTable} {pos1 : Nat}
    (hdt : mapFind s st.directoryTables = some dt)
    (hg : dt.getPageTable rnd d 1000 (st.tick rnd).rand_pos = some (dt1, pt, pos1))
    (hpm : st1.physMem = st.physMem) (htlb : st1.tlb = (st.tlb.get s d p).2)
    (hdts : st1.directoryTables = mapInsert s dt1 st.directoryTables) :
    FailureKeeps st st1 := by
  obtain ⟨_, hmax, _, fresh, hpts, _⟩ := getPageTable_spec hg
  refine ⟨hpm, by rw [htlb, get_cache], by rw [htlb, get_maxSize], ?_, ?_, ?_⟩
  · intro s1 d1 p1 pg hpg
    have := pageAt_afterProbe (p := p) hdt hg s1 d1 p1 pg hpg
    rw [← this]
    apply pageAt_congr
    rw [hdts]
    rfl
  · intro x hx
    rw [hdts, mapFind_mapInsert]
    by_cases hsx : s = x
    · subst hsx
      rw [hdt] at hx
      cases hx
    · rw [if_neg hsx]
      exact hx
  · intro x dx hx
    rw [hdts, mapFind_mapInsert]
    by_cases hsx : s = x
    · subst hsx
      rw [hdt] at hx
      simp only [Option.some.injEq] at hx
      subst hx
      rw [if_pos rfl]
      exact ⟨dt1, rfl, hmax, fresh, hpts⟩
    · rw [if_neg hsx]
      exact ⟨dx, hx, dirGrown_refl dx⟩

theorem storePageTable_same {dts : List (Int × DirectoryTable)} {s d : Int}
    {dt1 : DirectoryTable} {pt : PageTable} (hget : dt1.pageTables[d.toNat]? = some pt) :
    storePageTable dts s dt1 d pt = mapInsert s dt1 dts := by
  unfold storePageTable
  rw [set_same hget]

/-- C21. Every `translateAddress` call that fails, with any error, leaves unchanged the
frame pool (occupancy, eviction order, `frame_to_page`), the key-to-frame mapping and the
capacity of the TLB, and every field of every page that existed; the segment table keeps
its length and every record keeps base, limit and protection; no directory appears or
disappears, and a directory keeps its capacity and its existing page tables, with page
tables created by the call appended at most. What can differ is the clock and the
latency totals, fault counts, the TLB counters and recency order, and the lazily created
page tables. -/
theorem translateAddress_failure_effect (rnd : Nat → Nat) (st st1 : SegmentTable)
    (s d p off : Int) (a : Protection) (e : Fault)
    (h : st.translateAddress rnd s d p off a = some (Outcome.throw e, st1)) :
    st1.physMem = st.physMem ∧ st1.tlb.cache = st.tlb.cache ∧
      st1.tlb.maxSize = st.tlb.maxSize ∧
      (∀ s1 d1 p1 pg, pageAt st s1 d1 p1 = some pg → pageAt st1 s1 d1 p1 = some pg) ∧
      (∀ x, mapFind x st.directoryTables = none → mapFind x st1.directoryTables = none) ∧
      (∀ x dt, mapFind x st.directoryTables = some dt →
        ∃ dt1, mapFind x st1.directoryTables = some dt1 ∧
          dt1.max_pages_per_table = dt.max_pages_per_table ∧
          ∃ fresh, dt1.pageTables = dt.pageTables ++ fresh) ∧
      st1.segments.length = st.segments.length ∧
      (∀ x seg1, segmentAt st1.segments x = some seg1 →
        ∃ seg, segmentAt st.segments x = some seg ∧
          seg1.base_address = seg.base_address ∧ seg1.limit = seg.limit ∧
          seg1.protection = seg.protection) := by
  have hkeep : FailureKeeps st st1 := by
    refine translateAddress_elim
      (P := fun r y => ∀ e1, r = Outcome.throw e1 → FailureKeeps st y)
      h ?_ ?_ ?_ ?_ e rfl
    · intro _ _ _
      exact failureKeeps_same rfl rfl rfl
    · intro _ _ _ _ _
      exact failureKeeps_same rfl rfl rfl
    · intro _ _ _ _ _ _
      exact failureKeeps_same rfl rfl rfl
    · intro seg dt dt1 pt pos1 _ _ _ hdt hg
      refine ⟨?_, ?_, ?_, ?_, ?_, ?_⟩
      · intro _ _ _ _
        exact failureKeeps_probe hdt hg rfl rfl rfl
      · intro _ _ e1 he1
        cases he1
      · intro _ _ _ _
        exact failureKeeps_probe hdt hg rfl rfl rfl
      · intro _ _ _ _ _
        exact failureKeeps_probe hdt hg rfl rfl rfl
      · intro _ _ _ e2 pt1 pm1 hgf _ _
        obtain ⟨hpt, hpm, _⟩ := getFrameNumber_throw hgf
        subst hpt hpm
        exact failureKeeps_probe hdt hg rfl rfl
          (storePageTable_same (getPageTable_spec hg).2.2.1)
      · intro _ _ _ _ _ _ _ _ _ e1 he1
        cases he1
  have hsegs := translateAddress_fault_count rnd st st1 s d p off a (Outcome.throw e) h
  have hcase : st1.segments = st.segments ∨ st1.segments = bumpFault st.segments s := by
    rw [hsegs]
    split
    · exact Or.inr rfl
    · exact Or.inl rfl
  obtain ⟨k1, k2, k3, k4, k5, k6⟩ := hkeep
  refine ⟨k1, k2, k3, k4, k5, k6, ?_, ?_⟩
  · rcases hcase with hc | hc
    · rw [hc]
    · rw [hc, bumpFault_length]
  · intro x seg1 hx
    rcases hcase with hc | hc
    · rw [hc] at hx
      exact ⟨seg1, hx, rfl, rfl, rfl⟩
    · rw [hc] at hx
      obtain ⟨seg, h1, h2, h3, h4, _⟩ := segmentAt_bumpFault hx
      exact ⟨seg, h1, h2, h3, h4⟩

/-- Witness of C21: the read of page 10 of segment 0 (limit 10) on `table1` fails with
the page-limit fault and leads to `tableFault`; frame pool and TLB mapping are those of
`table1`. -/
theorem translateAddress_failure_effect_witness :
    tableFault.physMem = table1.physMem ∧ tableFault.tlb.cache = table1.tlb.cache :=
  have h := translateAddress_failure_effect rndAbsent table1 tableFault 0 0 10 0
    Protection.READ_ONLY Fault.pageLimit (by decide)
  ⟨h.1, h.2.1⟩

end MultiLevel
